import Mathlib

/-!
Verification development for a small Kaleidoscope-style JIT front end.

The embedding below follows the repository's sources:

* `src/lexer.{h,cpp}`   — character stream to tokens (`gettok`);
* `src/parser.{h,cpp}`  — tokens to AST (`ParseExpression`, `ParseBinOpRHS`,
  `ParsePrototype`, ...), with the operator-precedence table;
* `src/ast.{h,cpp}`     — AST node types and their `codegen` methods lowering
  to LLVM-style IR (modelled by `cgExpr`, `functionCodegen`, `getFunction`);
* `src/codegen.{h,cpp}` — the global lowering state (context, module, named
  values, prototype registry), modelled by `CGState`;
* `src/main.cpp`        — the driver (`handleTopLevelExpression`, the seeded
  precedence table, the host helpers).

Machine doubles are treated parametrically: every definition that computes
with 64-bit floats is parametrised by a `FloatSem F` packaging the operations
the code uses (`fadd`, `fsub`, `fmul`, `fdiv`, the `ult`/`one` comparisons,
`uitofp`, and the constants 0.0 and 1.0).  Theorems proved for every `F` in
particular hold for IEEE-754 binary64; executable witnesses instantiate `F`
at `ℚ`, where the handful of concrete values involved (4, 5, 9, ...) are
exactly the values the doubles take.
-/

namespace Kal

/-- Operations on the 64-bit float type that the generated code and the
reference interpreter use.  `ult` is LLVM's `fcmp ult`, `cmpone` is
`fcmp one`, `ofBool` is `uitofp i1 → double`. -/
structure FloatSem (F : Type) where
  add : F → F → F
  sub : F → F → F
  mul : F → F → F
  div : F → F → F
  ult : F → F → Bool
  cmpone : F → F → Bool
  ofBool : Bool → F
  zero : F
  one : F

/-- Instance at the rationals, used by executable witnesses. -/
def ratSem : FloatSem ℚ where
  add := (· + ·)
  sub := (· - ·)
  mul := (· * ·)
  div := (· / ·)
  ult := fun a b => decide (a < b)
  cmpone := fun a b => decide (a ≠ b)
  ofBool := fun b => if b then 1 else 0
  zero := 0
  one := 1

/-! ## Expression AST (`src/ast.h`)

One constructor per `ExprAST` subclass: `NumberExprAST`, `VariableExprAST`,
`UnaryExprAST`, `BinaryExprAST`, `CallExprAST`, `IfExprAST`, `ForExprAST`,
`VarExprAST`.  Children are owned (no nulls, no sharing), matching the
`unique_ptr` fields. -/
inductive Expr (F : Type) where
  | num (val : F)
  | varRef (name : String)
  | unaryE (opcode : Char) (operand : Expr F)
  | binE (op : Char) (lhs rhs : Expr F)
  | callE (callee : String) (args : List (Expr F))
  | ifE (cond then_ else_ : Expr F)
  | forE (varName : String) (start end_ : Expr F) (step : Option (Expr F)) (body : Expr F)
  | varInE (varNames : List (String × Option (Expr F))) (body : Expr F)
deriving Repr

/-- Function prototype (`PrototypeAST`): name, argument names, operator flag
and (binary) precedence.  The constructor defaults in the source are
`isoperator = false`, `precedence = 0`. -/
structure ProtoA where
  name : String
  args : List String
  isOperator : Bool
  precedence : ℕ
deriving Repr, DecidableEq

/-- Corresponds to `PrototypeAST::isUnaryOp`. -/
def ProtoA.isUnaryOp (p : ProtoA) : Bool := p.isOperator && p.args.length == 1

/-- Corresponds to `PrototypeAST::isBinaryOp`. -/
def ProtoA.isBinaryOp (p : ProtoA) : Bool := p.isOperator && p.args.length == 2

/-- Corresponds to `PrototypeAST::getOperatorName`: the last character of the
function name. -/
def ProtoA.operatorName (p : ProtoA) : Char := p.name.back

/-- Function definition (`FunctionAST`): prototype plus body expression. -/
structure FunctionA (F : Type) where
  proto : ProtoA
  body : Expr F

/-! ## Lexer (`src/lexer.cpp`)

The C lexer pulls characters one at a time with `getchar()` and keeps one
look-ahead character in the static `LastChar` (initially a space).  The
state is that look-ahead (`none` models `EOF`) plus the unread input. -/

/-- Look-ahead character (`none` = `EOF`) and remaining input. -/
structure LexState where
  lastChar : Option Char
  input : List Char
deriving Repr, DecidableEq

/-- Predicate `isspace` of `<cctype>` in the default locale. -/
def isspaceC (c : Char) : Bool :=
  c = ' ' || c = '\t' || c = '\n' || c = Char.ofNat 11 || c = Char.ofNat 12 || c = '\r'

/-- Predicate `isalpha` of `<cctype>` in the default locale. -/
def isalphaC (c : Char) : Bool :=
  ('A' ≤ c && c ≤ 'Z') || ('a' ≤ c && c ≤ 'z')

/-- Predicate `isdigit` of `<cctype>`. -/
def isdigitC (c : Char) : Bool := '0' ≤ c && c ≤ '9'

/-- Predicate `isalnum` of `<cctype>` in the default locale. -/
def isalnumC (c : Char) : Bool := isalphaC c || isdigitC c

/-- Loop `while (isspace(LastChar)) LastChar = getchar();` (lexer.cpp:15-17),
on the look-ahead and remaining input. -/
def skipWsL : Option Char → List Char → Option Char × List Char
  | none, inp => (none, inp)
  | some c, inp =>
    if isspaceC c then
      match inp with
      | [] => (none, [])
      | d :: r => skipWsL (some d) r
    else (some c, inp)

/-- Loop `while (isalnum((LastChar = getchar()))) IdentifierStr += LastChar;`
(lexer.cpp:23-25): `acc` already holds the identifier's first character. -/
def readIdentL (acc : String) : List Char → String × (Option Char × List Char)
  | [] => (acc, (none, []))
  | c :: r =>
    if isalnumC c then readIdentL (acc.push c) r
    else (acc, (some c, r))

/-- Loop `do { NumStr += LastChar; LastChar = getchar(); } while (isdigit ||
'.')` (lexer.cpp:54-57): `cur` is the current look-ahead (a digit or dot). -/
def readNumL (acc : String) (cur : Char) : List Char → String × (Option Char × List Char)
  | [] => (acc.push cur, (none, []))
  | c :: r =>
    if isdigitC c || c = '.' then readNumL (acc.push cur) c r
    else (acc.push cur, (some c, r))

/-- Loop `do { LastChar = getchar(); } while (LastChar != EOF && LastChar !=
'\n' && LastChar != '\r');` (lexer.cpp:64-66). -/
def skipCommentL : List Char → Option Char × List Char
  | [] => (none, [])
  | c :: r =>
    if c ≠ '\n' && c ≠ '\r' then skipCommentL r
    else (some c, r)

/-- Value of a digit string accumulated left to right. -/
def digitsVal (ds : List Char) : ℕ :=
  ds.foldl (fun a c => 10 * a + (c.toNat - '0'.toNat)) 0

/-- Splits off the leading run of decimal digits. -/
def splitDigits : List Char → List Char × List Char
  | [] => ([], [])
  | c :: r =>
    if isdigitC c then
      let (d, t) := splitDigits r
      (c :: d, t)
    else ([], c :: r)

/-- Models `strtod` (lexer.cpp:58) on strings drawn from `[0-9.]*`: an
integer part, then at most one fractional part; conversion stops at a second
dot, and a string with no digits before one converts to 0.  The value is
kept as an exact rational; no claim settled here depends on the rounding of
the decimal to a double. -/
def strtodModel (s : List Char) : ℚ :=
  let (ip, r) := splitDigits s
  match r with
  | '.' :: r' =>
    let (fp, _) := splitDigits r'
    (digitsVal ip : ℚ) + (digitsVal fp : ℚ) / ((10 : ℚ) ^ fp.length)
  | _ => (digitsVal ip : ℚ)

/-- Token variant (`enum Token`, lexer.h:6-28, with the payloads carried by
the globals `IdentifierStr` and `NumVal`).  `tunary`, `tbinary` and `tvar`
are the declared values `tok_unary`, `tok_binary`, `tok_var`; a `tchar`
carries the character whose code `gettok` returns on its default path. -/
inductive Tok where
  | teof
  | tdef
  | textrn
  | tident (s : String)
  | tnum (v : ℚ)
  | tif
  | tthen
  | telse
  | tfor
  | tin
  | tunary
  | tbinary
  | tvar
  | tchar (c : Char)
deriving Repr, DecidableEq

/-- Keyword table of `gettok` (lexer.cpp:27-48).  Only `def`, `extern`,
`if`, `then`, `else`, `for` and `in` are classified; the lexer never returns
`tok_binary`, `tok_unary` or `tok_var`, although `lexer.h` declares them and
`ParsePrototype` switches on them. -/
def classifyIdent (s : String) : Tok :=
  if s = "def" then .tdef
  else if s = "extern" then .textrn
  else if s = "if" then .tif
  else if s = "then" then .tthen
  else if s = "else" then .telse
  else if s = "for" then .tfor
  else if s = "in" then .tin
  else .tident s

/-- One step of `gettok` (lexer.cpp:11-82).  The fuel bounds the number of
comment-skipping recursions (lexer.cpp:70), each of which consumes input. -/
def gettokF : ℕ → LexState → Tok × LexState
  | 0, s => (.teof, s)
  | fuel + 1, s =>
    let (lc, inp) := skipWsL s.lastChar s.input
    match lc with
    | none => (.teof, ⟨none, inp⟩)
    | some c =>
      if isalphaC c then
        let (name, (lc', inp')) := readIdentL (String.singleton c) inp
        (classifyIdent name, ⟨lc', inp'⟩)
      else if isdigitC c || c = '.' then
        let (numStr, (lc', inp')) := readNumL "" c inp
        (.tnum (strtodModel numStr.toList), ⟨lc', inp'⟩)
      else if c = '#' then
        let (lc', inp') := skipCommentL inp
        match lc' with
        | none => (.teof, ⟨none, inp'⟩)
        | some _ => gettokF fuel ⟨lc', inp'⟩
      else
        match inp with
        | [] => (.tchar c, ⟨none, []⟩)
        | d :: r => (.tchar c, ⟨some d, r⟩)

/-- The lexer's `gettok` with enough fuel for its input. -/
def gettok (s : LexState) : Tok × LexState :=
  gettokF (s.input.length + 1) s

/-- Initial lexer state: `LastChar = ' '` (lexer.cpp:12) and the stream. -/
def lexInit (src : String) : LexState :=
  ⟨some ' ', src.toList⟩

/-- Collects the whole token stream (the driver's repeated `getNextToken`),
stopping at the end-of-input token. -/
def lexAllF : ℕ → LexState → List Tok
  | 0, _ => []
  | fuel + 1, s =>
    match gettok s with
    | (.teof, _) => []
    | (t, s') => t :: lexAllF fuel s'

/-- Token stream of a source string. -/
def tokenize (src : String) : List Tok :=
  lexAllF (src.length + 1) (lexInit src)

/-! ## Parser (`src/parser.cpp`)

The parser reads `CurTok` and advances with `getNextToken()`; the state is
the current token plus the unconsumed remainder of the stream.  An error
path calls `LogError`/`LogErrorP` (print a diagnostic, return null); it is
modelled by `Except.error` carrying the diagnostic text.  The mutually
recursive productions consume fuel on entry; every theorem below supplies
enough of it for its input. -/

/-- Current token (`CurTok`) plus the rest of the stream. -/
structure PState where
  cur : Tok
  toks : List Tok
deriving Repr, DecidableEq

/-- Corresponds to `getNextToken()`: advance by one token.  An exhausted
stream keeps producing the end-of-input token, as the real lexer does. -/
def getNextToken (st : PState) : PState :=
  match st.toks with
  | [] => ⟨.teof, []⟩
  | t :: r => ⟨t, r⟩

/-- Builds the parser state the driver sees after priming the first token. -/
def mkPState : List Tok → PState
  | [] => ⟨.teof, []⟩
  | t :: r => ⟨t, r⟩

/-- Test `__isascii(CurTok)` (parser.cpp:101,117,190,209): keyword,
identifier and number tokens are the negative `Token` enum values, for which
it is false; a single-character token carries the character's code. -/
def isasciiT : Tok → Bool
  | .tchar c => c.toNat ≤ 127
  | _ => false

/-- Narrowing `(char)CurTok` of a single-character token; the non-`tchar`
cases are unreachable behind the `__isascii` tests that guard every use. -/
def tokChar : Tok → Char
  | .tchar c => c
  | _ => Char.ofNat 0

/-- Operator-precedence table `BinopPrecedence` (parser.cpp:99): a total map
with default 0, the behaviour of `std::map::operator[]` for an absent key. -/
abbrev PrecTable := Char → ℕ

/-- Pointwise update of a precedence table. -/
def ctSet (m : PrecTable) (k : Char) (v : ℕ) : PrecTable :=
  fun c => if c = k then v else m c

/-- Corresponds to `GetTokPrecedence` (parser.cpp:100-110): `-1` unless the
current token is an ASCII character with a positive table entry. -/
def GetTokPrecedence (T : PrecTable) (t : Tok) : ℤ :=
  if isasciiT t then
    if T (tokChar t) ≤ 0 then -1 else (T (tokChar t) : ℤ)
  else -1

/-- Seeding of `BinopPrecedence` in `main` (main.cpp:164-169); every other
character keeps the `std::map` default 0. -/
def seededTable : PrecTable := fun c =>
  if c = '=' then 2
  else if c = '<' then 10
  else if c = '+' then 20
  else if c = '-' then 20
  else if c = '*' then 40
  else 0

/-- Corresponds to `ParseNumberExpr` (parser.cpp:18-22). -/
def ParseNumberExpr (st : PState) : Except String (Expr ℚ × PState) :=
  match st.cur with
  | .tnum v => .ok (.num v, getNextToken st)
  | _ => .error "ParseNumberExpr called on a non-number token"

mutual

/-- Corresponds to `ParsePrimary` (parser.cpp:81-97). -/
def ParsePrimary (T : PrecTable) : ℕ → PState → Except String (Expr ℚ × PState)
  | 0, _ => .error "parser out of fuel"
  | fuel + 1, st =>
    match st.cur with
    | .tident _ => ParseIdentifierOrCallExpr T fuel st
    | .tnum _ => ParseNumberExpr st
    | .tchar '(' => ParseParenExpr T fuel st
    | .tif => ParseIfExpr T fuel st
    | .tfor => ParseForExpr T fuel st
    | _ => .error "unknown token when expecting an expression"

/-- Corresponds to `ParseParenExpr` (parser.cpp:25-37). -/
def ParseParenExpr (T : PrecTable) : ℕ → PState → Except String (Expr ℚ × PState)
  | 0, _ => .error "parser out of fuel"
  | fuel + 1, st =>
    let st := getNextToken st
    match ParseExpression T fuel st with
    | .error e => .error e
    | .ok (v, st) =>
      if st.cur = .tchar ')' then .ok (v, getNextToken st)
      else .error "expected ')' "

/-- Corresponds to `ParseIdentifierOrCallExpr` (parser.cpp:42-73).  Note the
argument loop parses an expression before looking for `)`, so a
zero-argument call does not parse. -/
def ParseIdentifierOrCallExpr (T : PrecTable) : ℕ → PState → Except String (Expr ℚ × PState)
  | 0, _ => .error "parser out of fuel"
  | fuel + 1, st =>
    match st.cur with
    | .tident idName =>
      let st := getNextToken st
      if st.cur = .tchar '(' then
        ParseCallArgs T fuel idName [] (getNextToken st)
      else
        .ok (.varRef idName, st)
    | _ => .error "ParseIdentifierOrCallExpr called on a non-identifier token"

/-- Loop `while (true) { ... }` of parser.cpp:49-66 collecting call
arguments. -/
def ParseCallArgs (T : PrecTable) : ℕ → String → List (Expr ℚ) → PState →
    Except String (Expr ℚ × PState)
  | 0, _, _, _ => .error "parser out of fuel"
  | fuel + 1, idName, acc, st =>
    match ParseExpression T fuel st with
    | .error e => .error e
    | .ok (arg, st) =>
      if st.cur = .tchar ')' then
        .ok (.callE idName (acc ++ [arg]), getNextToken st)
      else if st.cur = .tchar ',' then
        ParseCallArgs T fuel idName (acc ++ [arg]) (getNextToken st)
      else
        .error "Expected ')' or ',' in argument list"

/-- Corresponds to `ParseUnary` (parser.cpp:115-129): anything that is not
an ASCII character, or is `(` or `,`, must be a primary; otherwise consume
the operator and recurse. -/
def ParseUnary (T : PrecTable) : ℕ → PState → Except String (Expr ℚ × PState)
  | 0, _ => .error "parser out of fuel"
  | fuel + 1, st =>
    if !isasciiT st.cur || st.cur = .tchar '(' || st.cur = .tchar ',' then
      ParsePrimary T fuel st
    else
      let opc := tokChar st.cur
      match ParseUnary T fuel (getNextToken st) with
      | .ok (operand, st) => .ok (.unaryE opc operand, st)
      | .error e => .error e

/-- Corresponds to `ParseBinOpRHS` (parser.cpp:133-159): return the left
operand when the current token's precedence is below the minimum; otherwise
consume the operator, parse a unary right operand, recurse with minimum
`TokPrec + 1` exactly when the next operator binds strictly tighter, fold
into a Binary node and loop. -/
def ParseBinOpRHS (T : PrecTable) : ℕ → ℤ → Expr ℚ → PState → Except String (Expr ℚ × PState)
  | 0, _, _, _ => .error "parser out of fuel"
  | fuel + 1, exprPrec, lhs, st =>
    let tokPrec := GetTokPrecedence T st.cur
    if tokPrec < exprPrec then .ok (lhs, st)
    else
      let binOp := tokChar st.cur
      match ParseUnary T fuel (getNextToken st) with
      | .error e => .error e
      | .ok (rhs, st) =>
        let nextPrec := GetTokPrecedence T st.cur
        match (if tokPrec < nextPrec then ParseBinOpRHS T fuel (tokPrec + 1) rhs st
               else .ok (rhs, st)) with
        | .error e => .error e
        | .ok (rhs, st) => ParseBinOpRHS T fuel exprPrec (.binE binOp lhs rhs) st

/-- Corresponds to `ParseExpression` (parser.cpp:164-170). -/
def ParseExpression (T : PrecTable) : ℕ → PState → Except String (Expr ℚ × PState)
  | 0, _ => .error "parser out of fuel"
  | fuel + 1, st =>
    match ParseUnary T fuel st with
    | .ok (lhs, st) => ParseBinOpRHS T fuel 0 lhs st
    | .error e => .error e

/-- Corresponds to `ParseIfExpr` (parser.cpp:265-294). -/
def ParseIfExpr (T : PrecTable) : ℕ → PState → Except String (Expr ℚ × PState)
  | 0, _ => .error "parser out of fuel"
  | fuel + 1, st =>
    let st := getNextToken st
    match ParseExpression T fuel st with
    | .error e => .error e
    | .ok (condn, st) =>
      if st.cur ≠ .tthen then .error "Expected 'then' !"
      else
        match ParseExpression T fuel (getNextToken st) with
        | .error e => .error e
        | .ok (thenBody, st) =>
          if st.cur ≠ .telse then .error "'else' expected after 'if - then' !"
          else
            match ParseExpression T fuel (getNextToken st) with
            | .error e => .error e
            | .ok (elseBody, st) => .ok (.ifE condn thenBody elseBody, st)

/-- Corresponds to `ParseForExpr` (parser.cpp:297-345). -/
def ParseForExpr (T : PrecTable) : ℕ → PState → Except String (Expr ℚ × PState)
  | 0, _ => .error "parser out of fuel"
  | fuel + 1, st =>
    let st := getNextToken st
    match st.cur with
    | .tident idName =>
      let st := getNextToken st
      if st.cur ≠ .tchar '=' then .error "expected '=' after for "
      else
        match ParseExpression T fuel (getNextToken st) with
        | .error e => .error e
        | .ok (start, st) =>
          if st.cur ≠ .tchar ',' then .error "expected ',' after for start value"
          else
            match ParseExpression T fuel (getNextToken st) with
            | .error e => .error e
            | .ok (endE, st) =>
              match (if st.cur = .tchar ',' then
                       match ParseExpression T fuel (getNextToken st) with
                       | .error e => .error e
                       | .ok (stepE, st) => .ok (some stepE, st)
                     else .ok (none, st) :
                      Except String (Option (Expr ℚ) × PState)) with
              | .error e => .error e
              | .ok (step, st) =>
                if st.cur ≠ .tin then .error "expected 'in' after for"
                else
                  match ParseExpression T fuel (getNextToken st) with
                  | .error e => .error e
                  | .ok (body, st) => .ok (.forE idName start endE step body, st)
    | _ => .error "expected identifier after for"

end

/-- Loop `while (getNextToken() == tok_identifier)` (parser.cpp:226-228)
collecting prototype argument names, recursing over the unread stream. -/
def ParseProtoArgsL (acc : List String) : List Tok → List String × PState
  | [] => (acc, ⟨.teof, []⟩)
  | .tident s :: r => ParseProtoArgsL (acc ++ [s]) r
  | t :: r => (acc, ⟨t, r⟩)

/-- Loop `while (getNextToken() == tok_identifier)` (parser.cpp:226-228)
collecting prototype argument names. -/
def ParseProtoArgs (acc : List String) (st : PState) : List String × PState :=
  ParseProtoArgsL acc st.toks

/-- Conversion of the double `NumVal` to the `unsigned BinaryPrecedence`
(parser.cpp:203): truncation toward zero, applied to values in [1,100]. -/
def ratToUnsigned (v : ℚ) : ℕ := v.floor.toNat

/-- Comparison `v < n` of the double `NumVal` against an integer bound,
written on the rational's numerator and denominator so that it evaluates by
kernel reduction. -/
def ratLtIntB (v : ℚ) (n : ℤ) : Bool := v.num < n * (v.den : ℤ)

/-- Comparison `n < v` of an integer bound against the double `NumVal`,
written on the rational's numerator and denominator so that it evaluates by
kernel reduction. -/
def intLtRatB (n : ℤ) (v : ℚ) : Bool := n * (v.den : ℤ) < v.num

/-- Shared tail of `ParsePrototype` (parser.cpp:222-239): the parenthesised
argument list, the arity check for operator kinds, and the node. -/
def ParsePrototypeTail (fnName : String) (kind : ℕ) (prec : ℕ) (st : PState) :
    Except String (ProtoA × PState) :=
  if st.cur ≠ .tchar '(' then .error "Expected '(' in prototype"
  else
    let (argNames, st) := ParseProtoArgs [] st
    if st.cur ≠ .tchar ')' then .error "Expected ')' in prototype"
    else
      let st := getNextToken st
      if kind ≠ 0 && argNames.length ≠ kind then
        .error "Invalid number of operands for operator"
      else
        .ok (⟨fnName, argNames, kind ≠ 0, prec⟩, st)

/-- Corresponds to `ParsePrototype` (parser.cpp:176-240).  In the `binary`
case the `getNextToken()` after the optional precedence literal is
unconditional (parser.cpp:205): when the literal is absent it consumes the
token that should have been the `(` of the argument list. -/
def ParsePrototype (st : PState) : Except String (ProtoA × PState) :=
  match st.cur with
  | .tident fnName => ParsePrototypeTail fnName 0 20 (getNextToken st)
  | .tbinary =>
    let st := getNextToken st
    if !isasciiT st.cur then .error "Expected binary operator"
    else
      let fnName := String.push "binary" (tokChar st.cur)
      let st := getNextToken st
      match st.cur with
      | .tnum v =>
        if ratLtIntB v 1 || intLtRatB 100 v then
          .error "Precedence value must be in range 1...100"
        else ParsePrototypeTail fnName 2 (ratToUnsigned v) (getNextToken st)
      | _ => ParsePrototypeTail fnName 2 20 (getNextToken st)
  | .tunary =>
    let st := getNextToken st
    if !isasciiT st.cur then .error "Expected unary operator"
    else
      let fnName := String.push "unary" (tokChar st.cur)
      ParsePrototypeTail fnName 1 20 (getNextToken st)
  | _ => .error "Expected function name in prototype"

/-- Corresponds to `ParseDefinition` (parser.cpp:243-256). -/
def ParseDefinition (T : PrecTable) (fuel : ℕ) (st : PState) :
    Except String (FunctionA ℚ × PState) :=
  let st := getNextToken st
  match ParsePrototype st with
  | .error e => .error e
  | .ok (proto, st) =>
    match ParseExpression T fuel st with
    | .error e => .error e
    | .ok (body, st) => .ok (⟨proto, body⟩, st)

/-- Corresponds to `ParseExtern` (parser.cpp:259-262). -/
def ParseExtern (st : PState) : Except String (ProtoA × PState) :=
  ParsePrototype (getNextToken st)

/-- Corresponds to `ParseTopLevelExpr` (parser.cpp:348-357): wrap the
expression in the anonymous prototype `__anon_expr` (no arguments; the
`PrototypeAST` constructor defaults give `isoperator = false`,
`precedence = 0`). -/
def ParseTopLevelExpr (T : PrecTable) (fuel : ℕ) (st : PState) :
    Except String (FunctionA ℚ × PState) :=
  match ParseExpression T fuel st with
  | .error e => .error e
  | .ok (body, st) => .ok (⟨⟨"__anon_expr", [], false, 0⟩, body⟩, st)

/-! ## IR (the fragment of LLVM IR that `ast.cpp` emits)

A function is a list of basic blocks; a block is a list of instructions and
an optional terminator (none while the builder is still positioned in it).
Instruction operands are constants, virtual registers, or incoming function
arguments; `alloca` slots are numbered statically by the builder state. -/

/-- Operand of an instruction: an SSA register, a function argument, or a
floating constant. -/
inductive Operand (F : Type) where
  | reg (n : ℕ)
  | arg (i : ℕ)
  | cst (v : F)
deriving Repr

/-- Instructions generated by the code in `ast.cpp` (`CreateFAdd`,
`CreateFSub`, `CreateFMul`, `CreateFDiv`, `CreateFCmpULT`, `CreateFCmpONE`,
`CreateUIToFP`, `CreatePHI`, `CreateAlloca`, `CreateLoad`, `CreateStore`,
`CreateCall`).  Each value-producing instruction names its destination
register. -/
inductive Instr (F : Type) where
  | fadd (d : ℕ) (l r : Operand F)
  | fsub (d : ℕ) (l r : Operand F)
  | fmul (d : ℕ) (l r : Operand F)
  | fdiv (d : ℕ) (l r : Operand F)
  | fcmpult (d : ℕ) (l r : Operand F)
  | fcmpone (d : ℕ) (l r : Operand F)
  | uitofp (d : ℕ) (x : Operand F)
  | phi (d : ℕ) (incoming : List (Operand F × ℕ))
  | alloca (slot : ℕ) (name : String)
  | load (d : ℕ) (slot : ℕ)
  | store (v : Operand F) (slot : ℕ)
  | callI (d : ℕ) (callee : String) (args : List (Operand F))
deriving Repr

/-- Block terminators: `CreateRet`, `CreateBr`, `CreateCondBr`. -/
inductive Term (F : Type) where
  | ret (v : Operand F)
  | br (b : ℕ)
  | condbr (c : Operand F) (t e : ℕ)
deriving Repr

/-- One basic block.  `term = none` while the block is still open. -/
structure Block (F : Type) where
  instrs : List (Instr F)
  term : Option (Term F)
deriving Repr

/-- An IR function in the module: argument names and basic blocks keyed by
their creation index, in attachment order (the entry block first).  A
declaration has no blocks, matching `llvm::Function::empty()`. -/
structure FnIR (F : Type) where
  args : List String
  blocks : List (ℕ × Block F)
deriving Repr

/-- Association-list lookup keyed by decidable equality. -/
def alGet {κ α : Type} [DecidableEq κ] (k : κ) : List (κ × α) → Option α
  | [] => none
  | (k', v) :: r => if k' = k then some v else alGet k r

/-- Association-list update-or-insert, the behaviour of `map[k] = v`. -/
def alSet {κ α : Type} [DecidableEq κ] (k : κ) (v : α) : List (κ × α) → List (κ × α)
  | [] => [(k, v)]
  | (k', v') :: r => if k' = k then (k, v) :: r else (k', v') :: alSet k v r

/-- Association-list erasure, the behaviour of `map.erase(k)` (and of
`Function::eraseFromParent` on the module's function list). -/
def alErase {κ α : Type} [DecidableEq κ] (k : κ) : List (κ × α) → List (κ × α)
  | [] => []
  | (k', v') :: r => if k' = k then r else (k', v') :: alErase k r

/-- Pointwise update of the symbol table `NamedValues`; mapping a name to
`none` models `erase` (and the null entries `std::map::operator[]` creates). -/
def nvSet (m : String → Option ℕ) (k : String) (v : Option ℕ) : String → Option ℕ :=
  fun x => if x = k then v else m x

/-- Lowering state: the global state of `codegen.cpp` plus the builder.
`blocks`/`cur` are the basic blocks of the function under construction and
the builder's insertion block; `nextBlock`/`nextReg`/`nextSlot` number fresh
blocks, registers and `alloca` slots; `namedValues` is `NamedValues`;
`module` is `TheModule`'s function table; `protos` is `FunctionProtos`;
`precTable` is `BinopPrecedence`; `log` collects the diagnostic lines
written to `stderr`. -/
structure CGState (F : Type) where
  blocks : List (ℕ × Block F)
  cur : ℕ
  nextBlock : ℕ
  nextReg : ℕ
  nextSlot : ℕ
  namedValues : String → Option ℕ
  module : List (String × FnIR F)
  protos : List (String × ProtoA)
  precTable : PrecTable
  log : List String

/-- Appends an instruction at the builder's insertion point. -/
def CGState.emit {F : Type} (st : CGState F) (i : Instr F) : CGState F :=
  { st with blocks := st.blocks.map (fun p =>
      if p.1 = st.cur then (p.1, ⟨p.2.instrs ++ [i], p.2.term⟩) else p) }

/-- Terminates the builder's current block. -/
def CGState.setTerm {F : Type} (st : CGState F) (t : Term F) : CGState F :=
  { st with blocks := st.blocks.map (fun p =>
      if p.1 = st.cur then (p.1, ⟨p.2.instrs, some t⟩) else p) }

/-- Appends a fresh empty block with the given id to the function, the
effect of `BasicBlock::Create(..., TheFunction)` or `Function::insert`. -/
def CGState.attachBlock {F : Type} (st : CGState F) (bid : ℕ) : CGState F :=
  { st with blocks := st.blocks ++ [(bid, ⟨[], none⟩)] }

/-- Allocates a fresh register number. -/
def CGState.freshReg {F : Type} (st : CGState F) : ℕ × CGState F :=
  (st.nextReg, { st with nextReg := st.nextReg + 1 })

/-- Corresponds to `CreateEntryBlockAlloca` (ast.cpp:15-19): a builder
positioned at the entry block's begin inserts the `alloca` there, so each
new slot is prepended to the first block. -/
def CGState.entryAlloca {F : Type} (st : CGState F) (name : String) : ℕ × CGState F :=
  (st.nextSlot,
   { st with
     nextSlot := st.nextSlot + 1,
     blocks := match st.blocks with
       | (b, blk) :: r => (b, ⟨Instr.alloca st.nextSlot name :: blk.instrs, blk.term⟩) :: r
       | [] => [] })

/-- Appends a raw line to the diagnostic log. -/
def CGState.logMsg {F : Type} (st : CGState F) (m : String) : CGState F :=
  { st with log := st.log ++ [m] }

/-- Corresponds to `LogErrorV` (codegen.cpp:36-39): print
`LogError: <message>` and return null. -/
def CGState.logErrorV {F : Type} (st : CGState F) (m : String) : CGState F :=
  st.logMsg ("LogError: " ++ m)

/-- Outcome of a `codegen()` call that did not produce a value.  `nullV` is
an ordinary null return (after a `LogErrorV` diagnostic); `nullDeref`, `ub`
and `assertFail` are crashes — a null-pointer dereference, undefined
behaviour from using an invalid downcast, a failed `assert` — which
propagate without running any further code.  `fuelOut` marks exhaustion of
the embedding's bounded recursion only; it is never produced when the fuel
exceeds the expression's size, and every theorem supplies such fuel. -/
inductive CgErr where
  | nullV
  | nullDeref
  | ub
  | assertFail
  | fuelOut
deriving Repr, DecidableEq

/-- Corresponds to `getFunction` (ast.cpp:298-312): prefer the current
module's function; otherwise re-emit a declaration from the registered
prototype (`PrototypeAST::codegen`, which creates an argument-named
declaration with no body in `TheModule`); otherwise null. -/
def getFunction {F : Type} (name : String) (st : CGState F) : Option (FnIR F) × CGState F :=
  match alGet name st.module with
  | some f => (some f, st)
  | none =>
    match alGet name st.protos with
    | some p =>
      let f : FnIR F := ⟨p.args, []⟩
      (some f, { st with module := alSet name f st.module })
    | none => (none, st)

/-- Builtin-operator switch of `BinaryExprAST::codegen` (ast.cpp:62-84):
`+ - * /` emit the float op, `<` emits `fcmp ult` widened by `uitofp`, and
any other glyph calls the user function `binary<op>` — whose absence fails
the `assert` at ast.cpp:81. -/
def cgBinOp {F : Type} (op : Char) (lop rop : Operand F) (st : CGState F) :
    Except CgErr (Operand F) × CGState F :=
  if op = '+' then
    let (d, st) := st.freshReg
    (.ok (.reg d), st.emit (.fadd d lop rop))
  else if op = '-' then
    let (d, st) := st.freshReg
    (.ok (.reg d), st.emit (.fsub d lop rop))
  else if op = '*' then
    let (d, st) := st.freshReg
    (.ok (.reg d), st.emit (.fmul d lop rop))
  else if op = '/' then
    let (d, st) := st.freshReg
    (.ok (.reg d), st.emit (.fdiv d lop rop))
  else if op = '<' then
    let (d, st) := st.freshReg
    let st := st.emit (.fcmpult d lop rop)
    let (d2, st) := st.freshReg
    (.ok (.reg d2), st.emit (.uitofp d2 (.reg d)))
  else
    match getFunction (String.push "binary" op) st with
    | (none, st) => (.error .assertFail, st)
    | (some _, st) =>
      let (d, st) := st.freshReg
      (.ok (.reg d), st.emit (.callI d (String.push "binary" op) [lop, rop]))

/-- Call-argument loop of `CallExprAST::codegen` (ast.cpp:274-279),
parameterised by the lowering of one expression: lower each argument in
order, stopping at the first failure. -/
def cgArgsWith {F : Type} (cg : Expr F → CGState F → Except CgErr (Operand F) × CGState F) :
    List (Expr F) → CGState F → Except CgErr (List (Operand F)) × CGState F
  | [], st => (.ok [], st)
  | a :: rest, st =>
    match cg a st with
    | (.error e', st) => (.error e', st)
    | (.ok v, st) =>
      match cgArgsWith cg rest st with
      | (.error e', st) => (.error e', st)
      | (.ok vs, st) => (.ok (v :: vs), st)

/-- Binding loop of `VarExprAST::codegen` (ast.cpp:105-123), parameterised
by the lowering of one expression: evaluate each initializer (default 0.0),
allocate and store a slot, save the old binding and install the new one;
returns the saved bindings. -/
def cgVarDeclsWith {F : Type} (sem : FloatSem F)
    (cg : Expr F → CGState F → Except CgErr (Operand F) × CGState F) :
    List (String × Option (Expr F)) → List (String × Option ℕ) → CGState F →
    Except CgErr (List (String × Option ℕ)) × CGState F
  | [], oldB, st => (.ok oldB, st)
  | (name, init?) :: rest, oldB, st =>
    match (match init? with
           | some ie => cg ie st
           | none => (.ok (.cst sem.zero), st)) with
    | (.error e', st) => (.error e', st)
    | (.ok initV, st) =>
      match st.entryAlloca name with
      | (slot, st) =>
        let st := st.emit (.store initV slot)
        let old := st.namedValues name
        let st := { st with namedValues := nvSet st.namedValues name (some slot) }
        cgVarDeclsWith sem cg rest (oldB ++ [(name, old)]) st

/-- Expression lowering: the `codegen()` methods of ast.cpp dispatched on
the node variant.  The fuel only bounds the recursion depth of the
embedding; with `sizeOf e ≤ fuel` it is never exhausted.

* `num` — `NumberExprAST::codegen` (ast.cpp:21-23), a float constant.
* `varRef` — `VariableExprAST::codegen` (ast.cpp:25-33).  The unknown-name
  branch logs the diagnostic but does not return, so control falls through
  to `CreateLoad(A->getAllocatedType(), ...)` with `A` null: a null
  dereference, not a null result.
* `unaryE` — `UnaryExprAST::codegen` (ast.cpp:87-98).
* `binE` — `BinaryExprAST::codegen` (ast.cpp:35-85).  For `=` the left
  child is downcast with `static_cast` (ast.cpp:38); the null test behind it
  cannot fire for a non-null child, so a non-Variable left child is never
  diagnosed — using the reinterpreted object is undefined behaviour.  For
  other glyphs both children are lowered before the null check (ast.cpp:
  54-60), so the right child's code is emitted even when the left failed.
* `callE` — `CallExprAST::codegen` (ast.cpp:264-281).
* `ifE` — `IfExprAST::codegen` (ast.cpp:139-184): compare the condition
  `one` against 0.0, attach the then block, float the else and merge blocks
  and insert them later, and merge with a phi whose incoming blocks are the
  builder's blocks at the ends of the branches.
* `forE` — `ForExprAST::codegen` (ast.cpp:186-262): the stack-slot loop
  idiom; the result is the constant 0.0.
* `varInE` — `VarExprAST::codegen` (ast.cpp:100-136). -/
def cgExprF {F : Type} (sem : FloatSem F) :
    ℕ → Expr F → CGState F → Except CgErr (Operand F) × CGState F
  | 0, _, st => (.error .fuelOut, st)
  | _ + 1, .num v, st => (.ok (.cst v), st)
  | _ + 1, .varRef name, st =>
    (match st.namedValues name with
     | none => (.error .nullDeref, st.logErrorV "Unknown variable name")
     | some slot =>
       let (d, st) := st.freshReg
       (.ok (.reg d), st.emit (.load d slot)))
  | fuel + 1, .unaryE opc operand, st =>
    (match cgExprF sem fuel operand st with
     | (.error e', st) => (.error e', st)
     | (.ok ov, st) =>
       match getFunction (String.push "unary" opc) st with
       | (none, st) => (.error .nullV, st.logErrorV "Unkown unary operator")
       | (some _, st) =>
         let (d, st) := st.freshReg
         (.ok (.reg d), st.emit (.callI d (String.push "unary" opc) [ov])))
  | fuel + 1, .binE op lhs rhs, st =>
    if op = '=' then
      match lhs with
      | .varRef name =>
        (match cgExprF sem fuel rhs st with
         | (.error e', st) => (.error e', st)
         | (.ok val, st) =>
           match st.namedValues name with
           | none => (.error .nullV, st.logErrorV "Unknown variable name")
           | some slot => (.ok val, st.emit (.store val slot)))
      | _ => (.error .ub, st)
    else
      match cgExprF sem fuel lhs st with
      | (.error .nullV, st) =>
        (match cgExprF sem fuel rhs st with
         | (.error .nullV, st) =>
           (.error .nullV, st.logMsg "DEBUG---BinaryExprAST::codegen failed to generate LHS or RHS")
         | (.error e', st) => (.error e', st)
         | (.ok _, st) =>
           (.error .nullV, st.logMsg "DEBUG---BinaryExprAST::codegen failed to generate LHS or RHS"))
      | (.error e', st) => (.error e', st)
      | (.ok lop, st) =>
        match cgExprF sem fuel rhs st with
        | (.error .nullV, st) =>
          (.error .nullV, st.logMsg "DEBUG---BinaryExprAST::codegen failed to generate LHS or RHS")
        | (.error e', st) => (.error e', st)
        | (.ok rop, st) => cgBinOp op lop rop st
  | fuel + 1, .callE callee argEs, st =>
    (match getFunction callee st with
     | (none, st) => (.error .nullV, st.logErrorV "Unknown function referenced")
     | (some f, st) =>
       if f.args.length ≠ argEs.length then
         (.error .nullV, st.logErrorV "Incorrect # arguments passed")
       else
         match cgArgsWith (cgExprF sem fuel) argEs st with
         | (.error e', st) => (.error e', st)
         | (.ok ops, st) =>
           let (d, st) := st.freshReg
           (.ok (.reg d), st.emit (.callI d callee ops)))
  | fuel + 1, .ifE cnd thn els, st =>
    (match cgExprF sem fuel cnd st with
     | (.error e', st) => (.error e', st)
     | (.ok condV, st) =>
       let (d, st) := st.freshReg
       let st := st.emit (.fcmpone d condV (.cst sem.zero))
       let thenId := st.nextBlock
       let elseId := st.nextBlock + 1
       let mergeId := st.nextBlock + 2
       let st := { st with nextBlock := st.nextBlock + 3 }
       let st := st.attachBlock thenId
       let st := st.setTerm (.condbr (.reg d) thenId elseId)
       let st := { st with cur := thenId }
       match cgExprF sem fuel thn st with
       | (.error e', st) => (.error e', st)
       | (.ok thenV, st) =>
         let st := st.setTerm (.br mergeId)
         let thenPred := st.cur
         let st := st.attachBlock elseId
         let st := { st with cur := elseId }
         match cgExprF sem fuel els st with
         | (.error e', st) => (.error e', st)
         | (.ok elseV, st) =>
           let st := st.setTerm (.br mergeId)
           let elsePred := st.cur
           let st := st.attachBlock mergeId
           let st := { st with cur := mergeId }
           let (d2, st) := st.freshReg
           (.ok (.reg d2), st.emit (.phi d2 [(thenV, thenPred), (elseV, elsePred)])))
  | fuel + 1, .forE varName start endE step body, st =>
    (match st.entryAlloca varName with
     | (slot, st) =>
       match cgExprF sem fuel start st with
       | (.error .nullV, st) =>
         (.error .nullV, st.logMsg ("DEBUG---Error generating start value for for-loop variable: " ++ varName))
       | (.error e', st) => (.error e', st)
       | (.ok startV, st) =>
         let st := st.emit (.store startV slot)
         let loopId := st.nextBlock
         let st := { st with nextBlock := st.nextBlock + 1 }
         let st := st.attachBlock loopId
         let st := st.setTerm (.br loopId)
         let st := { st with cur := loopId }
         let oldVal := st.namedValues varName
         let st := { st with namedValues := nvSet st.namedValues varName (some slot) }
         match cgExprF sem fuel body st with
         | (.error .nullV, st) =>
           (.error .nullV, st.logMsg ("DEBUG---Error generating body for for-loop variable: " ++ varName))
         | (.error e', st) => (.error e', st)
         | (.ok _, st) =>
           match (match step with
                  | some stepE => cgExprF sem fuel stepE st
                  | none => (.ok (.cst sem.one), st)) with
           | (.error .nullV, st) =>
             (.error .nullV, st.logMsg ("DEBUG---Error generating step for for-loop variable: " ++ varName))
           | (.error e', st) => (.error e', st)
           | (.ok stepV, st) =>
             let (dCur, st) := st.freshReg
             let st := st.emit (.load dCur slot)
             let (dNext, st) := st.freshReg
             let st := st.emit (.fadd dNext (.reg dCur) stepV)
             let st := st.emit (.store (.reg dNext) slot)
             match cgExprF sem fuel endE st with
             | (.error .nullV, st) =>
               (.error .nullV, st.logMsg ("DEBUG---Error generating end condition for for-loop variable: " ++ varName))
             | (.error e', st) => (.error e', st)
             | (.ok endV, st) =>
               let (dCond, st) := st.freshReg
               let st := st.emit (.fcmpone dCond endV (.cst sem.zero))
               let afterId := st.nextBlock
               let st := { st with nextBlock := st.nextBlock + 1 }
               let st := st.attachBlock afterId
               let st := st.setTerm (.condbr (.reg dCond) loopId afterId)
               let st := { st with cur := afterId }
               let st := { st with namedValues := nvSet st.namedValues varName oldVal }
               (.ok (.cst sem.zero), st))
  | fuel + 1, .varInE varNames body, st =>
    (match cgVarDeclsWith sem (cgExprF sem fuel) varNames [] st with
     | (.error e', st) => (.error e', st)
     | (.ok oldB, st) =>
       match cgExprF sem fuel body st with
       | (.error e', st) => (.error e', st)
       | (.ok bodyV, st) =>
         (.ok bodyV,
          { st with namedValues := oldB.foldl (fun m p => nvSet m p.1 p.2) st.namedValues }))

/-- Argument prologue of `FunctionAST::codegen` (ast.cpp:338-348): for each
formal parameter, an entry-block alloca, a store of the incoming value, and
a symbol-table binding. -/
def cgFnArgs {F : Type} : List String → ℕ → CGState F → CGState F
  | [], _, st => st
  | a :: rest, i, st =>
    match st.entryAlloca a with
    | (slot, st) =>
      let st := st.emit (.store (.arg i) slot)
      let st := { st with namedValues := nvSet st.namedValues a (some slot) }
      cgFnArgs rest (i + 1) st

/-- Corresponds to `FunctionAST::codegen` (ast.cpp:314-375):

1. move the prototype into `FunctionProtos` under its name;
2. resolve the function with `getFunction` (always found: the prototype was
   just registered);
3. if the prototype is a binary operator, record its precedence in
   `BinopPrecedence` — note this happens *before* the redefinition check;
4. reject redefinition when the function already has a body;
5. create the entry block, clear `NamedValues`, emit the argument prologue;
6. lower the body; on success emit `ret` and store the finished function in
   the module (the external `verifyFunction` check and the `TheFPM` pass
   pipeline are modelled as passing and as the identity); on a null body
   result erase the function from the module (`eraseFromParent`) and return
   null; a crash propagates.

Block, register and slot numbering restarts per function, as LLVM values
are local to their function.  The fuel is handed to the body's `cgExprF`. -/
def functionCodegen {F : Type} (sem : FloatSem F) (fuel : ℕ) (f : FunctionA F) (st : CGState F) :
    Except CgErr String × CGState F :=
  let P := f.proto
  let st := { st with protos := alSet P.name P st.protos }
  match getFunction P.name st with
  | (none, st) => (.error .nullV, st)
  | (some theFn, st) =>
    let st := if P.isBinaryOp then { st with precTable := ctSet st.precTable P.operatorName P.precedence } else st
    if theFn.blocks.isEmpty = false then
      (.error .nullV, st.logErrorV "Function cannot be redefined.")
    else
      let st := { st with
        blocks := [(0, ⟨[], none⟩)], cur := 0, nextBlock := 1,
        nextReg := 0, nextSlot := 0, namedValues := fun _ => none }
      let st := cgFnArgs theFn.args 0 st
      match cgExprF sem fuel f.body st with
      | (.ok retV, st) =>
        let st := st.setTerm (.ret retV)
        let st := { st with module := alSet P.name ⟨theFn.args, st.blocks⟩ st.module }
        (.ok P.name, st)
      | (.error .nullV, st) =>
        let st := st.logMsg ("DEBUG---Error generating function body, removing function: " ++ P.name)
        (.error .nullV, { st with module := alErase P.name st.module })
      | (.error e', st) => (.error e', st)

/-- Fresh lowering state: empty module, empty prototype registry, empty
symbol table, a given precedence table, no diagnostics. -/
def initCG (F : Type) (T : PrecTable) : CGState F :=
  ⟨[], 0, 0, 0, 0, fun _ => none, [], [], T, []⟩

/-! ## IR evaluation

A small-step evaluator for the emitted functions.  Registers hold either a
float or the 1-bit result of a compare; memory maps `alloca` slots to
floats.  Within a block execution is structural on the instruction list;
fuel is spent only on block transfers, and the previously executed block
resolves `phi` nodes.  A `callI` stops evaluation: running a call needs the
JIT and the other functions' native code, which is outside this model; no
theorem below executes one. -/

/-- Runtime value of a register. -/
inductive Val (F : Type) where
  | fv (v : F)
  | bv (b : Bool)

/-- Register file. -/
abbrev RegMap (F : Type) := ℕ → Option (Val F)

/-- Slot memory. -/
abbrev Mem (F : Type) := ℕ → Option F

/-- Register update. -/
def rset {F : Type} (regs : RegMap F) (d : ℕ) (v : Val F) : RegMap F :=
  fun n => if n = d then some v else regs n

/-- Memory update. -/
def mset {F : Type} (mem : Mem F) (s : ℕ) (v : F) : Mem F :=
  fun n => if n = s then some v else mem n

/-- Value of an operand under a register file and the incoming arguments. -/
def evalOp {F : Type} (regs : RegMap F) (argv : List F) : Operand F → Option (Val F)
  | .cst v => some (.fv v)
  | .reg n => regs n
  | .arg i => (argv.get? i).map .fv

/-- Float value of an operand. -/
def evalOpF {F : Type} (regs : RegMap F) (argv : List F) (o : Operand F) : Option F :=
  match evalOp regs argv o with
  | some (.fv v) => some v
  | _ => none

/-- Bit value of an operand. -/
def evalOpB {F : Type} (regs : RegMap F) (argv : List F) (o : Operand F) : Option Bool :=
  match evalOp regs argv o with
  | some (.bv b) => some b
  | _ => none

/-- Effect of one non-terminator instruction; `none` is a stuck evaluation
(an ill-typed operand, an unset phi predecessor, or a call). -/
def instrStep {F : Type} (sem : FloatSem F) (argv : List F) (prev : ℕ)
    (regs : RegMap F) (mem : Mem F) : Instr F → Option (RegMap F × Mem F)
  | .fadd d l r =>
    match evalOpF regs argv l, evalOpF regs argv r with
    | some a, some b => some (rset regs d (.fv (sem.add a b)), mem)
    | _, _ => none
  | .fsub d l r =>
    match evalOpF regs argv l, evalOpF regs argv r with
    | some a, some b => some (rset regs d (.fv (sem.sub a b)), mem)
    | _, _ => none
  | .fmul d l r =>
    match evalOpF regs argv l, evalOpF regs argv r with
    | some a, some b => some (rset regs d (.fv (sem.mul a b)), mem)
    | _, _ => none
  | .fdiv d l r =>
    match evalOpF regs argv l, evalOpF regs argv r with
    | some a, some b => some (rset regs d (.fv (sem.div a b)), mem)
    | _, _ => none
  | .fcmpult d l r =>
    match evalOpF regs argv l, evalOpF regs argv r with
    | some a, some b => some (rset regs d (.bv (sem.ult a b)), mem)
    | _, _ => none
  | .fcmpone d l r =>
    match evalOpF regs argv l, evalOpF regs argv r with
    | some a, some b => some (rset regs d (.bv (sem.cmpone a b)), mem)
    | _, _ => none
  | .uitofp d x =>
    match evalOpB regs argv x with
    | some b => some (rset regs d (.fv (sem.ofBool b)), mem)
    | none => none
  | .phi d incoming =>
    match incoming.find? (fun p => p.2 = prev) with
    | some (o, _) =>
      match evalOp regs argv o with
      | some v => some (rset regs d v, mem)
      | none => none
    | none => none
  | .alloca _ _ => some (regs, mem)
  | .load d s =>
    match mem s with
    | some v => some (rset regs d (.fv v), mem)
    | none => none
  | .store v s =>
    match evalOpF regs argv v with
    | some a => some (regs, mset mem s a)
    | none => none
  | .callI _ _ _ => none

/-- Result of running to the end of a block: a final answer (or stuck,
`halt none`), or a jump to another block. -/
inductive StepRes (F : Type) where
  | halt (r : Option F)
  | jump (target : ℕ) (regs : RegMap F) (mem : Mem F)

/-- Runs a list of instructions and then the terminator. -/
def runIs {F : Type} (sem : FloatSem F) (argv : List F) (prev : ℕ) :
    List (Instr F) → Option (Term F) → RegMap F → Mem F → StepRes F
  | [], none, _, _ => .halt none
  | [], some t, regs, mem =>
    (match t with
     | .ret v => .halt (evalOpF regs argv v)
     | .br b => .jump b regs mem
     | .condbr c tb eb =>
       match evalOpB regs argv c with
       | some b => .jump (if b then tb else eb) regs mem
       | none => .halt none)
  | i :: rest, t, regs, mem =>
    match instrStep sem argv prev regs mem i with
    | some (regs', mem') => runIs sem argv prev rest t regs' mem'
    | none => .halt none

/-- Executes from the start of block `bid`, having arrived from `prev`,
spending one unit of fuel per block transfer. -/
def execB {F : Type} (sem : FloatSem F) (argv : List F) (cfg : List (ℕ × Block F)) :
    ℕ → ℕ → ℕ → RegMap F → Mem F → Option F
  | 0, _, _, _, _ => none
  | fuel + 1, prev, bid, regs, mem =>
    match alGet bid cfg with
    | none => none
    | some blk =>
      match runIs sem argv prev blk.instrs blk.term regs mem with
      | .halt r => r
      | .jump b regs' mem' => execB sem argv cfg fuel bid b regs' mem'

/-- Executes from position `k` inside block `bid` (its first `k`
instructions already done). -/
def execAt {F : Type} (sem : FloatSem F) (argv : List F) (cfg : List (ℕ × Block F))
    (fuel : ℕ) (prev bid k : ℕ) (regs : RegMap F) (mem : Mem F) : Option F :=
  match alGet bid cfg with
  | none => none
  | some blk =>
    match runIs sem argv prev (blk.instrs.drop k) blk.term regs mem with
    | .halt r => r
    | .jump b regs' mem' => execB sem argv cfg fuel bid b regs' mem'

/-- Runs an IR function on argument values: start in the entry block (the
first one) with empty registers and memory. -/
def execFn {F : Type} (sem : FloatSem F) (f : FnIR F) (argv : List F) (fuel : ℕ) : Option F :=
  match f.blocks with
  | [] => none
  | (ebid, _) :: _ => execB sem argv f.blocks fuel ebid ebid (fun _ => none) (fun _ => none)

/-! ## Reference interpreter and the side-effect-free fragment

`refInterp` is the reference interpreter of the specification's round-trip
property (spec §8), written from the spec's reading of each expression form:
a number is its value, a variable is looked up in the environment, the
builtin binary operators apply the float operation (`<` widening its
comparison bit), and `if` evaluates the branch selected by comparing the
condition ordered-not-equal against 0.0.  `PureE` delimits the expression
forms with no side effects: numbers, variables, builtin non-assignment
binaries and `if`; assignment writes a slot, `for`/`var` bind and mutate
slots, and calls run arbitrary functions. -/

/-- Reference interpreter over the AST (spec §8, "a reference interpreter
over the AST"). -/
def refInterp {F : Type} (sem : FloatSem F) (env : String → Option F) : Expr F → Option F
  | .num v => some v
  | .varRef x => env x
  | .binE op l r =>
    (match refInterp sem env l, refInterp sem env r with
     | some a, some b =>
       if op = '+' then some (sem.add a b)
       else if op = '-' then some (sem.sub a b)
       else if op = '*' then some (sem.mul a b)
       else if op = '/' then some (sem.div a b)
       else if op = '<' then some (sem.ofBool (sem.ult a b))
       else none
     | _, _ => none)
  | .ifE c t e =>
    (match refInterp sem env c with
     | some cv => if sem.cmpone cv sem.zero then refInterp sem env t else refInterp sem env e
     | none => none)
  | _ => none

/-- The side-effect-free expression forms. -/
def PureE {F : Type} : Expr F → Bool
  | .num _ => true
  | .varRef _ => true
  | .binE op l r =>
    (op = '+' || op = '-' || op = '*' || op = '/' || op = '<') && PureE l && PureE r
  | .ifE c t e => PureE c && PureE t && PureE e
  | _ => false

/-- Environment binding a function's formal parameters to the incoming
argument values, first occurrence winning (argument names are assumed
distinct where this is used). -/
def envOfArgs {F : Type} (args : List String) (argv : List F) : String → Option F :=
  fun x => ((args.zip argv).find? (fun p => p.1 = x)).map (·.2)

/-! ## Driver (`src/main.cpp`) -/

/-- Zero-padding of a digit string to six places. -/
def padSix (s : String) : String :=
  String.mk (List.replicate (6 - s.length) '0') ++ s

/-- Models the C library's `%f` conversion (default precision six) for
nonnegative values with at most six fractional decimal digits — exact
there, and every value printed by a theorem below is of that shape. -/
def percentF (q : ℚ) : String :=
  toString q.floor.toNat ++ "." ++ padSix (toString ((q - q.floor) * 1000000).floor.toNat)

/-- Observable actions of `HandleTopLevelExpression` (main.cpp:65-111), per
control-flow path.  `trackerCreated` is `createResourceTracker`
(main.cpp:75); `moduleAdded` a successful `addModule` (main.cpp:79);
`lookupOk` a successful `lookup("__anon_expr")` (main.cpp:87); `invoked` the
native call `FP()` (main.cpp:96); `removeCalled` the release `RT->remove()`
(main.cpp:99). -/
structure TLERun where
  parsedOk : Bool
  cgOk : Bool
  trackerCreated : Bool
  moduleAdded : Bool
  lookupOk : Bool
  invoked : Bool
  removeCalled : Bool
deriving Repr, DecidableEq

/-- Control flow of `HandleTopLevelExpression` (main.cpp:65-111), with the
outcomes of parsing, lowering, `addModule` and `lookup` supplied as oracles.
On an `addModule` error the handler returns at main.cpp:82 and on a failed
lookup at main.cpp:90 — in both cases without reaching `RT->remove()`. -/
def handleTopLevelExpression (parseOk cgOk addOk lookupOk : Bool) : TLERun :=
  if parseOk = false then ⟨false, false, false, false, false, false, false⟩
  else if cgOk = false then ⟨true, false, false, false, false, false, false⟩
  else if addOk = false then ⟨true, true, true, false, false, false, false⟩
  else if lookupOk = false then ⟨true, true, true, true, false, false, false⟩
  else ⟨true, true, true, true, true, true, true⟩

/-- End-to-end pipeline for one anonymous top-level expression, as `main`
and `HandleTopLevelExpression` compose it: lex, prime the first token, parse
the top-level expression, lower it, look up `__anon_expr` in the module
handed to the JIT, run the native code, and format the `Evaluated to` line.
Returns the value and the printed line. -/
def runAnonPipeline (src : String) (fuel : ℕ) : Option (ℚ × String) :=
  match ParseTopLevelExpr seededTable fuel (mkPState (tokenize src)) with
  | .error _ => none
  | .ok (fn, _) =>
    match functionCodegen ratSem fuel fn (initCG ℚ seededTable) with
    | (.ok fname, st) =>
      match alGet fname st.module with
      | none => none
      | some fnIR =>
        match execFn ratSem fnIR [] fuel with
        | none => none
        | some v => some (v, "Evaluated to " ++ percentF v)
    | (.error _, _) => none

/-! ## Expected association under standard precedence climbing

`climbExpected` states, from the specification's words, how `x a y b z c w`
must associate under precedence climbing with left-associative ties: an
operator binds tighter exactly when its precedence is strictly higher, and a
tie groups to the left.  It is the reference side of the precedence claim;
the embedded `ParseBinOpRHS` is proved to match it. -/

/-- Expected parse of `x a y b z c w` under standard precedence climbing
with left-associative ties, as a function of the three precedences. -/
def climbExpected (T : PrecTable) (a b c : Char) (x y z w : ℚ) : Expr ℚ :=
  if T a < T b then
    if T b < T c then
      .binE a (.num x) (.binE b (.num y) (.binE c (.num z) (.num w)))
    else if T a < T c then
      .binE a (.num x) (.binE c (.binE b (.num y) (.num z)) (.num w))
    else
      .binE c (.binE a (.num x) (.binE b (.num y) (.num z))) (.num w)
  else
    if T b < T c then
      .binE b (.binE a (.num x) (.num y)) (.binE c (.num z) (.num w))
    else
      .binE c (.binE b (.binE a (.num x) (.num y)) (.num z)) (.num w)

/-! ## Simulation bookkeeping for the round-trip proof -/

/-- Number of instructions already emitted into the builder's current
block: the execution position reached when the code generated so far has
run. -/
def lenAt {F : Type} (st : CGState F) : ℕ :=
  match alGet st.cur st.blocks with
  | some blk => blk.instrs.length
  | none => 0

/-- Builder-state sanity: the insertion block exists and is open, every
other block is terminated, and block ids stay below the fresh counter. -/
structure StOK {F : Type} (st : CGState F) : Prop where
  curOpen : ∃ blk, alGet st.cur st.blocks = some blk ∧ blk.term = none
  closedTerm : ∀ b blk, alGet b st.blocks = some blk → b ≠ st.cur → blk.term ≠ none
  idsLt : ∀ b blk, alGet b st.blocks = some blk → b < st.nextBlock

/-- How one `cgExpr` call may evolve the builder state: finished blocks are
untouched, the old insertion block only ever gains instructions at its end,
counters grow, the symbol table is untouched (only the side-effect-free
forms are run through this), and the new insertion block is the old one or
a freshly created one. -/
structure CgEvol {F : Type} (st st' : CGState F) : Prop where
  closedPres : ∀ b blk, b ≠ st.cur → alGet b st.blocks = some blk → alGet b st'.blocks = some blk
  curPres : ∀ blk, alGet st.cur st.blocks = some blk →
    ∃ blk', alGet st.cur st'.blocks = some blk' ∧ ∃ suf, blk'.instrs = blk.instrs ++ suf
  nextBlockLe : st.nextBlock ≤ st'.nextBlock
  nextRegLe : st.nextReg ≤ st'.nextReg
  nvEq : st'.namedValues = st.namedValues
  curOr : st'.cur = st.cur ∨ st.nextBlock ≤ st'.cur
  freshNone : ∀ b, b < st.nextBlock → alGet b st.blocks = none → alGet b st'.blocks = none
  headKeep : ∀ bid blk rest, st.blocks = (bid, blk) :: rest →
    ∃ blk' rest', st'.blocks = (bid, blk') :: rest'

/-- A complete control-flow graph extending a builder state: every finished
block appears verbatim, and the insertion block appears with the emitted
instructions as a prefix (later lowering appends to it and eventually
terminates it). -/
structure CfgExt {F : Type} (st : CGState F) (cfg : List (ℕ × Block F)) : Prop where
  closedPres : ∀ b blk, b ≠ st.cur → alGet b st.blocks = some blk → alGet b cfg = some blk
  curPres : ∀ blk, alGet st.cur st.blocks = some blk →
    ∃ blk', alGet st.cur cfg = some blk' ∧ ∃ suf, blk'.instrs = blk.instrs ++ suf

/-- Register file defined only below the fresh-register counter. -/
def RegsBound {F : Type} (regs : RegMap F) (n : ℕ) : Prop :=
  ∀ m, n ≤ m → regs m = none

/-- Extension of register files: defined registers keep their values. -/
def RegsLe {F : Type} (regs regs' : RegMap F) : Prop :=
  ∀ n v, regs n = some v → regs' n = some v

/-- Interpreter environment realised by the symbol table and the memory:
every bound name has a slot holding its value. -/
def EnvAgree {F : Type} (st : CGState F) (mem : Mem F) (env : String → Option F) : Prop :=
  ∀ x v, env x = some v → ∃ s, st.namedValues x = some s ∧ mem s = some v

/-! ## Concrete states used by the claims' witnesses and counterexamples -/

/-- A builder state mid-function: an open entry block and nothing else. -/
def stEntry : CGState ℚ :=
  { initCG ℚ seededTable with blocks := [(0, ⟨[], none⟩)] }

/-- A builder state mid-function with the name `x` bound to stack slot 0. -/
def stBoundX : CGState ℚ :=
  { initCG ℚ seededTable with
    blocks := [(0, ⟨[], none⟩)],
    nextSlot := 1,
    namedValues := nvSet (fun _ => none) "x" (some 0) }

/-- A lowering state in which the module already holds a `binary@` function
with a body and the precedence table maps `@` to 7: the scene of a
redefinition of the user operator `@` at precedence 55. -/
def stRedef : CGState ℚ :=
  { initCG ℚ seededTable with
    module := [("binary@", ⟨["a", "b"], [(0, ⟨[], some (.ret (.cst 0))⟩)]⟩)],
    precTable := ctSet seededTable '@' 7 }

/-- The redefining function of the `stRedef` scenario. -/
def redefFn : FunctionA ℚ :=
  ⟨⟨"binary@", ["a", "b"], true, 55⟩, .num 1⟩

/-! ## Round-trip bookkeeping: sizes, variable coverage and the glue states of
`IfExprAST::codegen` and of an anonymous definition -/

/-- Size of an expression: a sufficient fuel bound for `cgExprF`. -/
def esize {F : Type} : Expr F → ℕ
  | .num _ => 1
  | .varRef _ => 1
  | .unaryE _ o => esize o + 1
  | .binE _ l r => esize l + esize r + 1
  | .callE _ _ => 1
  | .ifE c t e => esize c + esize t + esize e + 1
  | .forE _ _ _ _ _ => 1
  | .varInE _ _ => 1

/-- Every variable referenced anywhere in the expression is bound in the
environment.  The lowering emits code for both branches of an `if`, so the
syntactically unreached variables must be bound as well. -/
def VarsBound {F : Type} (env : String → Option F) : Expr F → Prop
  | .varRef x => ∃ w, env x = some w
  | .binE _ l r => VarsBound env l ∧ VarsBound env r
  | .ifE c t e => VarsBound env c ∧ VarsBound env t ∧ VarsBound env e
  | _ => True

/-- Every environment-bound name is bound in the symbol table.  This is what
makes the lowering of the pure fragment total; `EnvAgree` additionally ties
the slots' contents to the environment at execution time. -/
def NvBound {F : Type} (st : CGState F) (env : String → Option F) : Prop :=
  ∀ x w, env x = some w → ∃ s, st.namedValues x = some s

/-- Builder state at the start of the then-branch (ast.cpp:148-165): the
condition compare is emitted, the then block is created and entered, and the
current block is closed with the conditional branch. -/
def ifThenEntry {F : Type} (sem : FloatSem F) (condV : Operand F) (st1 : CGState F) :
    CGState F :=
  let stb := ({st1 with nextReg := st1.nextReg + 1}).emit
    (.fcmpone st1.nextReg condV (.cst sem.zero))
  let stc := {stb with nextBlock := stb.nextBlock + 3}
  let std := stc.attachBlock st1.nextBlock
  let ste := std.setTerm (.condbr (.reg st1.nextReg) st1.nextBlock (st1.nextBlock + 1))
  {ste with cur := st1.nextBlock}

/-- Builder state at the start of the else-branch (ast.cpp:167-172): the
then-branch's final block is closed with a branch to the merge block, and the
else block is created and entered. -/
def ifElseEntry {F : Type} (st1 st7 : CGState F) : CGState F :=
  {(st7.setTerm (.br (st1.nextBlock + 2))).attachBlock (st1.nextBlock + 1) with
    cur := st1.nextBlock + 1}

/-- Final builder state of `IfExprAST::codegen` (ast.cpp:174-183): the
else-branch's final block is closed, the merge block is created and entered,
and the phi is emitted. -/
def ifMergeSt {F : Type} (st1 : CGState F) (thenV elseV : Operand F) (thenPred : ℕ)
    (st11 : CGState F) : CGState F :=
  let stm := {(st11.setTerm (.br (st1.nextBlock + 2))).attachBlock (st1.nextBlock + 2) with
    cur := st1.nextBlock + 2}
  ({stm with nextReg := stm.nextReg + 1}).emit
    (.phi st11.nextReg [(thenV, thenPred), (elseV, st11.cur)])

/-- Fresh per-function lowering state of an anonymous nullary definition:
the prototype is registered, the declaration is in the module, and the
builder sits at the start of the fresh entry block. -/
def anonEntry (F : Type) (T : PrecTable) : CGState F :=
  { blocks := [(0, ⟨[], none⟩)], cur := 0, nextBlock := 1, nextReg := 0, nextSlot := 0,
    namedValues := fun _ => none,
    module := [("__anon_expr", ⟨[], []⟩)],
    protos := [("__anon_expr", ⟨"__anon_expr", [], false, 0⟩)],
    precTable := T, log := [] }

/-! # Theorems -/

/-- C2: the claim reads the lexer as classifying the ten keywords `def`,
`extern`, `if`, `then`, `else`, `for`, `in`, `binary`, `unary`, `var`.  The
code classifies only the first seven (lexer.cpp:27-48); an input whose next
letter-then-alphanumeric run is `binary`, `unary` or `var` is returned as an
identifier token, although `lexer.h` declares `tok_binary`, `tok_unary` and
`tok_var` and `ParsePrototype` dispatches on the first two.  This theorem
evaluates the embedded `gettok` on all ten runs. -/
theorem c2_lexer_keyword_table :
    (gettok (lexInit "def ")).1 = Tok.tdef ∧
    (gettok (lexInit "extern ")).1 = Tok.textrn ∧
    (gettok (lexInit "if ")).1 = Tok.tif ∧
    (gettok (lexInit "then ")).1 = Tok.tthen ∧
    (gettok (lexInit "else ")).1 = Tok.telse ∧
    (gettok (lexInit "for ")).1 = Tok.tfor ∧
    (gettok (lexInit "in ")).1 = Tok.tin ∧
    (gettok (lexInit "binary ")).1 = Tok.tident "binary" ∧
    (gettok (lexInit "unary ")).1 = Tok.tident "unary" ∧
    (gettok (lexInit "var ")).1 = Tok.tident "var" :=
  ⟨rfl, rfl, rfl, rfl, rfl, rfl, rfl, rfl, rfl, rfl⟩

/-- C4: lowering `Binary('=', Number 1, Number 2)` — the claim says a
non-Variable left child draws a diagnostic and a null result.  In the code
the left child is downcast with `static_cast` (ast.cpp:38), so the null test
cannot fire: no diagnostic is logged and the lowering ends in undefined
behaviour instead of a clean null.  The Variable-LHS half of the claim does
hold: the right child's value is stored into the bound slot and returned. -/
theorem c4_assign_lhs_not_diagnosed :
    cgExprF ratSem 8 (.binE '=' (.num 1) (.num 2)) (initCG ℚ seededTable)
      = (.error .ub, initCG ℚ seededTable) ∧
    (cgExprF ratSem 8 (.binE '=' (.num 1) (.num 2)) (initCG ℚ seededTable)).2.log = [] ∧
    cgExprF ratSem 8 (.binE '=' (.varRef "x") (.num 2)) stBoundX
      = (.ok (.cst 2), stBoundX.emit (.store (.cst 2) 0)) :=
  ⟨rfl, rfl, rfl⟩

/-- C5: lowering a Variable whose name is unbound — the claim says the code
emits the unknown-variable diagnostic and returns null without a load.  The
code does log the diagnostic, but the branch has no `return` (ast.cpp:28-30),
so control falls through to `CreateLoad(A->getAllocatedType(), ...)` with
`A` null: a null-pointer dereference, not a null return.  A bound name does
load from its stack slot. -/
theorem c5_unknown_variable_fallthrough :
    cgExprF ratSem 8 (.varRef "nix") (initCG ℚ seededTable)
      = (.error .nullDeref, (initCG ℚ seededTable).logErrorV "Unknown variable name") ∧
    (cgExprF ratSem 8 (.varRef "nix") (initCG ℚ seededTable)).2.log
      = ["LogError: Unknown variable name"] ∧
    (cgExprF ratSem 8 (.varRef "x") stBoundX).1 = .ok (.reg 0) ∧
    alGet 0 (cgExprF ratSem 8 (.varRef "x") stBoundX).2.blocks
      = some ⟨[.load 0 0], none⟩ :=
  ⟨rfl, rfl, rfl, rfl⟩

/-- C6 counterexample: the claim says that after startup seeding `x / y`
parses as `Binary('/', x, y)`.  The seeding (main.cpp:164-169) gives `/` no
entry, so `GetTokPrecedence` answers `-1` on it and the parse of `x / y`
returns the lone operand `x`, leaving `/ y` unconsumed. -/
theorem c6_slash_cex :
    GetTokPrecedence seededTable (.tchar '/') = -1 ∧
    ParseExpression seededTable 8 ⟨.tident "x", [.tchar '/', .tident "y"]⟩
      = .ok (.varRef "x", ⟨.tchar '/', [.tident "y"]⟩) ∧
    ParseExpression seededTable 8 ⟨.tident "x", [.tchar '/', .tident "y"]⟩
      ≠ .ok (.binE '/' (.varRef "x") (.varRef "y"), ⟨.teof, []⟩) := by
  refine ⟨rfl, rfl, ?_⟩
  intro h
  rw [show ParseExpression seededTable 8 ⟨.tident "x", [.tchar '/', .tident "y"]⟩
      = .ok (.varRef "x", ⟨.tchar '/', [.tident "y"]⟩) from rfl] at h
  simp at h

/-- C6 as amended: after startup seeding `/` is not a declared binary
operator — its table entry is the `std::map` default 0 and
`GetTokPrecedence` answers `-1` — so `x / y` parses as `x` alone; the
lowering of a `Binary('/')` node, had the parser produced one, does emit a
float-division instruction whose execution divides. -/
theorem c6_slash_amended :
    seededTable '/' = 0 ∧
    GetTokPrecedence seededTable (.tchar '/') = -1 ∧
    ParseExpression seededTable 8 ⟨.tident "x", [.tchar '/', .tident "y"]⟩
      = .ok (.varRef "x", ⟨.tchar '/', [.tident "y"]⟩) ∧
    alGet 0 (cgExprF ratSem 8 (.binE '/' (.num 6) (.num 3)) stEntry).2.blocks
      = some ⟨[.fdiv 0 (.cst 6) (.cst 3)], none⟩ ∧
    (functionCodegen ratSem 8 ⟨⟨"__anon_expr", [], false, 0⟩, .binE '/' (.num 6) (.num 3)⟩
        (initCG ℚ seededTable)).1 = .ok "__anon_expr" ∧
    (alGet "__anon_expr"
        (functionCodegen ratSem 8 ⟨⟨"__anon_expr", [], false, 0⟩, .binE '/' (.num 6) (.num 3)⟩
          (initCG ℚ seededTable)).2.module).map (fun f => execFn ratSem f [] 4)
      = some (some 2) := by
  refine ⟨rfl, rfl, rfl, rfl, rfl, ?_⟩
  have h : (alGet "__anon_expr"
      (functionCodegen ratSem 8 ⟨⟨"__anon_expr", [], false, 0⟩, .binE '/' (.num 6) (.num 3)⟩
        (initCG ℚ seededTable)).2.module).map (fun f => execFn ratSem f [] 4)
      = some (some (ratSem.div 6 3)) := rfl
  rw [h]
  norm_num [ratSem]

/-- C7 counterexample: the claim says a `binary` prototype with the
precedence literal omitted parses with default precedence 30.  In the code
the `getNextToken()` after the optional literal is unconditional
(parser.cpp:205), so with the literal absent it consumes the `(` of the
argument list and the parse fails with `Expected '(' in prototype`. -/
theorem c7_omitted_precedence_cex :
    ParsePrototype ⟨.tbinary, [.tchar '|', .tchar '(', .tident "a", .tident "b", .tchar ')']⟩
      = .error "Expected '(' in prototype" := rfl

/-- C7 as amended: a present precedence literal must lie in [1, 100] —
values outside are rejected with `Precedence value must be in range
1...100` — and an in-range literal is recorded; an omitted literal is a
parse error (`Expected '(' in prototype`), because the token after the
operator glyph is consumed unconditionally; and the declared default of the
precedence field is 20, not 30, as the unary-operator path shows. -/
theorem c7_prototype_precedence_amended :
    ParsePrototype ⟨.tbinary, [.tchar '|', .tnum 5, .tchar '(', .tident "a", .tident "b", .tchar ')']⟩
      = .ok (⟨"binary|", ["a", "b"], true, 5⟩, ⟨.teof, []⟩) ∧
    ParsePrototype ⟨.tbinary, [.tchar '|', .tnum 0, .tchar '(', .tident "a", .tident "b", .tchar ')']⟩
      = .error "Precedence value must be in range 1...100" ∧
    ParsePrototype ⟨.tbinary, [.tchar '|', .tnum 101, .tchar '(', .tident "a", .tident "b", .tchar ')']⟩
      = .error "Precedence value must be in range 1...100" ∧
    ParsePrototype ⟨.tbinary, [.tchar '|', .tchar '(', .tident "a", .tident "b", .tchar ')']⟩
      = .error "Expected '(' in prototype" ∧
    ParsePrototype ⟨.tunary, [.tchar '!', .tchar '(', .tident "a", .tchar ')']⟩
      = .ok (⟨"unary!", ["a"], true, 20⟩, ⟨.teof, []⟩) := by
  refine ⟨?_, ?_, ?_, rfl, ?_⟩ <;> rfl

/-- C9 counterexample: the claim says the resource tracker is released on
every failure path reached before invocation.  On a failed
`lookup("__anon_expr")` the handler returns at main.cpp:90 without calling
`RT->remove()`: the tracker was created but is not released. -/
theorem c9_tracker_leak_cex :
    (handleTopLevelExpression true true true false).trackerCreated = true ∧
    (handleTopLevelExpression true true true false).invoked = false ∧
    (handleTopLevelExpression true true true false).removeCalled = false := by
  decide

/-- C9 as amended: for an anonymous top-level expression the resource
tracker is released exactly on the path that invokes the native function;
on an add-module failure and on a symbol-lookup failure the handler returns
early and the tracker, though created, is not released. -/
theorem c9_tracker_release_amended :
    ∀ parseOk cgOk addOk lookupOk : Bool,
      ((handleTopLevelExpression parseOk cgOk addOk lookupOk).removeCalled
        = (parseOk && cgOk && addOk && lookupOk)) ∧
      ((handleTopLevelExpression parseOk cgOk addOk lookupOk).invoked
        = (parseOk && cgOk && addOk && lookupOk)) ∧
      ((handleTopLevelExpression parseOk cgOk addOk lookupOk).trackerCreated
        = (parseOk && cgOk)) := by
  decide

/-- C8 counterexample: the claim says a rejected redefinition leaves the
operator-precedence table unchanged.  Redefining the user operator
`binary@` (precedence 7 in the table, function body present in the module)
at precedence 55 is rejected — but `FunctionAST::codegen` records the new
precedence (ast.cpp:325-327) before the redefinition check (ast.cpp:329),
so the table ends at 55 while the module is untouched. -/
theorem c8_precedence_recorded_before_check_cex :
    (functionCodegen ratSem 8 redefFn stRedef).1 = .error .nullV ∧
    (functionCodegen ratSem 8 redefFn stRedef).2.precTable '@' = 55 ∧
    stRedef.precTable '@' = 7 ∧
    ¬ (functionCodegen ratSem 8 redefFn stRedef).2.precTable '@'
        = stRedef.precTable '@' ∧
    (functionCodegen ratSem 8 redefFn stRedef).2.module = stRedef.module ∧
    (functionCodegen ratSem 8 redefFn stRedef).2.log
      = ["LogError: Function cannot be redefined."] := by
  refine ⟨rfl, rfl, rfl, ?_, rfl, rfl⟩
  intro h
  rw [show (functionCodegen ratSem 8 redefFn stRedef).2.precTable '@' = 55 from rfl] at h
  rw [show stRedef.precTable '@' = 7 from rfl] at h
  exact absurd h (by norm_num)

/-! ## Frame lemmas: lowering never touches the prototype registry

`FunctionProtos` is written exactly once per `FunctionAST::codegen`, at its
first line; nothing in expression lowering modifies it (`getFunction` adds
declarations to the module only). -/

theorem getFunction_protos_of_eq {F : Type} {n : String} {s s' : CGState F}
    {fo : Option (FnIR F)} (heq : getFunction n s = (fo, s')) :
    s'.protos = s.protos := by
  have h : ((getFunction n s).2).protos = s.protos := by
    simp only [getFunction]
    split
    · rfl
    · split
      · rfl
      · rfl
  rw [heq] at h
  exact h

theorem cgArgsWith_protos {F : Type}
    (cg : Expr F → CGState F → Except CgErr (Operand F) × CGState F)
    (hcg : ∀ e st, ((cg e st).2).protos = st.protos) :
    ∀ (l : List (Expr F)) (st : CGState F), ((cgArgsWith cg l st).2).protos = st.protos := by
  have key : ∀ {e : Expr F} {s s' : CGState F} {r}, cg e s = (r, s') → s'.protos = s.protos := by
    intro e s s' r heq
    have h := hcg e s
    rw [heq] at h
    exact h
  intro l
  induction l with
  | nil => intro st; rfl
  | cons a rest ihr =>
    have keyr : ∀ {s s' : CGState F} {r}, cgArgsWith cg rest s = (r, s') → s'.protos = s.protos := by
      intro s s' r heq
      have h := ihr s
      rw [heq] at h
      exact h
    intro st
    simp only [cgArgsWith]
    split
    · next st₁ heq =>
      have hh0 := key heq
      exact rfl.trans hh0
    · next v st₁ heq =>
      split
      · next st₂ heq₂ =>
        have hh0 := keyr heq₂
        have hh1 := key heq
        exact rfl.trans (hh0.trans hh1)
      · next vs st₂ heq₂ =>
        have hh0 := keyr heq₂
        have hh1 := key heq
        exact rfl.trans (hh0.trans hh1)

theorem cgVarDeclsWith_protos {F : Type} (sem : FloatSem F)
    (cg : Expr F → CGState F → Except CgErr (Operand F) × CGState F)
    (hcg : ∀ e st, ((cg e st).2).protos = st.protos) :
    ∀ (l : List (String × Option (Expr F))) (oldB : List (String × Option ℕ))
      (st : CGState F), ((cgVarDeclsWith sem cg l oldB st).2).protos = st.protos := by
  intro l
  induction l with
  | nil => intro oldB st; rfl
  | cons p rest ihr =>
    intro oldB st
    obtain ⟨name, init?⟩ := p
    simp only [cgVarDeclsWith]
    have hinit : ((match init? with
        | some ie => cg ie st
        | none => (.ok (.cst sem.zero), st)).2).protos = st.protos := by
      cases init? with
      | some ie => exact hcg ie st
      | none => rfl
    split
    · next st₁ heq =>
      rw [heq] at hinit
      exact hinit
    · next v st₁ heq =>
      rw [heq] at hinit
      refine (ihr _ _).trans ?_
      exact rfl.trans hinit

theorem cgExprF_protos {F : Type} (sem : FloatSem F) :
    ∀ (fuel : ℕ) (e : Expr F) (st : CGState F),
      ((cgExprF sem fuel e st).2).protos = st.protos := by
  intro fuel
  induction fuel with
  | zero => intro e st; rfl
  | succ fuel ih =>
    have key : ∀ {e : Expr F} {s s' : CGState F} {r}, cgExprF sem fuel e s = (r, s') →
        s'.protos = s.protos := by
      intro e s s' r heq
      have h := ih e s
      rw [heq] at h
      exact h
    have gkey : ∀ {n : String} {s s' : CGState F} {fo}, getFunction n s = (fo, s') →
        s'.protos = s.protos := fun heq => getFunction_protos_of_eq heq
    have hbin : ∀ (op : Char) (lop rop : Operand F) (st : CGState F),
        ((cgBinOp op lop rop st).2).protos = st.protos := by
      intro op lop rop st
      simp only [cgBinOp]
      split
      · rfl
      · split
        · rfl
        · split
          · rfl
          · split
            · rfl
            · split
              · rfl
              · split
                · next st₁ heq =>
                  have hh0 := gkey heq
                  exact rfl.trans hh0
                · next fo st₁ heq =>
                  have hh0 := gkey heq
                  exact rfl.trans hh0
    intro e st
    cases e with
    | num v => rfl
    | varRef name =>
      simp only [cgExprF]
      split
      · rfl
      · rfl
    | unaryE opc operand =>
      simp only [cgExprF]
      split
      · next st₁ heq =>
        have hh0 := key heq
        exact rfl.trans hh0
      · next ov st₁ heq =>
        split
        · next st₂ heq₂ =>
          have hh0 := gkey heq₂
          have hh1 := key heq
          exact rfl.trans (hh0.trans hh1)
        · next fo st₂ heq₂ =>
          have hh0 := gkey heq₂
          have hh1 := key heq
          exact rfl.trans (hh0.trans hh1)
    | binE op lhs rhs =>
      simp only [cgExprF]
      split
      · split
        · next name =>
          split
          · next st₁ heq =>
            have hh0 := key heq
            exact rfl.trans hh0
          · next v st₁ heq =>
            split
            ·
              have hh0 := key heq
              exact rfl.trans hh0
            ·
              have hh0 := key heq
              exact rfl.trans hh0
        · rfl
      · split
        · next st₁ heq =>
          split
          · next st₂ heq₂ =>
            have hh0 := key heq₂
            have hh1 := key heq
            exact rfl.trans (hh0.trans hh1)
          · next e₂ st₂ heq₂ =>
            have hh0 := key heq₂
            have hh1 := key heq
            exact rfl.trans (hh0.trans hh1)
          · next v₂ st₂ heq₂ =>
            have hh0 := key heq₂
            have hh1 := key heq
            exact rfl.trans (hh0.trans hh1)
        · next e₁ st₁ heq =>
          have hh0 := key heq
          exact rfl.trans hh0
        · next lop st₁ heq =>
          split
          · next st₂ heq₂ =>
            have hh0 := key heq₂
            have hh1 := key heq
            exact rfl.trans (hh0.trans hh1)
          · next e₂ st₂ heq₂ =>
            have hh0 := key heq₂
            have hh1 := key heq
            exact rfl.trans (hh0.trans hh1)
          · next rop st₂ heq₂ =>
            have hh1 := key heq₂
            have hh2 := key heq
            refine Eq.trans (b := (st₂ : CGState F).protos) ?_ ?_
            · exact hbin op lop rop st₂
            · exact rfl.trans (hh1.trans hh2)
    | callE callee argEs =>
      have akey : ∀ {s s' : CGState F} {r}, cgArgsWith (cgExprF sem fuel) argEs s = (r, s') →
          s'.protos = s.protos := by
        intro s s' r heq
        have h := cgArgsWith_protos (cgExprF sem fuel) (fun e st => ih e st) argEs s
        rw [heq] at h
        exact h
      simp only [cgExprF]
      split
      · next st₁ heq =>
        have hh0 := gkey heq
        exact rfl.trans hh0
      · next fo st₁ heq =>
        split
        ·
          have hh0 := gkey heq
          exact rfl.trans hh0
        · split
          · next st₂ heq₂ =>
            have hh0 := akey heq₂
            have hh1 := gkey heq
            exact rfl.trans (hh0.trans hh1)
          · next ops st₂ heq₂ =>
            have hh0 := akey heq₂
            have hh1 := gkey heq
            exact rfl.trans (hh0.trans hh1)
    | ifE cnd thn els =>
      simp only [cgExprF]
      split
      · next st₁ heq =>
        have hh0 := key heq
        exact rfl.trans hh0
      · next condV st₁ heq =>
        split
        · next st₂ heq₂ =>
          have hh0 := key heq₂
          have hh1 := key heq
          exact rfl.trans (hh0.trans hh1)
        · next thenV st₂ heq₂ =>
          split
          · next st₃ heq₃ =>
            have hh0 := key heq₃
            have hh1 := key heq₂
            have hh2 := key heq
            exact rfl.trans (hh0.trans (hh1.trans hh2))
          · next elseV st₃ heq₃ =>
            have hh0 := key heq₃
            have hh1 := key heq₂
            have hh2 := key heq
            exact rfl.trans (hh0.trans (hh1.trans hh2))
    | forE varName start endE step body =>
      simp only [cgExprF]
      have hstep : ∀ {s s' : CGState F} {r : Except CgErr (Operand F)},
          (match step with
           | some stepE => cgExprF sem fuel stepE s
           | none => ((.ok (.cst sem.one), s) : Except CgErr (Operand F) × CGState F))
            = (r, s') → s'.protos = s.protos := by
        intro s s' r heq
        cases step with
        | some stepE => exact key heq
        | none =>
          have h1 : s = s' := congrArg Prod.snd heq
          rw [← h1]
      split
      · next st₁ heq =>
        have hh0 := key heq
        exact rfl.trans hh0
      · next e₁ st₁ heq =>
        have hh0 := key heq
        exact rfl.trans hh0
      · next startV st₁ heq =>
        split
        · next st₂ heq₂ =>
          have hh0 := key heq₂
          have hh1 := key heq
          exact rfl.trans (hh0.trans hh1)
        · next e₂ st₂ heq₂ =>
          have hh0 := key heq₂
          have hh1 := key heq
          exact rfl.trans (hh0.trans hh1)
        · next bodyV st₂ heq₂ =>
          split
          · next st₃ heq₃ =>
            have hh0 := hstep heq₃
            have hh1 := key heq₂
            have hh2 := key heq
            exact rfl.trans (hh0.trans (hh1.trans hh2))
          · next e₃ st₃ heq₃ =>
            have hh0 := hstep heq₃
            have hh1 := key heq₂
            have hh2 := key heq
            exact rfl.trans (hh0.trans (hh1.trans hh2))
          · next stepV st₃ heq₃ =>
            split
            · next st₄ heq₄ =>
              have hh0 := key heq₄
              have hh1 := hstep heq₃
              have hh2 := key heq₂
              have hh3 := key heq
              exact rfl.trans (hh0.trans (hh1.trans (hh2.trans hh3)))
            · next e₄ st₄ heq₄ =>
              have hh0 := key heq₄
              have hh1 := hstep heq₃
              have hh2 := key heq₂
              have hh3 := key heq
              exact rfl.trans (hh0.trans (hh1.trans (hh2.trans hh3)))
            · next endV st₄ heq₄ =>
              have hh0 := key heq₄
              have hh1 := hstep heq₃
              have hh2 := key heq₂
              have hh3 := key heq
              exact rfl.trans (hh0.trans (hh1.trans (hh2.trans hh3)))
    | varInE varNames body =>
      have vkey : ∀ {s s' : CGState F} {r}, cgVarDeclsWith sem (cgExprF sem fuel) varNames [] s
          = (r, s') → s'.protos = s.protos := by
        intro s s' r heq
        have h := cgVarDeclsWith_protos sem (cgExprF sem fuel) (fun e st => ih e st) varNames [] s
        rw [heq] at h
        exact h
      simp only [cgExprF]
      split
      · next st₁ heq =>
        have hh0 := vkey heq
        exact rfl.trans hh0
      · next oldB st₁ heq =>
        split
        · next st₂ heq₂ =>
          have hh0 := key heq₂
          have hh1 := vkey heq
          exact rfl.trans (hh0.trans hh1)
        · next bodyV st₂ heq₂ =>
          have hh0 := key heq₂
          have hh1 := vkey heq
          exact rfl.trans (hh0.trans hh1)

theorem cgFnArgs_protos {F : Type} :
    ∀ (args : List String) (i : ℕ) (st : CGState F),
      ((cgFnArgs args i st) : CGState F).protos = st.protos := by
  intro args
  induction args with
  | nil => intro i st; rfl
  | cons a rest ihr =>
    intro i st
    simp only [cgFnArgs]
    exact ihr (i + 1) _

theorem alGet_alSet_self {κ α : Type} [DecidableEq κ] (k : κ) (v : α) :
    ∀ l : List (κ × α), alGet k (alSet k v l) = some v := by
  intro l
  induction l with
  | nil => simp [alGet, alSet]
  | cons p r ihr =>
    by_cases h : p.1 = k
    · simp [alGet, alSet, h]
    · simp [alGet, alSet, h, ihr]

/-- C10: at every invocation of `FunctionAST::codegen` the prototype is
moved into `FunctionProtos` under its name as the very first step
(ast.cpp:316-317), before the redefinition check and before the body is
lowered, and nothing later removes it: whatever the outcome — success,
rejection as a redefinition, or a failed body — the registry afterwards maps
the definition's name to this prototype, replacing any previous entry. -/
theorem c10_proto_registered_first {F : Type} (sem : FloatSem F) (fuel : ℕ)
    (f : FunctionA F) (st : CGState F) :
    alGet f.proto.name ((functionCodegen sem fuel f st).2).protos = some f.proto := by
  have base : alGet f.proto.name
      (alSet f.proto.name f.proto st.protos) = some f.proto :=
    alGet_alSet_self _ _ _
  have key : ∀ {e : Expr F} {s s' : CGState F} {r}, cgExprF sem fuel e s = (r, s') →
      s'.protos = s.protos := by
    intro e s s' r heq
    have h := cgExprF_protos sem fuel e s
    rw [heq] at h
    exact h
  simp only [functionCodegen]
  split
  · next st₁ heq =>
    rw [getFunction_protos_of_eq heq]
    exact base
  · next theFn st₁ heq =>
    have h₁ : st₁.protos = alSet f.proto.name f.proto st.protos :=
      getFunction_protos_of_eq heq
    split
    · -- redefinition rejected
      have : ((if f.proto.isBinaryOp
          then { st₁ with precTable := ctSet st₁.precTable f.proto.operatorName f.proto.precedence }
          else st₁).logErrorV "Function cannot be redefined.").protos = st₁.protos := by
        split
        · rfl
        · rfl
      rw [this, h₁]
      exact base
    · split
      · next retV st₃ heq₃ =>
        have h₃ := key heq₃
        refine Eq.trans ?_ base
        refine congrArg (alGet f.proto.name) ?_
        refine Eq.trans h₃ ?_
        refine Eq.trans (cgFnArgs_protos _ _ _) ?_
        show (if f.proto.isBinaryOp
          then { st₁ with precTable := ctSet st₁.precTable f.proto.operatorName f.proto.precedence }
          else st₁).protos = _
        rw [show ((if f.proto.isBinaryOp
          then { st₁ with precTable := ctSet st₁.precTable f.proto.operatorName f.proto.precedence }
          else st₁) : CGState F).protos = st₁.protos from by split <;> rfl]
        exact h₁
      · next st₃ heq₃ =>
        have h₃ := key heq₃
        refine Eq.trans ?_ base
        refine congrArg (alGet f.proto.name) ?_
        refine Eq.trans h₃ ?_
        refine Eq.trans (cgFnArgs_protos _ _ _) ?_
        rw [show ((if f.proto.isBinaryOp
          then { st₁ with precTable := ctSet st₁.precTable f.proto.operatorName f.proto.precedence }
          else st₁) : CGState F).protos = st₁.protos from by split <;> rfl]
        exact h₁
      · next e₃ st₃ heq₃ =>
        have h₃ := key heq₃
        refine Eq.trans ?_ base
        refine congrArg (alGet f.proto.name) ?_
        refine Eq.trans h₃ ?_
        refine Eq.trans (cgFnArgs_protos _ _ _) ?_
        rw [show ((if f.proto.isBinaryOp
          then { st₁ with precTable := ctSet st₁.precTable f.proto.operatorName f.proto.precedence }
          else st₁) : CGState F).protos = st₁.protos from by split <;> rfl]
        exact h₁

/-- C8 as amended: when the module already holds a function of the same name
with a body, `FunctionAST::codegen` rejects the redefinition with the
`Function cannot be redefined.` diagnostic, leaves the module (and the
builder's blocks) untouched — but the operator-precedence table has already
been updated for a binary-operator prototype, because the recording happens
before the check. -/
theorem c8_redefinition_amended {F : Type} (sem : FloatSem F) (fuel : ℕ)
    (f : FunctionA F) (st : CGState F) (fOld : FnIR F)
    (hm : alGet f.proto.name st.module = some fOld)
    (hb : fOld.blocks ≠ []) :
    (functionCodegen sem fuel f st).1 = .error .nullV ∧
    (functionCodegen sem fuel f st).2.module = st.module ∧
    (functionCodegen sem fuel f st).2.blocks = st.blocks ∧
    (functionCodegen sem fuel f st).2.log
      = st.log ++ ["LogError: Function cannot be redefined."] ∧
    (functionCodegen sem fuel f st).2.precTable
      = (if f.proto.isBinaryOp
         then ctSet st.precTable f.proto.operatorName f.proto.precedence
         else st.precTable) := by
  have hne : fOld.blocks.isEmpty = false := by
    cases h : fOld.blocks with
    | nil => exact absurd h hb
    | cons a l => rfl
  have hgf : getFunction f.proto.name
      { st with protos := alSet f.proto.name f.proto st.protos }
      = (some fOld, { st with protos := alSet f.proto.name f.proto st.protos }) := by
    simp only [getFunction]
    rw [show ({ st with protos := alSet f.proto.name f.proto st.protos } : CGState F).module
        = st.module from rfl]
    rw [hm]
  simp only [functionCodegen, hgf, hne]
  by_cases hbo : f.proto.isBinaryOp = true
  · simp [hbo, CGState.logErrorV, CGState.logMsg]
  · simp [hbo, CGState.logErrorV, CGState.logMsg]

/-! ## Stepping lemmas for `ParseBinOpRHS` -/

theorem GetTokPrecedence_tchar_pos {T : PrecTable} {ch : Char}
    (hascii : ch.toNat ≤ 127) (hpos : 0 < T ch) :
    GetTokPrecedence T (.tchar ch) = (T ch : ℤ) := by
  simp only [GetTokPrecedence, isasciiT, tokChar, hascii]
  rw [if_pos (by simp [hascii]), if_neg (by omega)]

theorem ParseUnary_num (T : PrecTable) (fuel : ℕ) (v : ℚ) (ts : List Tok) :
    ParseUnary T (fuel + 2) ⟨.tnum v, ts⟩ = .ok (.num v, mkPState ts) := by
  simp only [ParseUnary, isasciiT, ParsePrimary, ParseNumberExpr, getNextToken]
  cases ts <;> rfl

theorem ParseBinOpRHS_consume {T : PrecTable} {ch : Char}
    (hascii : ch.toNat ≤ 127) (hpos : 0 < T ch)
    (fuel : ℕ) (p : ℤ) (hp : p ≤ (T ch : ℤ)) (lhs : Expr ℚ) (v : ℚ) (rest : List Tok) :
    ParseBinOpRHS T (fuel + 3) p lhs ⟨.tchar ch, .tnum v :: rest⟩
      = (if (T ch : ℤ) < GetTokPrecedence T (mkPState rest).cur then
          (match ParseBinOpRHS T (fuel + 2) ((T ch : ℤ) + 1) (.num v) (mkPState rest) with
           | .error e => .error e
           | .ok (rhs, st) => ParseBinOpRHS T (fuel + 2) p (.binE ch lhs rhs) st)
         else ParseBinOpRHS T (fuel + 2) p (.binE ch lhs (.num v)) (mkPState rest)) := by
  conv_lhs => rw [ParseBinOpRHS]
  rw [GetTokPrecedence_tchar_pos hascii hpos]
  rw [if_neg (by omega)]
  rw [show getNextToken ⟨.tchar ch, .tnum v :: rest⟩ = ⟨.tnum v, rest⟩ from rfl]
  rw [ParseUnary_num T fuel v rest]
  simp only []
  by_cases hnext : (T ch : ℤ) < GetTokPrecedence T (mkPState rest).cur
  · rw [if_pos hnext, if_pos hnext]
    rfl
  · rw [if_neg hnext, if_neg hnext]
    rfl

theorem ParseBinOpRHS_stop {T : PrecTable} {p : ℤ} {lhs : Expr ℚ} {st : PState}
    (fuel : ℕ) (h : GetTokPrecedence T st.cur < p) :
    ParseBinOpRHS T (fuel + 1) p lhs st = .ok (lhs, st) := by
  conv_lhs => rw [ParseBinOpRHS]
  rw [if_pos h]

theorem ParseBinOpRHS_last {T : PrecTable} {c : Char}
    (hascii : c.toNat ≤ 127) (hpos : 0 < T c)
    (fuel : ℕ) (p : ℤ) (hp0 : 0 ≤ p) (hp : p ≤ (T c : ℤ)) (lhs : Expr ℚ) (w : ℚ) :
    ParseBinOpRHS T (fuel + 4) p lhs ⟨.tchar c, [.tnum w]⟩
      = .ok (.binE c lhs (.num w), ⟨.teof, []⟩) := by
  rw [show fuel + 4 = (fuel + 1) + 3 from rfl]
  rw [ParseBinOpRHS_consume hascii hpos (fuel + 1) p hp lhs w []]
  rw [if_neg (by rw [show GetTokPrecedence T (mkPState []).cur = -1 from rfl]; omega)]
  rw [show (fuel + 1) + 2 = (fuel + 2) + 1 from rfl]
  exact ParseBinOpRHS_stop (fuel + 2)
    (by rw [show GetTokPrecedence T (mkPState ([] : List Tok)).cur = -1 from rfl]; omega)

theorem ParseBinOpRHS_mid {T : PrecTable} {b c : Char}
    (hb : b.toNat ≤ 127) (hpb : 0 < T b) (hc : c.toNat ≤ 127) (hpc : 0 < T c)
    (fuel : ℕ) (p : ℤ) (hp0 : 0 ≤ p) (hp : p ≤ (T b : ℤ)) (lhs : Expr ℚ) (z w : ℚ) :
    ParseBinOpRHS T (fuel + 8) p lhs ⟨.tchar b, [.tnum z, .tchar c, .tnum w]⟩
      = (if T b < T c then
          .ok (.binE b lhs (.binE c (.num z) (.num w)), ⟨.teof, []⟩)
         else if p ≤ (T c : ℤ) then
          .ok (.binE c (.binE b lhs (.num z)) (.num w), ⟨.teof, []⟩)
         else .ok (.binE b lhs (.num z), ⟨.tchar c, [.tnum w]⟩)) := by
  rw [show fuel + 8 = (fuel + 5) + 3 from rfl]
  rw [ParseBinOpRHS_consume hb hpb (fuel + 5) p hp lhs z [.tchar c, .tnum w]]
  rw [show (mkPState [.tchar c, .tnum w]) = ⟨.tchar c, [.tnum w]⟩ from rfl]
  rw [show GetTokPrecedence T (PState.mk (.tchar c) [.tnum w]).cur
      = GetTokPrecedence T (.tchar c) from rfl]
  rw [GetTokPrecedence_tchar_pos hc hpc]
  by_cases hbc : T b < T c
  · rw [if_pos (by exact_mod_cast hbc), if_pos hbc]
    rw [show (fuel + 5) + 2 = (fuel + 3) + 4 from rfl]
    rw [ParseBinOpRHS_last hc hpc (fuel + 3) ((T b : ℤ) + 1) (by omega) (by exact_mod_cast hbc)
      (.num z) w]
    rw [show (fuel + 3) + 4 = (fuel + 6) + 1 from rfl]
    exact ParseBinOpRHS_stop (fuel + 6)
      (by rw [show GetTokPrecedence T (PState.mk .teof []).cur = -1 from rfl]; omega)
  · rw [if_neg (by exact_mod_cast hbc), if_neg hbc]
    by_cases hpcp : p ≤ (T c : ℤ)
    · rw [if_pos hpcp]
      rw [show (fuel + 5) + 2 = (fuel + 3) + 4 from rfl]
      exact ParseBinOpRHS_last hc hpc (fuel + 3) p hp0 hpcp (.binE b lhs (.num z)) w
    · rw [if_neg hpcp]
      rw [show (fuel + 5) + 2 = (fuel + 6) + 1 from rfl]
      exact ParseBinOpRHS_stop (fuel + 6)
        (by rw [show GetTokPrecedence T (PState.mk (.tchar c) [.tnum w]).cur
            = GetTokPrecedence T (.tchar c) from rfl]
            rw [GetTokPrecedence_tchar_pos hc hpc]; omega)

/-- C3: binary-operator parsing follows precedence climbing with
left-associative ties.  First conjunct: with a minimum precedence `p ≥ 0`
and a current token that is not a declared binary operator (not an ASCII
character, or table precedence 0), `ParseBinOpRHS` returns the left operand
unchanged.  Second conjunct: for any three declared operators `a b c` and
numbers `x y z w`, the token stream of `x a y b z c w` parses to exactly the
tree `climbExpected` prescribed by standard precedence climbing with
left-associative ties. -/
theorem c3_precedence_climbing :
    (∀ (T : PrecTable) (fuel : ℕ) (p : ℤ) (lhs : Expr ℚ) (st : PState),
      0 ≤ p → (isasciiT st.cur = false ∨ T (tokChar st.cur) = 0) →
      ParseBinOpRHS T (fuel + 1) p lhs st = .ok (lhs, st)) ∧
    (∀ (T : PrecTable) (a b c : Char) (x y z w : ℚ) (fuel : ℕ),
      a.toNat ≤ 127 → b.toNat ≤ 127 → c.toNat ≤ 127 →
      0 < T a → 0 < T b → 0 < T c →
      ParseExpression T (fuel + 12)
          ⟨.tnum x, [.tchar a, .tnum y, .tchar b, .tnum z, .tchar c, .tnum w]⟩
        = .ok (climbExpected T a b c x y z w, ⟨.teof, []⟩)) := by
  constructor
  · intro T fuel p lhs st hp hnd
    refine ParseBinOpRHS_stop fuel ?_
    have hneg : GetTokPrecedence T st.cur = -1 := by
      rcases hnd with h | h
      · simp [GetTokPrecedence, h]
      · simp [GetTokPrecedence, h]
    omega
  · intro T a b c x y z w fuel ha hb hc hpa hpb hpc
    conv_lhs => rw [ParseExpression]
    rw [show fuel + 11 = (fuel + 9) + 2 from rfl]
    rw [ParseUnary_num T (fuel + 9)
      x [.tchar a, .tnum y, .tchar b, .tnum z, .tchar c, .tnum w]]
    simp only []
    rw [show mkPState [.tchar a, .tnum y, .tchar b, .tnum z, .tchar c, .tnum w]
      = ⟨.tchar a, [.tnum y, .tchar b, .tnum z, .tchar c, .tnum w]⟩ from rfl]
    rw [show (fuel + 9) + 2 = (fuel + 8) + 3 from rfl]
    rw [ParseBinOpRHS_consume ha hpa (fuel + 8) 0 (by omega) (.num x) y
      [.tchar b, .tnum z, .tchar c, .tnum w]]
    rw [show mkPState [.tchar b, .tnum z, .tchar c, .tnum w]
      = ⟨.tchar b, [.tnum z, .tchar c, .tnum w]⟩ from rfl]
    rw [show GetTokPrecedence T (PState.mk (.tchar b) [.tnum z, .tchar c, .tnum w]).cur
      = GetTokPrecedence T (.tchar b) from rfl]
    rw [GetTokPrecedence_tchar_pos hb hpb]
    by_cases hab : T a < T b
    · rw [if_pos (by exact_mod_cast hab)]
      rw [show (fuel + 8) + 2 = (fuel + 2) + 8 from rfl]
      rw [ParseBinOpRHS_mid hb hpb hc hpc (fuel + 2) ((T a : ℤ) + 1) (by omega)
        (by exact_mod_cast hab) (.num y) z w]
      by_cases hbc : T b < T c
      · rw [if_pos hbc]
        simp only []
        rw [show (fuel + 2) + 8 = (fuel + 9) + 1 from rfl]
        rw [ParseBinOpRHS_stop (fuel + 9)
          (by rw [show GetTokPrecedence T (PState.mk .teof []).cur = -1 from rfl]; omega)]
        rw [climbExpected, if_pos hab, if_pos hbc]
      · rw [if_neg hbc]
        by_cases hac : (T a : ℤ) + 1 ≤ (T c : ℤ)
        · rw [if_pos hac]
          simp only []
          rw [show (fuel + 2) + 8 = (fuel + 9) + 1 from rfl]
          rw [ParseBinOpRHS_stop (fuel + 9)
            (by rw [show GetTokPrecedence T (PState.mk .teof []).cur = -1 from rfl]; omega)]
          rw [climbExpected, if_pos hab, if_neg hbc,
            if_pos (show T a < T c by omega)]
        · rw [if_neg hac]
          simp only []
          rw [show (fuel + 2) + 8 = (fuel + 6) + 4 from rfl]
          rw [ParseBinOpRHS_last hc hpc (fuel + 6) 0 (by omega) (by omega)
            (.binE a (.num x) (.binE b (.num y) (.num z))) w]
          rw [climbExpected, if_pos hab, if_neg hbc, if_neg (by omega)]
    · rw [if_neg (by exact_mod_cast hab)]
      rw [show (fuel + 8) + 2 = (fuel + 2) + 8 from rfl]
      rw [ParseBinOpRHS_mid hb hpb hc hpc (fuel + 2) 0 (by omega) (by omega)
        (.binE a (.num x) (.num y)) z w]
      by_cases hbc : T b < T c
      · rw [if_pos hbc]
        rw [climbExpected, if_neg hab, if_pos hbc]
      · rw [if_neg hbc, if_pos (by omega)]
        rw [climbExpected, if_neg hab, if_neg hbc]

/-- Witness for C3: the seeded table with `x + y * z - w` (precedences
20, 40, 20: the `*` binds tighter, the `+`/`-` tie groups left), and the
stopped loop at end-of-input. -/
theorem c3_precedence_climbing_witness :
    ParseExpression seededTable 32
        ⟨.tnum 1, [.tchar '+', .tnum 2, .tchar '*', .tnum 3, .tchar '-', .tnum 4]⟩
      = .ok (.binE '-' (.binE '+' (.num 1) (.binE '*' (.num 2) (.num 3))) (.num 4),
             ⟨.teof, []⟩) ∧
    ParseBinOpRHS seededTable 5 0 (.num 7) ⟨.teof, []⟩ = .ok (.num 7, ⟨.teof, []⟩) := by
  constructor
  · have h := c3_precedence_climbing.2 seededTable '+' '*' '-' 1 2 3 4 20
      (by decide) (by decide) (by decide) (by decide) (by decide) (by decide)
    rw [show (20 : ℕ) + 12 = 32 from rfl] at h
    rw [h]
    rfl
  · exact c3_precedence_climbing.1 seededTable 4 0 (.num 7) ⟨.teof, []⟩ (by omega)
      (Or.inl rfl)

/-- Witness for the amended C8: the concrete `stRedef` redefinition of
`binary@` at precedence 55 over a table mapping `@` to 7. -/
theorem c8_redefinition_amended_witness :
    (alGet "binary@" stRedef.module
        = some (⟨["a", "b"], [(0, ⟨[], some (.ret (.cst 0))⟩)]⟩ : FnIR ℚ)) ∧
    (functionCodegen ratSem 8 redefFn stRedef).1 = .error .nullV ∧
    (functionCodegen ratSem 8 redefFn stRedef).2.precTable
      = ctSet stRedef.precTable '@' 55 := by
  have h := c8_redefinition_amended ratSem 8 redefFn stRedef
    (⟨["a", "b"], [(0, ⟨[], some (.ret (.cst 0))⟩)]⟩ : FnIR ℚ) rfl (by simp)
  refine ⟨rfl, h.1, ?_⟩
  rw [h.2.2.2.2]
  rfl


/-! ## Structural size and variable coverage, for the round-trip proof -/

/-! ## Association-list and state-operation lemmas -/

theorem alGet_append_some {κ α : Type} [DecidableEq κ] {k : κ} {v : α} {l₁ : List (κ × α)}
    (l₂ : List (κ × α)) (h : alGet k l₁ = some v) : alGet k (l₁ ++ l₂) = some v := by
  induction l₁ with
  | nil => simp [alGet] at h
  | cons p r ih =>
    obtain ⟨k₁, v₁⟩ := p
    rw [List.cons_append]
    simp only [alGet] at h ⊢
    by_cases hk : k₁ = k
    · rwa [if_pos hk] at h ⊢
    · rw [if_neg hk] at h ⊢
      exact ih h

theorem alGet_append_none {κ α : Type} [DecidableEq κ] {k : κ} {l₁ : List (κ × α)}
    (l₂ : List (κ × α)) (h : alGet k l₁ = none) : alGet k (l₁ ++ l₂) = alGet k l₂ := by
  induction l₁ with
  | nil => rfl
  | cons p r ih =>
    obtain ⟨k₁, v₁⟩ := p
    rw [List.cons_append]
    simp only [alGet] at h ⊢
    by_cases hk : k₁ = k
    · rw [if_pos hk] at h
      exact absurd h (by simp)
    · rw [if_neg hk] at h ⊢
      exact ih h

theorem alGet_map_modify {κ α : Type} [DecidableEq κ] (g : κ × α → α) (c b : κ) :
    ∀ l : List (κ × α),
      alGet b (l.map (fun p => if p.1 = c then (p.1, g p) else p))
        = if b = c then Option.map (fun v => g (b, v)) (alGet b l) else alGet b l := by
  intro l
  induction l with
  | nil => simp [alGet]
  | cons p r ih =>
    obtain ⟨k₁, v₁⟩ := p
    rw [List.map_cons]
    by_cases hkc : k₁ = c
    · rw [if_pos hkc]
      simp only [alGet]
      by_cases hkb : k₁ = b
      · rw [if_pos hkb, if_pos hkb, if_pos (by rw [← hkb]; exact hkc)]
        rw [← hkb]
        rfl
      · rw [if_neg hkb, if_neg hkb]
        exact ih
    · rw [if_neg hkc]
      simp only [alGet]
      by_cases hkb : k₁ = b
      · rw [if_pos hkb, if_pos hkb]
        rw [if_neg (by rw [← hkb]; exact hkc)]
      · rw [if_neg hkb, if_neg hkb]
        exact ih

theorem alGet_emit_self {F : Type} {st : CGState F} {blk : Block F} (i : Instr F)
    (h : alGet st.cur st.blocks = some blk) :
    alGet st.cur (st.emit i).blocks = some ⟨blk.instrs ++ [i], blk.term⟩ := by
  show alGet st.cur (st.blocks.map _) = _
  rw [alGet_map_modify (fun p => ⟨p.2.instrs ++ [i], p.2.term⟩) st.cur st.cur st.blocks,
    if_pos rfl, h]
  rfl

theorem alGet_emit_ne {F : Type} {st : CGState F} {b : ℕ} (i : Instr F)
    (hne : b ≠ st.cur) : alGet b (st.emit i).blocks = alGet b st.blocks := by
  show alGet b (st.blocks.map _) = _
  rw [alGet_map_modify (fun p => ⟨p.2.instrs ++ [i], p.2.term⟩) st.cur b st.blocks,
    if_neg hne]

theorem alGet_setTerm_self {F : Type} {st : CGState F} {blk : Block F} (t : Term F)
    (h : alGet st.cur st.blocks = some blk) :
    alGet st.cur (st.setTerm t).blocks = some ⟨blk.instrs, some t⟩ := by
  show alGet st.cur (st.blocks.map _) = _
  rw [alGet_map_modify (fun p => ⟨p.2.instrs, some t⟩) st.cur st.cur st.blocks,
    if_pos rfl, h]
  rfl

theorem alGet_setTerm_ne {F : Type} {st : CGState F} {b : ℕ} (t : Term F)
    (hne : b ≠ st.cur) : alGet b (st.setTerm t).blocks = alGet b st.blocks := by
  show alGet b (st.blocks.map _) = _
  rw [alGet_map_modify (fun p => ⟨p.2.instrs, some t⟩) st.cur b st.blocks,
    if_neg hne]

theorem alGet_none_of_ge {F : Type} {st : CGState F} {b : ℕ} (hok : StOK st)
    (hb : st.nextBlock ≤ b) : alGet b st.blocks = none := by
  cases h : alGet b st.blocks with
  | none => rfl
  | some blk => exact absurd (hok.idsLt b blk h) (by omega)

/-! ## Small-step execution lemmas -/

theorem execB_succ {F : Type} (sem : FloatSem F) (argv : List F)
    (cfg : List (ℕ × Block F)) (f p b : ℕ) (regs : RegMap F) (mem : Mem F) :
    execB sem argv cfg (f + 1) p b regs mem = execAt sem argv cfg f p b 0 regs mem := by
  rw [execB, execAt]
  cases alGet b cfg with
  | none => rfl
  | some blk => simp only [List.drop_zero]

theorem execAt_instr {F : Type} {sem : FloatSem F} {argv : List F}
    {cfg : List (ℕ × Block F)} (f : ℕ) {prev bid k : ℕ} {regs : RegMap F} {mem : Mem F}
    {blk : Block F} {i : Instr F} {rest : List (Instr F)} {regs₂ : RegMap F} {mem₂ : Mem F}
    (hblk : alGet bid cfg = some blk) (hi : blk.instrs.drop k = i :: rest)
    (hstep : instrStep sem argv prev regs mem i = some (regs₂, mem₂)) :
    execAt sem argv cfg f prev bid k regs mem
      = execAt sem argv cfg f prev bid (k + 1) regs₂ mem₂ := by
  have hrest : blk.instrs.drop (k + 1) = rest := by
    rw [← List.tail_drop, hi]
    rfl
  rw [execAt, execAt, hblk]
  simp only []
  rw [hi, hrest, runIs, hstep]

theorem execAt_br {F : Type} {sem : FloatSem F} {argv : List F}
    {cfg : List (ℕ × Block F)} (f : ℕ) {prev bid k b : ℕ} {regs : RegMap F} {mem : Mem F}
    {blk : Block F}
    (hblk : alGet bid cfg = some blk) (hend : blk.instrs.drop k = [])
    (hterm : blk.term = some (.br b)) :
    execAt sem argv cfg (f + 1) prev bid k regs mem
      = execAt sem argv cfg f bid b 0 regs mem := by
  rw [execAt, hblk]
  simp only []
  rw [hend, hterm, runIs]
  simp only []
  exact execB_succ sem argv cfg f bid b regs mem

theorem execAt_condbr {F : Type} {sem : FloatSem F} {argv : List F}
    {cfg : List (ℕ × Block F)} (f : ℕ) {prev bid k tb eb : ℕ} {c : Operand F}
    {regs : RegMap F} {mem : Mem F} {blk : Block F} {bv : Bool}
    (hblk : alGet bid cfg = some blk) (hend : blk.instrs.drop k = [])
    (hterm : blk.term = some (.condbr c tb eb)) (hc : evalOpB regs argv c = some bv) :
    execAt sem argv cfg (f + 1) prev bid k regs mem
      = execAt sem argv cfg f bid (if bv then tb else eb) 0 regs mem := by
  rw [execAt, hblk]
  simp only []
  rw [hend, hterm, runIs, hc]
  simp only []
  exact execB_succ sem argv cfg f bid _ regs mem

theorem execAt_ret {F : Type} {sem : FloatSem F} {argv : List F}
    {cfg : List (ℕ × Block F)} (f : ℕ) {prev bid k : ℕ} {o : Operand F}
    {regs : RegMap F} {mem : Mem F} {blk : Block F}
    (hblk : alGet bid cfg = some blk) (hend : blk.instrs.drop k = [])
    (hterm : blk.term = some (.ret o)) :
    execAt sem argv cfg f prev bid k regs mem = evalOpF regs argv o := by
  rw [execAt, hblk]
  simp only []
  rw [hend, hterm, runIs]

/-! ## Register-file and environment lemmas -/

theorem evalOp_mono {F : Type} {regs regs' : RegMap F} {argv : List F} {o : Operand F}
    {v : Val F} (hle : RegsLe regs regs') (h : evalOp regs argv o = some v) :
    evalOp regs' argv o = some v := by
  cases o with
  | reg n => exact hle n v h
  | arg i => exact h
  | cst w => exact h

theorem RegsLe_trans {F : Type} {a b c : RegMap F} (h₁ : RegsLe a b) (h₂ : RegsLe b c) :
    RegsLe a c :=
  fun n v h => h₂ n v (h₁ n v h)

theorem RegsLe_rset_fresh {F : Type} {regs : RegMap F} {n : ℕ} (v : Val F)
    (hb : RegsBound regs n) : RegsLe regs (rset regs n v) := by
  intro m w h
  have : m ≠ n := by
    intro he
    rw [he, hb n (le_refl n)] at h
    exact absurd h (by simp)
  rw [rset, if_neg this]
  exact h

theorem RegsBound_mono {F : Type} {regs : RegMap F} {n n' : ℕ} (h : RegsBound regs n)
    (hle : n ≤ n') : RegsBound regs n' :=
  fun m hm => h m (by omega)

theorem RegsBound_rset {F : Type} {regs : RegMap F} {n : ℕ} (v : Val F)
    (h : RegsBound regs n) : RegsBound (rset regs n v) (n + 1) := by
  intro m hm
  rw [rset, if_neg (by omega)]
  exact h m (by omega)

theorem rset_self {F : Type} (regs : RegMap F) (n : ℕ) (v : Val F) :
    rset regs n v n = some v := by
  rw [rset, if_pos rfl]

theorem EnvAgree_nv {F : Type} {st st' : CGState F} {mem : Mem F}
    {env : String → Option F} (h : EnvAgree st mem env)
    (hnv : st'.namedValues = st.namedValues) : EnvAgree st' mem env := by
  intro x v hv
  obtain ⟨s, h₁, h₂⟩ := h x v hv
  exact ⟨s, by rw [hnv]; exact h₁, h₂⟩

/-! ## Builder-evolution primitives -/

theorem CgEvol_refl {F : Type} (st : CGState F) : CgEvol st st where
  closedPres := fun _ _ _ h => h
  curPres := fun blk h => ⟨blk, h, [], by simp⟩
  nextBlockLe := le_refl _
  nextRegLe := le_refl _
  nvEq := rfl
  curOr := Or.inl rfl
  freshNone := fun _ _ h => h
  headKeep := fun bid blk rest h => ⟨blk, rest, h⟩

theorem CgEvol_trans {F : Type} {st st₁ st₂ : CGState F} (hok : StOK st)
    (h₁ : CgEvol st st₁) (h₂ : CgEvol st₁ st₂) : CgEvol st st₂ where
  closedPres := by
    intro b blk hne hget
    have hlt : b < st.nextBlock := hok.idsLt b blk hget
    have h₁' := h₁.closedPres b blk hne hget
    refine h₂.closedPres b blk ?_ h₁'
    rcases h₁.curOr with hc | hc
    · rw [hc]; exact hne
    · omega
  curPres := by
    intro blk hget
    obtain ⟨blk₁, hb₁, suf₁, hs₁⟩ := h₁.curPres blk hget
    have hcurlt : st.cur < st.nextBlock := by
      obtain ⟨cb, hcb, _⟩ := hok.curOpen
      exact hok.idsLt st.cur cb hcb
    rcases h₁.curOr with hc | hc
    · obtain ⟨blk₂, hb₂, suf₂, hs₂⟩ := h₂.curPres blk₁ (by rw [hc]; exact hb₁)
      refine ⟨blk₂, by rw [← hc]; exact hb₂, suf₁ ++ suf₂, ?_⟩
      rw [hs₂, hs₁, List.append_assoc]
    · have hne : st.cur ≠ st₁.cur := by omega
      exact ⟨blk₁, h₂.closedPres st.cur blk₁ hne hb₁, suf₁, hs₁⟩
  nextBlockLe := le_trans h₁.nextBlockLe h₂.nextBlockLe
  nextRegLe := le_trans h₁.nextRegLe h₂.nextRegLe
  nvEq := by rw [h₂.nvEq, h₁.nvEq]
  curOr := by
    rcases h₂.curOr with hc | hc
    · rw [hc]; exact h₁.curOr
    · right; exact le_trans h₁.nextBlockLe hc
  freshNone := by
    intro b hb hn
    exact h₂.freshNone b (by have := h₁.nextBlockLe; omega) (h₁.freshNone b hb hn)
  headKeep := by
    intro bid blk rest h
    obtain ⟨blk₁, rest₁, h₁'⟩ := h₁.headKeep bid blk rest h
    exact h₂.headKeep bid blk₁ rest₁ h₁'

theorem CgEvol_emit_reg {F : Type} (st : CGState F) (i : Instr F) :
    CgEvol st (({st with nextReg := st.nextReg + 1}).emit i) where
  closedPres := fun b blk hne hget => by
    have hne₂ : b ≠ ({st with nextReg := st.nextReg + 1} : CGState F).cur := hne
    rw [alGet_emit_ne i hne₂]
    exact hget
  curPres := fun blk hget =>
    ⟨⟨blk.instrs ++ [i], blk.term⟩, alGet_emit_self i hget, [i], rfl⟩
  nextBlockLe := le_refl _
  nextRegLe := by show st.nextReg ≤ st.nextReg + 1; omega
  nvEq := rfl
  curOr := Or.inl rfl
  freshNone := by
    intro b _ hn
    show alGet b (st.blocks.map _) = none
    rw [alGet_map_modify (fun p => ⟨p.2.instrs ++ [i], p.2.term⟩) st.cur b st.blocks]
    by_cases hb : b = st.cur
    · rw [if_pos hb, hn]; rfl
    · rw [if_neg hb]; exact hn
  headKeep := by
    intro bid blk rest h
    show ∃ blk' rest', st.blocks.map _ = (bid, blk') :: rest'
    rw [h, List.map_cons]
    by_cases hb : bid = st.cur
    · exact ⟨_, _, by rw [if_pos hb]⟩
    · exact ⟨_, _, by rw [if_neg hb]⟩

theorem StOK_emit_reg {F : Type} {st : CGState F} (i : Instr F) (hok : StOK st) :
    StOK (({st with nextReg := st.nextReg + 1}).emit i) where
  curOpen := by
    obtain ⟨blk, hb, ht⟩ := hok.curOpen
    exact ⟨⟨blk.instrs ++ [i], blk.term⟩, alGet_emit_self i hb, ht⟩
  closedTerm := by
    intro b blk hget hne
    have hne₂ : b ≠ ({st with nextReg := st.nextReg + 1} : CGState F).cur := hne
    rw [alGet_emit_ne i hne₂] at hget
    exact hok.closedTerm b blk hget hne
  idsLt := by
    intro b blk hget
    show b < st.nextBlock
    by_cases hb : b = st.cur
    · obtain ⟨cb, hcb, _⟩ := hok.curOpen
      rw [hb] at hget ⊢
      exact hok.idsLt st.cur cb hcb
    · have hb₂ : b ≠ ({st with nextReg := st.nextReg + 1} : CGState F).cur := hb
      rw [alGet_emit_ne i hb₂] at hget
      exact hok.idsLt b blk hget

/-! ## Pullback of `CfgExt` along the builder's evolution -/

theorem CfgExt_of_eq {F : Type} {st st' : CGState F} {cfg : List (ℕ × Block F)}
    (h : CfgExt st' cfg) (hb : st'.blocks = st.blocks) (hc : st'.cur = st.cur) :
    CfgExt st cfg where
  closedPres := by
    intro b blk hne hget
    exact h.closedPres b blk (by rw [hc]; exact hne) (by rw [hb]; exact hget)
  curPres := by
    intro blk hget
    have := h.curPres blk (by rw [hb, hc]; exact hget)
    rw [hc] at this
    exact this

theorem CfgExt_emit {F : Type} {st : CGState F} {i : Instr F} {cfg : List (ℕ × Block F)}
    (h : CfgExt (st.emit i) cfg) : CfgExt st cfg where
  closedPres := by
    intro b blk hne hget
    exact h.closedPres b blk hne (by rw [alGet_emit_ne i hne]; exact hget)
  curPres := by
    intro blk hget
    obtain ⟨blk', hb', suf, hsuf⟩ := h.curPres _ (alGet_emit_self i hget)
    exact ⟨blk', hb', i :: suf, by rw [hsuf]; simp⟩

theorem CfgExt_setTerm {F : Type} {st : CGState F} {t : Term F} {cfg : List (ℕ × Block F)}
    (h : CfgExt (st.setTerm t) cfg) : CfgExt st cfg where
  closedPres := by
    intro b blk hne hget
    exact h.closedPres b blk hne (by rw [alGet_setTerm_ne t hne]; exact hget)
  curPres := by
    intro blk hget
    obtain ⟨blk', hb', suf, hsuf⟩ := h.curPres _ (alGet_setTerm_self t hget)
    exact ⟨blk', hb', suf, hsuf⟩

theorem CfgExt_evol {F : Type} {st st' : CGState F} {cfg : List (ℕ × Block F)}
    (hok : StOK st) (hev : CgEvol st st') (h : CfgExt st' cfg) : CfgExt st cfg where
  closedPres := by
    intro b blk hne hget
    have hlt : b < st.nextBlock := hok.idsLt b blk hget
    refine h.closedPres b blk ?_ (hev.closedPres b blk hne hget)
    rcases hev.curOr with hc | hc
    · rw [hc]; exact hne
    · omega
  curPres := by
    intro blk hget
    obtain ⟨blk₁, hb₁, suf₁, hs₁⟩ := hev.curPres blk hget
    have hcurlt : st.cur < st.nextBlock := by
      obtain ⟨cb, hcb, _⟩ := hok.curOpen
      exact hok.idsLt st.cur cb hcb
    rcases hev.curOr with hc | hc
    · obtain ⟨blk₂, hb₂, suf₂, hs₂⟩ := h.curPres blk₁ (by rw [hc]; exact hb₁)
      refine ⟨blk₂, by rw [← hc]; exact hb₂, suf₁ ++ suf₂, ?_⟩
      rw [hs₂, hs₁, List.append_assoc]
    · have hne : st.cur ≠ st'.cur := by omega
      have := h.closedPres st.cur blk₁ hne hb₁
      exact ⟨blk₁, this, suf₁, hs₁⟩

theorem CfgExt_refl {F : Type} (st : CGState F) : CfgExt st st.blocks where
  closedPres := fun _ _ _ h => h
  curPres := fun blk h => ⟨blk, h, [], by simp⟩

/-- On the pure fragment with all variables bound, the reference interpreter
always produces a value. -/
theorem refInterp_total {F : Type} (sem : FloatSem F) :
    ∀ (n : ℕ) (e : Expr F) (env : String → Option F),
      esize e ≤ n → PureE e = true → VarsBound env e →
      ∃ v, refInterp sem env e = some v := by
  intro n
  induction n with
  | zero =>
    intro e env hsz _ _
    cases e <;> (simp only [esize] at hsz; omega)
  | succ n ih =>
    intro e env hsz hp hb
    cases e with
    | num w => exact ⟨w, rfl⟩
    | varRef x => exact hb
    | binE op l r =>
      simp only [PureE, Bool.and_eq_true, Bool.or_eq_true, decide_eq_true_eq] at hp
      obtain ⟨⟨hop, hpl⟩, hpr⟩ := hp
      obtain ⟨hbl, hbr⟩ := hb
      simp only [esize] at hsz
      obtain ⟨vl, hl⟩ := ih l env (by omega) hpl hbl
      obtain ⟨vr, hr⟩ := ih r env (by omega) hpr hbr
      rcases hop with ((((h | h) | h) | h) | h) <;> subst h
      · exact ⟨sem.add vl vr, by simp [refInterp, hl, hr]⟩
      · exact ⟨sem.sub vl vr, by simp [refInterp, hl, hr]⟩
      · exact ⟨sem.mul vl vr, by simp [refInterp, hl, hr]⟩
      · exact ⟨sem.div vl vr, by simp [refInterp, hl, hr]⟩
      · exact ⟨sem.ofBool (sem.ult vl vr), by simp [refInterp, hl, hr]⟩
    | ifE c t e =>
      simp only [PureE, Bool.and_eq_true] at hp
      obtain ⟨⟨hpc, hpt⟩, hpe⟩ := hp
      obtain ⟨hbc, hbt, hbe⟩ := hb
      simp only [esize] at hsz
      obtain ⟨vc, hc⟩ := ih c env (by omega) hpc hbc
      obtain ⟨vt, ht⟩ := ih t env (by omega) hpt hbt
      obtain ⟨ve, he⟩ := ih e env (by omega) hpe hbe
      refine ⟨if sem.cmpone vc sem.zero then vt else ve, ?_⟩
      rw [refInterp, hc]
      simp only []
      by_cases hcv : sem.cmpone vc sem.zero = true
      · rw [if_pos hcv, if_pos hcv]
        exact ht
      · rw [if_neg hcv, if_neg hcv]
        exact he
    | unaryE op o => simp [PureE] at hp
    | callE f as => simp [PureE] at hp
    | forE a b c d e => simp [PureE] at hp
    | varInE a b => simp [PureE] at hp

theorem NvBound_nv {F : Type} {st st' : CGState F} {env : String → Option F}
    (h : NvBound st env) (hnv : st'.namedValues = st.namedValues) : NvBound st' env := by
  intro x w hw
  obtain ⟨s, hs⟩ := h x w hw
  exact ⟨s, by rw [hnv]; exact hs⟩

/-- Executing one freshly emitted instruction advances the position by one. -/
theorem exec_emit_step {F : Type} (sem : FloatSem F) (argv : List F)
    {st st' : CGState F} {cfg : List (ℕ × Block F)} {i : Instr F}
    (hok : StOK st) (hext : CfgExt st' cfg)
    (hblocks : st'.blocks = (st.emit i).blocks) (hcur : st'.cur = st.cur)
    {regs regs₂ : RegMap F} {mem mem₂ : Mem F} {prev : ℕ}
    (hstep : instrStep sem argv prev regs mem i = some (regs₂, mem₂)) :
    ∀ f, execAt sem argv cfg f prev st.cur (lenAt st) regs mem
      = execAt sem argv cfg f prev st'.cur (lenAt st') regs₂ mem₂ := by
  obtain ⟨blkc, hbc, _⟩ := hok.curOpen
  have hemit : alGet st.cur (st.emit i).blocks = some ⟨blkc.instrs ++ [i], blkc.term⟩ :=
    alGet_emit_self i hbc
  have hst' : alGet st'.cur st'.blocks = some ⟨blkc.instrs ++ [i], blkc.term⟩ := by
    rw [hcur, hblocks]; exact hemit
  obtain ⟨cfgblk, hcfg, suf, hsuf⟩ := hext.curPres _ hst'
  have hlen : lenAt st = blkc.instrs.length := by rw [lenAt, hbc]
  have hlen2 : lenAt st' = blkc.instrs.length + 1 := by
    rw [lenAt, hst']
    simp
  have hdrop : cfgblk.instrs.drop (lenAt st) = i :: suf := by
    rw [hsuf, hlen]
    rw [show blkc.instrs ++ [i] ++ suf = blkc.instrs ++ (i :: suf) by simp]
    exact List.drop_left blkc.instrs (i :: suf)
  intro f
  have hcfg' : alGet st.cur cfg = some cfgblk := by rw [← hcur]; exact hcfg
  have step := execAt_instr f hcfg' hdrop hstep
  rw [step, hcur, hlen2, hlen]

theorem evalOpF_of {F : Type} {regs : RegMap F} {argv : List F} {o : Operand F} {w : F}
    (h : evalOp regs argv o = some (.fv w)) : evalOpF regs argv o = some w := by
  rw [evalOpF, h]

/-! ## The three builder states threaded through `IfExprAST::codegen` -/

/-- `cgExprF` on an `if`, rephrased through the three named glue states. -/
theorem cgExprF_ifE_eq {F : Type} (sem : FloatSem F) (fuel : ℕ) (cnd thn els : Expr F)
    (st : CGState F) :
    cgExprF sem (fuel + 1) (.ifE cnd thn els) st
      = (match cgExprF sem fuel cnd st with
         | (.error e', sx) => (.error e', sx)
         | (.ok condV, st1) =>
           match cgExprF sem fuel thn (ifThenEntry sem condV st1) with
           | (.error e', sx) => (.error e', sx)
           | (.ok thenV, st7) =>
             match cgExprF sem fuel els (ifElseEntry st1 st7) with
             | (.error e', sx) => (.error e', sx)
             | (.ok elseV, st11) =>
               (.ok (.reg st11.nextReg), ifMergeSt st1 thenV elseV st7.cur st11)) := rfl

/-! ## Block-map lemmas for the then-entry state -/

theorem ifThenEntry_blocks {F : Type} (sem : FloatSem F) (condV : Operand F)
    (st1 : CGState F) :
    (ifThenEntry sem condV st1).blocks
      = ((st1.blocks.map (fun p : ℕ × Block F => if p.1 = st1.cur then
            (p.1, (⟨p.2.instrs ++ [.fcmpone st1.nextReg condV (.cst sem.zero)],
              p.2.term⟩ : Block F))
            else p))
          ++ [(st1.nextBlock, (⟨[], none⟩ : Block F))]).map
          (fun p : ℕ × Block F => if p.1 = st1.cur then
            (p.1, (⟨p.2.instrs,
              some (.condbr (.reg st1.nextReg) st1.nextBlock (st1.nextBlock + 1))⟩ : Block F))
            else p) := rfl

theorem ifThenEntry_get_old {F : Type} {sem : FloatSem F} {condV : Operand F}
    {st1 : CGState F} {b : ℕ} {blk : Block F} (hne : b ≠ st1.cur)
    (h : alGet b st1.blocks = some blk) :
    alGet b (ifThenEntry sem condV st1).blocks = some blk := by
  rw [ifThenEntry_blocks, alGet_map_modify, if_neg hne]
  exact alGet_append_some _ (by rw [alGet_map_modify, if_neg hne]; exact h)

theorem ifThenEntry_get_cur {F : Type} {sem : FloatSem F} {condV : Operand F}
    {st1 : CGState F} {blk1 : Block F} (h : alGet st1.cur st1.blocks = some blk1) :
    alGet st1.cur (ifThenEntry sem condV st1).blocks
      = some ⟨blk1.instrs ++ [.fcmpone st1.nextReg condV (.cst sem.zero)],
          some (.condbr (.reg st1.nextReg) st1.nextBlock (st1.nextBlock + 1))⟩ := by
  rw [ifThenEntry_blocks, alGet_map_modify, if_pos rfl,
    alGet_append_some _ (by rw [alGet_map_modify, if_pos rfl, h]; rfl)]
  rfl

theorem ifThenEntry_get_new {F : Type} {sem : FloatSem F} {condV : Operand F}
    {st1 : CGState F} (hok1 : StOK st1) :
    alGet st1.nextBlock (ifThenEntry sem condV st1).blocks = some ⟨[], none⟩ := by
  have hcur : st1.cur < st1.nextBlock := by
    obtain ⟨cb, hcb, _⟩ := hok1.curOpen
    exact hok1.idsLt st1.cur cb hcb
  rw [ifThenEntry_blocks, alGet_map_modify, if_neg (by omega),
    alGet_append_none _ (by
      rw [alGet_map_modify, if_neg (by omega)]
      exact alGet_none_of_ge hok1 (le_refl _))]
  simp [alGet]

theorem ifThenEntry_get_none {F : Type} {sem : FloatSem F} {condV : Operand F}
    {st1 : CGState F} {b : ℕ} (hok1 : StOK st1) (hb : b ≠ st1.nextBlock)
    (h : alGet b st1.blocks = none) :
    alGet b (ifThenEntry sem condV st1).blocks = none := by
  have hbc : b ≠ st1.cur := by
    intro hh
    obtain ⟨cb, hcb, _⟩ := hok1.curOpen
    rw [hh, hcb] at h
    exact Option.noConfusion h
  rw [ifThenEntry_blocks, alGet_map_modify, if_neg hbc,
    alGet_append_none _ (by rw [alGet_map_modify, if_neg hbc]; exact h)]
  simp only [alGet]
  rw [if_neg (fun hh => hb hh.symm)]

theorem ifThenEntry_inv {F : Type} {sem : FloatSem F} {condV : Operand F}
    {st1 : CGState F} {b : ℕ} {blk : Block F} (hok1 : StOK st1)
    (h : alGet b (ifThenEntry sem condV st1).blocks = some blk) :
    (b = st1.nextBlock ∧ blk = ⟨[], none⟩) ∨
    (b = st1.cur ∧ ∃ blk1, alGet b st1.blocks = some blk1 ∧
      blk = ⟨blk1.instrs ++ [.fcmpone st1.nextReg condV (.cst sem.zero)],
        some (.condbr (.reg st1.nextReg) st1.nextBlock (st1.nextBlock + 1))⟩) ∨
    (b ≠ st1.cur ∧ b ≠ st1.nextBlock ∧ alGet b st1.blocks = some blk) := by
  by_cases hb1 : b = st1.nextBlock
  · subst hb1
    rw [ifThenEntry_get_new hok1] at h
    exact Or.inl ⟨rfl, (Option.some.inj h).symm⟩
  · by_cases hbc : b = st1.cur
    · subst hbc
      obtain ⟨blk1, hcb, _⟩ := hok1.curOpen
      rw [ifThenEntry_get_cur hcb] at h
      exact Or.inr (Or.inl ⟨rfl, blk1, hcb, (Option.some.inj h).symm⟩)
    · refine Or.inr (Or.inr ⟨hbc, hb1, ?_⟩)
      cases hy : alGet b st1.blocks with
      | some bb =>
        rw [ifThenEntry_get_old hbc hy] at h
        exact h
      | none =>
        rw [ifThenEntry_get_none hok1 hb1 hy] at h
        exact Option.noConfusion h

theorem ifThenEntry_ok {F : Type} {sem : FloatSem F} {condV : Operand F}
    {st1 : CGState F} (hok1 : StOK st1) : StOK (ifThenEntry sem condV st1) where
  curOpen := ⟨⟨[], none⟩, ifThenEntry_get_new hok1, rfl⟩
  closedTerm := by
    intro b blk h hne
    rcases ifThenEntry_inv hok1 h with ⟨hb, _⟩ | ⟨hb, blk1, _, hblk⟩ | ⟨hbc, _, hold⟩
    · exact absurd hb hne
    · rw [hblk]
      simp
    · exact hok1.closedTerm b blk hold hbc
  idsLt := by
    intro b blk h
    have hcur : st1.cur < st1.nextBlock := by
      obtain ⟨cb, hcb, _⟩ := hok1.curOpen
      exact hok1.idsLt st1.cur cb hcb
    show b < st1.nextBlock + 3
    rcases ifThenEntry_inv hok1 h with ⟨hb, _⟩ | ⟨hb, _⟩ | ⟨_, _, hold⟩
    · omega
    · omega
    · have := hok1.idsLt b blk hold
      omega

theorem ifThenEntry_evol {F : Type} {sem : FloatSem F} {condV : Operand F}
    {st1 : CGState F} (hok1 : StOK st1) : CgEvol st1 (ifThenEntry sem condV st1) where
  closedPres := fun b blk hne h => ifThenEntry_get_old hne h
  curPres := fun blk h =>
    ⟨⟨blk.instrs ++ [.fcmpone st1.nextReg condV (.cst sem.zero)],
      some (.condbr (.reg st1.nextReg) st1.nextBlock (st1.nextBlock + 1))⟩,
     ifThenEntry_get_cur h, [.fcmpone st1.nextReg condV (.cst sem.zero)], rfl⟩
  nextBlockLe := by show st1.nextBlock ≤ st1.nextBlock + 3; omega
  nextRegLe := by show st1.nextReg ≤ st1.nextReg + 1; omega
  nvEq := rfl
  curOr := Or.inr (le_refl _)
  freshNone := fun b hb h => ifThenEntry_get_none hok1 (by omega) h
  headKeep := by
    intro bid blk rest h
    rw [ifThenEntry_blocks, h]
    simp only [List.map_cons, List.cons_append]
    by_cases hb : bid = st1.cur
    · rw [if_pos hb]
      simp only [List.map_cons]
      rw [if_pos hb]
      exact ⟨_, _, rfl⟩
    · rw [if_neg hb]
      simp only [List.map_cons]
      rw [if_neg hb]
      exact ⟨_, _, rfl⟩

theorem ifThenEntry_len {F : Type} {sem : FloatSem F} {condV : Operand F}
    {st1 : CGState F} (hok1 : StOK st1) : lenAt (ifThenEntry sem condV st1) = 0 := by
  rw [lenAt]
  rw [show (ifThenEntry sem condV st1).cur = st1.nextBlock from rfl,
    ifThenEntry_get_new hok1]
  rfl

/-! ## Block-map lemmas for the else-entry state -/

theorem ifElseEntry_blocks {F : Type} (st1 st7 : CGState F) :
    (ifElseEntry st1 st7).blocks
      = (st7.blocks.map (fun p : ℕ × Block F => if p.1 = st7.cur then
            (p.1, (⟨p.2.instrs, some (.br (st1.nextBlock + 2))⟩ : Block F)) else p))
          ++ [(st1.nextBlock + 1, (⟨[], none⟩ : Block F))] := rfl

theorem ifElseEntry_get_old {F : Type} {st1 st7 : CGState F} {b : ℕ} {blk : Block F}
    (hne : b ≠ st7.cur) (h : alGet b st7.blocks = some blk) :
    alGet b (ifElseEntry st1 st7).blocks = some blk := by
  rw [ifElseEntry_blocks]
  exact alGet_append_some _ (by rw [alGet_map_modify, if_neg hne]; exact h)

theorem ifElseEntry_get_T1 {F : Type} {st1 st7 : CGState F} {blk7 : Block F}
    (h : alGet st7.cur st7.blocks = some blk7) :
    alGet st7.cur (ifElseEntry st1 st7).blocks
      = some ⟨blk7.instrs, some (.br (st1.nextBlock + 2))⟩ := by
  rw [ifElseEntry_blocks]
  exact alGet_append_some _ (by rw [alGet_map_modify, if_pos rfl, h]; rfl)

theorem ifElseEntry_get_new {F : Type} {st1 st7 : CGState F} (hok7 : StOK st7)
    (hfresh : alGet (st1.nextBlock + 1) st7.blocks = none) :
    alGet (st1.nextBlock + 1) (ifElseEntry st1 st7).blocks = some ⟨[], none⟩ := by
  have hne : st1.nextBlock + 1 ≠ st7.cur := by
    intro hh
    obtain ⟨cb, hcb, _⟩ := hok7.curOpen
    rw [hh, hcb] at hfresh
    exact Option.noConfusion hfresh
  rw [ifElseEntry_blocks,
    alGet_append_none _ (by rw [alGet_map_modify, if_neg hne]; exact hfresh)]
  simp [alGet]

theorem ifElseEntry_get_none {F : Type} {st1 st7 : CGState F} {b : ℕ} (hok7 : StOK st7)
    (hb : b ≠ st1.nextBlock + 1) (h : alGet b st7.blocks = none) :
    alGet b (ifElseEntry st1 st7).blocks = none := by
  have hne : b ≠ st7.cur := by
    intro hh
    obtain ⟨cb, hcb, _⟩ := hok7.curOpen
    rw [hh, hcb] at h
    exact Option.noConfusion h
  rw [ifElseEntry_blocks,
    alGet_append_none _ (by rw [alGet_map_modify, if_neg hne]; exact h)]
  simp only [alGet]
  rw [if_neg (fun hh => hb hh.symm)]

theorem ifElseEntry_inv {F : Type} {st1 st7 : CGState F} {b : ℕ} {blk : Block F}
    (hok7 : StOK st7) (hfresh : alGet (st1.nextBlock + 1) st7.blocks = none)
    (h : alGet b (ifElseEntry st1 st7).blocks = some blk) :
    (b = st1.nextBlock + 1 ∧ blk = ⟨[], none⟩) ∨
    (b = st7.cur ∧ ∃ blk7, alGet b st7.blocks = some blk7 ∧
      blk = ⟨blk7.instrs, some (.br (st1.nextBlock + 2))⟩) ∨
    (b ≠ st7.cur ∧ b ≠ st1.nextBlock + 1 ∧ alGet b st7.blocks = some blk) := by
  by_cases hb1 : b = st1.nextBlock + 1
  · subst hb1
    rw [ifElseEntry_get_new hok7 hfresh] at h
    exact Or.inl ⟨rfl, (Option.some.inj h).symm⟩
  · by_cases hbc : b = st7.cur
    · subst hbc
      obtain ⟨blk7, hcb, _⟩ := hok7.curOpen
      rw [ifElseEntry_get_T1 hcb] at h
      exact Or.inr (Or.inl ⟨rfl, blk7, hcb, (Option.some.inj h).symm⟩)
    · refine Or.inr (Or.inr ⟨hbc, hb1, ?_⟩)
      cases hy : alGet b st7.blocks with
      | some bb =>
        rw [ifElseEntry_get_old hbc hy] at h
        exact h
      | none =>
        rw [ifElseEntry_get_none hok7 hb1 hy] at h
        exact Option.noConfusion h

theorem ifElseEntry_ok {F : Type} {st1 st7 : CGState F} (hok7 : StOK st7)
    (hfresh : alGet (st1.nextBlock + 1) st7.blocks = none)
    (hnb : st1.nextBlock + 3 ≤ st7.nextBlock) : StOK (ifElseEntry st1 st7) where
  curOpen := ⟨⟨[], none⟩, ifElseEntry_get_new hok7 hfresh, rfl⟩
  closedTerm := by
    intro b blk h hne
    rcases ifElseEntry_inv hok7 hfresh h with ⟨hb, _⟩ | ⟨hb, blk7, _, hblk⟩ | ⟨hbc, _, hold⟩
    · exact absurd hb hne
    · rw [hblk]
      simp
    · exact hok7.closedTerm b blk hold hbc
  idsLt := by
    intro b blk h
    show b < st7.nextBlock
    rcases ifElseEntry_inv hok7 hfresh h with ⟨hb, _⟩ | ⟨hb, blk7, hold, _⟩ | ⟨_, _, hold⟩
    · omega
    · rw [hb]
      obtain ⟨cb, hcb, _⟩ := hok7.curOpen
      exact hok7.idsLt st7.cur cb hcb
    · exact hok7.idsLt b blk hold

theorem ifElseEntry_head {F : Type} {st1 st7 : CGState F} {bid : ℕ} {blk : Block F}
    {rest : List (ℕ × Block F)} (h : st7.blocks = (bid, blk) :: rest) :
    ∃ blk' rest', (ifElseEntry st1 st7).blocks = (bid, blk') :: rest' := by
  rw [ifElseEntry_blocks, h]
  simp only [List.map_cons, List.cons_append]
  by_cases hb : bid = st7.cur
  · rw [if_pos hb]
    exact ⟨_, _, rfl⟩
  · rw [if_neg hb]
    exact ⟨_, _, rfl⟩

theorem ifElseEntry_len {F : Type} {st1 st7 : CGState F} (hok7 : StOK st7)
    (hfresh : alGet (st1.nextBlock + 1) st7.blocks = none) :
    lenAt (ifElseEntry st1 st7) = 0 := by
  rw [lenAt]
  rw [show (ifElseEntry st1 st7).cur = st1.nextBlock + 1 from rfl,
    ifElseEntry_get_new hok7 hfresh]
  rfl

/-! ## Block-map lemmas for the merge state -/

theorem ifMergeSt_blocks {F : Type} (st1 : CGState F) (thenV elseV : Operand F)
    (thenPred : ℕ) (st11 : CGState F) :
    (ifMergeSt st1 thenV elseV thenPred st11).blocks
      = ((st11.blocks.map (fun p : ℕ × Block F => if p.1 = st11.cur then
            (p.1, (⟨p.2.instrs, some (.br (st1.nextBlock + 2))⟩ : Block F)) else p))
          ++ [(st1.nextBlock + 2, (⟨[], none⟩ : Block F))]).map
          (fun p : ℕ × Block F => if p.1 = st1.nextBlock + 2 then
            (p.1, (⟨p.2.instrs
                ++ [.phi st11.nextReg [(thenV, thenPred), (elseV, st11.cur)]],
              p.2.term⟩ : Block F))
            else p) := rfl

theorem ifMergeSt_get_old {F : Type} {st1 : CGState F} {thenV elseV : Operand F}
    {thenPred : ℕ} {st11 : CGState F} {b : ℕ} {blk : Block F}
    (hfresh : alGet (st1.nextBlock + 2) st11.blocks = none)
    (hne : b ≠ st11.cur) (h : alGet b st11.blocks = some blk) :
    alGet b (ifMergeSt st1 thenV elseV thenPred st11).blocks = some blk := by
  have hbm : b ≠ st1.nextBlock + 2 := by
    intro hh
    rw [hh, hfresh] at h
    exact Option.noConfusion h
  rw [ifMergeSt_blocks, alGet_map_modify, if_neg hbm]
  exact alGet_append_some _ (by rw [alGet_map_modify, if_neg hne]; exact h)

theorem ifMergeSt_get_E1v {F : Type} {st1 : CGState F} {thenV elseV : Operand F}
    {thenPred : ℕ} {st11 : CGState F} {blk11 : Block F}
    (hfresh : alGet (st1.nextBlock + 2) st11.blocks = none)
    (h : alGet st11.cur st11.blocks = some blk11) :
    alGet st11.cur (ifMergeSt st1 thenV elseV thenPred st11).blocks
      = some ⟨blk11.instrs, some (.br (st1.nextBlock + 2))⟩ := by
  have hbm : st11.cur ≠ st1.nextBlock + 2 := by
    intro hh
    rw [hh, hfresh] at h
    exact Option.noConfusion h
  rw [ifMergeSt_blocks, alGet_map_modify, if_neg hbm]
  exact alGet_append_some _ (by rw [alGet_map_modify, if_pos rfl, h]; rfl)

theorem ifMergeSt_get_merge {F : Type} {st1 : CGState F} {thenV elseV : Operand F}
    {thenPred : ℕ} {st11 : CGState F} (hok11 : StOK st11)
    (hfresh : alGet (st1.nextBlock + 2) st11.blocks = none) :
    alGet (st1.nextBlock + 2) (ifMergeSt st1 thenV elseV thenPred st11).blocks
      = some ⟨[.phi st11.nextReg [(thenV, thenPred), (elseV, st11.cur)]], none⟩ := by
  have hne : st1.nextBlock + 2 ≠ st11.cur := by
    intro hh
    obtain ⟨cb, hcb, _⟩ := hok11.curOpen
    rw [hh, hcb] at hfresh
    exact Option.noConfusion hfresh
  rw [ifMergeSt_blocks, alGet_map_modify, if_pos rfl,
    alGet_append_none _ (by rw [alGet_map_modify, if_neg hne]; exact hfresh)]
  simp [alGet]

theorem ifMergeSt_get_none {F : Type} {st1 : CGState F} {thenV elseV : Operand F}
    {thenPred : ℕ} {st11 : CGState F} {b : ℕ} (hok11 : StOK st11)
    (hb : b ≠ st1.nextBlock + 2) (h : alGet b st11.blocks = none) :
    alGet b (ifMergeSt st1 thenV elseV thenPred st11).blocks = none := by
  have hne : b ≠ st11.cur := by
    intro hh
    obtain ⟨cb, hcb, _⟩ := hok11.curOpen
    rw [hh, hcb] at h
    exact Option.noConfusion h
  rw [ifMergeSt_blocks, alGet_map_modify, if_neg hb,
    alGet_append_none _ (by rw [alGet_map_modify, if_neg hne]; exact h)]
  simp only [alGet]
  rw [if_neg (fun hh => hb hh.symm)]

theorem ifMergeSt_inv {F : Type} {st1 : CGState F} {thenV elseV : Operand F}
    {thenPred : ℕ} {st11 : CGState F} {b : ℕ} {blk : Block F} (hok11 : StOK st11)
    (hfresh : alGet (st1.nextBlock + 2) st11.blocks = none)
    (h : alGet b (ifMergeSt st1 thenV elseV thenPred st11).blocks = some blk) :
    (b = st1.nextBlock + 2 ∧
      blk = ⟨[.phi st11.nextReg [(thenV, thenPred), (elseV, st11.cur)]], none⟩) ∨
    (b = st11.cur ∧ ∃ blk11, alGet b st11.blocks = some blk11 ∧
      blk = ⟨blk11.instrs, some (.br (st1.nextBlock + 2))⟩) ∨
    (b ≠ st11.cur ∧ b ≠ st1.nextBlock + 2 ∧ alGet b st11.blocks = some blk) := by
  by_cases hb1 : b = st1.nextBlock + 2
  · subst hb1
    rw [ifMergeSt_get_merge hok11 hfresh] at h
    exact Or.inl ⟨rfl, (Option.some.inj h).symm⟩
  · by_cases hbc : b = st11.cur
    · subst hbc
      obtain ⟨blk11, hcb, _⟩ := hok11.curOpen
      rw [ifMergeSt_get_E1v hfresh hcb] at h
      exact Or.inr (Or.inl ⟨rfl, blk11, hcb, (Option.some.inj h).symm⟩)
    · refine Or.inr (Or.inr ⟨hbc, hb1, ?_⟩)
      cases hy : alGet b st11.blocks with
      | some bb =>
        rw [ifMergeSt_get_old hfresh hbc hy] at h
        exact h
      | none =>
        rw [ifMergeSt_get_none hok11 hb1 hy] at h
        exact Option.noConfusion h

theorem ifMergeSt_ok {F : Type} {st1 : CGState F} {thenV elseV : Operand F}
    {thenPred : ℕ} {st11 : CGState F} (hok11 : StOK st11)
    (hfresh : alGet (st1.nextBlock + 2) st11.blocks = none)
    (hnb : st1.nextBlock + 3 ≤ st11.nextBlock) :
    StOK (ifMergeSt st1 thenV elseV thenPred st11) where
  curOpen := ⟨⟨[.phi st11.nextReg [(thenV, thenPred), (elseV, st11.cur)]], none⟩,
    ifMergeSt_get_merge hok11 hfresh, rfl⟩
  closedTerm := by
    intro b blk h hne
    rcases ifMergeSt_inv hok11 hfresh h with ⟨hb, _⟩ | ⟨hb, blk11, _, hblk⟩ | ⟨hbc, _, hold⟩
    · exact absurd hb hne
    · rw [hblk]
      simp
    · exact hok11.closedTerm b blk hold hbc
  idsLt := by
    intro b blk h
    show b < st11.nextBlock
    rcases ifMergeSt_inv hok11 hfresh h with ⟨hb, _⟩ | ⟨hb, blk11, hold, _⟩ | ⟨_, _, hold⟩
    · omega
    · rw [hb]
      obtain ⟨cb, hcb, _⟩ := hok11.curOpen
      exact hok11.idsLt st11.cur cb hcb
    · exact hok11.idsLt b blk hold

theorem ifMergeSt_head {F : Type} {st1 : CGState F} {thenV elseV : Operand F}
    {thenPred : ℕ} {st11 : CGState F} {bid : ℕ} {blk : Block F}
    {rest : List (ℕ × Block F)} (h : st11.blocks = (bid, blk) :: rest) :
    ∃ blk' rest', (ifMergeSt st1 thenV elseV thenPred st11).blocks = (bid, blk') :: rest' := by
  rw [ifMergeSt_blocks, h]
  simp only [List.map_cons, List.cons_append]
  by_cases hb : bid = st11.cur
  · rw [if_pos hb]
    simp only [List.map_cons]
    by_cases hb2 : bid = st1.nextBlock + 2
    · rw [if_pos hb2]
      exact ⟨_, _, rfl⟩
    · rw [if_neg hb2]
      exact ⟨_, _, rfl⟩
  · rw [if_neg hb]
    simp only [List.map_cons]
    by_cases hb2 : bid = st1.nextBlock + 2
    · rw [if_pos hb2]
      exact ⟨_, _, rfl⟩
    · rw [if_neg hb2]
      exact ⟨_, _, rfl⟩

theorem ifMergeSt_len {F : Type} {st1 : CGState F} {thenV elseV : Operand F}
    {thenPred : ℕ} {st11 : CGState F} (hok11 : StOK st11)
    (hfresh : alGet (st1.nextBlock + 2) st11.blocks = none) :
    lenAt (ifMergeSt st1 thenV elseV thenPred st11) = 1 := by
  rw [lenAt]
  rw [show (ifMergeSt st1 thenV elseV thenPred st11).cur = st1.nextBlock + 2 from rfl,
    ifMergeSt_get_merge hok11 hfresh]
  rfl

/-- Simulation: lowering a pure expression with all variables bound succeeds,
evolves the builder state monotonically, and the emitted code, run inside any
control-flow graph extending the final builder state, computes exactly the
reference interpreter's value. -/
theorem cgSim {F : Type} (sem : FloatSem F) :
    ∀ (fuel : ℕ) (e : Expr F) (env : String → Option F) (v : F) (st : CGState F)
      (res : Except CgErr (Operand F)) (st₂ : CGState F),
      PureE e = true → VarsBound env e → esize e ≤ fuel →
      refInterp sem env e = some v → NvBound st env → StOK st →
      cgExprF sem fuel e st = (res, st₂) →
      ∃ op : Operand F, res = .ok op ∧ CgEvol st st₂ ∧ StOK st₂ ∧
        ∀ (cfg : List (ℕ × Block F)) (argv : List F) (regs : RegMap F) (mem : Mem F)
          (prev : ℕ),
          CfgExt st₂ cfg → RegsBound regs st.nextReg → EnvAgree st mem env →
          ∃ (regs₂ : RegMap F) (k prev₂ : ℕ),
            RegsLe regs regs₂ ∧ RegsBound regs₂ st₂.nextReg ∧
            evalOp regs₂ argv op = some (.fv v) ∧
            ∀ f : ℕ, execAt sem argv cfg (f + k) prev st.cur (lenAt st) regs mem
              = execAt sem argv cfg f prev₂ st₂.cur (lenAt st₂) regs₂ mem := by
  intro fuel
  induction fuel with
  | zero =>
    intro e env v st res st₂ hp hb hsz hri hnv hok heq
    cases e <;> (simp only [esize] at hsz; omega)
  | succ fuel ih =>
    intro e env v st res st₂ hp hb hsz hri hnv hok heq
    cases e with
    | num w =>
      simp only [cgExprF] at heq
      injection heq with h1 h2
      subst h2
      have hv : w = v := Option.some.inj hri
      subst hv
      refine ⟨.cst w, h1.symm, CgEvol_refl st, hok, ?_⟩
      intro cfg argv regs mem prev hext hrb hagree
      exact ⟨regs, 0, prev, fun n vv h => h, hrb, rfl, fun f => rfl⟩
    | varRef x =>
      have hxv : env x = some v := hri
      obtain ⟨s, hs⟩ := hnv x v hxv
      simp only [cgExprF] at heq
      rw [hs] at heq
      simp only [CGState.freshReg] at heq
      injection heq with h1 h2
      subst h2
      refine ⟨.reg st.nextReg, h1.symm, CgEvol_emit_reg st _, StOK_emit_reg _ hok, ?_⟩
      intro cfg argv regs mem prev hext hrb hagree
      obtain ⟨s₁, hs₁, hm⟩ := hagree x v hxv
      have hss : s₁ = s := by rw [hs] at hs₁; exact (Option.some.inj hs₁).symm
      subst hss
      refine ⟨rset regs st.nextReg (.fv v), 0, prev, RegsLe_rset_fresh _ hrb,
        RegsBound_rset _ hrb, rset_self regs st.nextReg (.fv v), ?_⟩
      intro f
      have hstep : instrStep sem argv prev regs mem (.load st.nextReg s₁)
          = some (rset regs st.nextReg (.fv v), mem) := by
        rw [instrStep, hm]
      exact exec_emit_step sem argv hok hext rfl rfl hstep f
    | binE op l r =>
      simp only [PureE, Bool.and_eq_true, Bool.or_eq_true, decide_eq_true_eq] at hp
      obtain ⟨⟨hop, hpl⟩, hpr⟩ := hp
      obtain ⟨hbl, hbr⟩ := hb
      simp only [esize] at hsz
      obtain ⟨vl, hlri⟩ := refInterp_total sem (esize l) l env (le_refl _) hpl hbl
      obtain ⟨vr, hrri⟩ := refInterp_total sem (esize r) r env (le_refl _) hpr hbr
      simp only [refInterp] at hri
      rw [hlri, hrri] at hri
      simp only [] at hri
      have hne : ¬ op = '=' := by
        rcases hop with ((((h | h) | h) | h) | h) <;> (rw [h]; decide)
      simp only [cgExprF] at heq
      rw [if_neg hne] at heq
      rcases hl : cgExprF sem fuel l st with ⟨rl, stl⟩
      rw [hl] at heq
      obtain ⟨lop, hrl, hev1, hok1, hx1⟩ :=
        ih l env vl st rl stl hpl hbl (by omega) hlri hnv hok hl
      subst hrl
      simp only [] at heq
      rcases hr : cgExprF sem fuel r stl with ⟨rr, str⟩
      rw [hr] at heq
      obtain ⟨rop, hrr, hev2, hok2, hx2⟩ :=
        ih r env vr stl rr str hpr hbr (by omega) hrri (NvBound_nv hnv hev1.nvEq) hok1 hr
      subst hrr
      simp only [] at heq
      have hevol := CgEvol_trans hok hev1 hev2
      rcases hop with ((((h | h) | h) | h) | h) <;> subst h
      · rw [if_pos rfl] at hri
        simp [cgBinOp, CGState.freshReg] at heq
        obtain ⟨h1, h2⟩ := heq
        subst h2
        have hvv : sem.add vl vr = v := Option.some.inj hri
        refine ⟨.reg str.nextReg, h1.symm,
          CgEvol_trans hok hevol (CgEvol_emit_reg str _), StOK_emit_reg _ hok2, ?_⟩
        intro cfg argv regs mem prev hext hrb hagree
        have hextC : CfgExt str cfg := CfgExt_of_eq (CfgExt_emit hext) rfl rfl
        have hextL : CfgExt stl cfg := CfgExt_evol hok1 hev2 hextC
        obtain ⟨regs₁, k₁, prev₁, hle₁, hrb₁, hval₁, heq₁⟩ :=
          hx1 cfg argv regs mem prev hextL hrb hagree
        obtain ⟨regs₂, k₂, prev₂, hle₂, hrb₂, hval₂, heq₂⟩ :=
          hx2 cfg argv regs₁ mem prev₁ hextC hrb₁ (EnvAgree_nv hagree hev1.nvEq)
        have hfl : evalOpF regs₂ argv lop = some vl :=
          evalOpF_of (evalOp_mono hle₂ hval₁)
        have hfr : evalOpF regs₂ argv rop = some vr := evalOpF_of hval₂
        have hstep : instrStep sem argv prev₂ regs₂ mem (.fadd str.nextReg lop rop)
            = some (rset regs₂ str.nextReg (.fv v), mem) := by
          rw [← hvv, instrStep, hfl, hfr]
        refine ⟨rset regs₂ str.nextReg (.fv v), k₁ + k₂, prev₂,
          RegsLe_trans (RegsLe_trans hle₁ hle₂) (RegsLe_rset_fresh _ hrb₂),
          RegsBound_rset _ hrb₂, rset_self _ _ _, ?_⟩
        intro f
        rw [show f + (k₁ + k₂) = (f + k₂) + k₁ by omega, heq₁ (f + k₂), heq₂ f]
        exact exec_emit_step sem argv hok2 hext rfl rfl hstep f
      · rw [if_neg (by decide), if_pos rfl] at hri
        simp [cgBinOp, CGState.freshReg] at heq
        obtain ⟨h1, h2⟩ := heq
        subst h2
        have hvv : sem.sub vl vr = v := Option.some.inj hri
        refine ⟨.reg str.nextReg, h1.symm,
          CgEvol_trans hok hevol (CgEvol_emit_reg str _), StOK_emit_reg _ hok2, ?_⟩
        intro cfg argv regs mem prev hext hrb hagree
        have hextC : CfgExt str cfg := CfgExt_of_eq (CfgExt_emit hext) rfl rfl
        have hextL : CfgExt stl cfg := CfgExt_evol hok1 hev2 hextC
        obtain ⟨regs₁, k₁, prev₁, hle₁, hrb₁, hval₁, heq₁⟩ :=
          hx1 cfg argv regs mem prev hextL hrb hagree
        obtain ⟨regs₂, k₂, prev₂, hle₂, hrb₂, hval₂, heq₂⟩ :=
          hx2 cfg argv regs₁ mem prev₁ hextC hrb₁ (EnvAgree_nv hagree hev1.nvEq)
        have hfl : evalOpF regs₂ argv lop = some vl :=
          evalOpF_of (evalOp_mono hle₂ hval₁)
        have hfr : evalOpF regs₂ argv rop = some vr := evalOpF_of hval₂
        have hstep : instrStep sem argv prev₂ regs₂ mem (.fsub str.nextReg lop rop)
            = some (rset regs₂ str.nextReg (.fv v), mem) := by
          rw [← hvv, instrStep, hfl, hfr]
        refine ⟨rset regs₂ str.nextReg (.fv v), k₁ + k₂, prev₂,
          RegsLe_trans (RegsLe_trans hle₁ hle₂) (RegsLe_rset_fresh _ hrb₂),
          RegsBound_rset _ hrb₂, rset_self _ _ _, ?_⟩
        intro f
        rw [show f + (k₁ + k₂) = (f + k₂) + k₁ by omega, heq₁ (f + k₂), heq₂ f]
        exact exec_emit_step sem argv hok2 hext rfl rfl hstep f
      · rw [if_neg (by decide), if_neg (by decide), if_pos rfl] at hri
        simp [cgBinOp, CGState.freshReg] at heq
        obtain ⟨h1, h2⟩ := heq
        subst h2
        have hvv : sem.mul vl vr = v := Option.some.inj hri
        refine ⟨.reg str.nextReg, h1.symm,
          CgEvol_trans hok hevol (CgEvol_emit_reg str _), StOK_emit_reg _ hok2, ?_⟩
        intro cfg argv regs mem prev hext hrb hagree
        have hextC : CfgExt str cfg := CfgExt_of_eq (CfgExt_emit hext) rfl rfl
        have hextL : CfgExt stl cfg := CfgExt_evol hok1 hev2 hextC
        obtain ⟨regs₁, k₁, prev₁, hle₁, hrb₁, hval₁, heq₁⟩ :=
          hx1 cfg argv regs mem prev hextL hrb hagree
        obtain ⟨regs₂, k₂, prev₂, hle₂, hrb₂, hval₂, heq₂⟩ :=
          hx2 cfg argv regs₁ mem prev₁ hextC hrb₁ (EnvAgree_nv hagree hev1.nvEq)
        have hfl : evalOpF regs₂ argv lop = some vl :=
          evalOpF_of (evalOp_mono hle₂ hval₁)
        have hfr : evalOpF regs₂ argv rop = some vr := evalOpF_of hval₂
        have hstep : instrStep sem argv prev₂ regs₂ mem (.fmul str.nextReg lop rop)
            = some (rset regs₂ str.nextReg (.fv v), mem) := by
          rw [← hvv, instrStep, hfl, hfr]
        refine ⟨rset regs₂ str.nextReg (.fv v), k₁ + k₂, prev₂,
          RegsLe_trans (RegsLe_trans hle₁ hle₂) (RegsLe_rset_fresh _ hrb₂),
          RegsBound_rset _ hrb₂, rset_self _ _ _, ?_⟩
        intro f
        rw [show f + (k₁ + k₂) = (f + k₂) + k₁ by omega, heq₁ (f + k₂), heq₂ f]
        exact exec_emit_step sem argv hok2 hext rfl rfl hstep f
      · rw [if_neg (by decide), if_neg (by decide), if_neg (by decide), if_pos rfl] at hri
        simp [cgBinOp, CGState.freshReg] at heq
        obtain ⟨h1, h2⟩ := heq
        subst h2
        have hvv : sem.div vl vr = v := Option.some.inj hri
        refine ⟨.reg str.nextReg, h1.symm,
          CgEvol_trans hok hevol (CgEvol_emit_reg str _), StOK_emit_reg _ hok2, ?_⟩
        intro cfg argv regs mem prev hext hrb hagree
        have hextC : CfgExt str cfg := CfgExt_of_eq (CfgExt_emit hext) rfl rfl
        have hextL : CfgExt stl cfg := CfgExt_evol hok1 hev2 hextC
        obtain ⟨regs₁, k₁, prev₁, hle₁, hrb₁, hval₁, heq₁⟩ :=
          hx1 cfg argv regs mem prev hextL hrb hagree
        obtain ⟨regs₂, k₂, prev₂, hle₂, hrb₂, hval₂, heq₂⟩ :=
          hx2 cfg argv regs₁ mem prev₁ hextC hrb₁ (EnvAgree_nv hagree hev1.nvEq)
        have hfl : evalOpF regs₂ argv lop = some vl :=
          evalOpF_of (evalOp_mono hle₂ hval₁)
        have hfr : evalOpF regs₂ argv rop = some vr := evalOpF_of hval₂
        have hstep : instrStep sem argv prev₂ regs₂ mem (.fdiv str.nextReg lop rop)
            = some (rset regs₂ str.nextReg (.fv v), mem) := by
          rw [← hvv, instrStep, hfl, hfr]
        refine ⟨rset regs₂ str.nextReg (.fv v), k₁ + k₂, prev₂,
          RegsLe_trans (RegsLe_trans hle₁ hle₂) (RegsLe_rset_fresh _ hrb₂),
          RegsBound_rset _ hrb₂, rset_self _ _ _, ?_⟩
        intro f
        rw [show f + (k₁ + k₂) = (f + k₂) + k₁ by omega, heq₁ (f + k₂), heq₂ f]
        exact exec_emit_step sem argv hok2 hext rfl rfl hstep f
      · rw [if_neg (by decide), if_neg (by decide), if_neg (by decide), if_neg (by decide),
          if_pos rfl] at hri
        simp [cgBinOp, CGState.freshReg] at heq
        obtain ⟨h1, h2⟩ := heq
        subst h2
        have hvv : sem.ofBool (sem.ult vl vr) = v := Option.some.inj hri
        refine ⟨.reg (str.nextReg + 1), h1.symm,
          CgEvol_trans hok hevol (CgEvol_trans hok2 (CgEvol_emit_reg str _)
            (CgEvol_emit_reg _ _)),
          StOK_emit_reg _ (StOK_emit_reg _ hok2), ?_⟩
        intro cfg argv regs mem prev hext hrb hagree
        have hextB : CfgExt (({str with nextReg := str.nextReg + 1}).emit
            (.fcmpult str.nextReg lop rop)) cfg := CfgExt_of_eq (CfgExt_emit hext) rfl rfl
        have hextC : CfgExt str cfg := CfgExt_of_eq (CfgExt_emit hextB) rfl rfl
        have hextL : CfgExt stl cfg := CfgExt_evol hok1 hev2 hextC
        obtain ⟨regs₁, k₁, prev₁, hle₁, hrb₁, hval₁, heq₁⟩ :=
          hx1 cfg argv regs mem prev hextL hrb hagree
        obtain ⟨regs₂, k₂, prev₂, hle₂, hrb₂, hval₂, heq₂⟩ :=
          hx2 cfg argv regs₁ mem prev₁ hextC hrb₁ (EnvAgree_nv hagree hev1.nvEq)
        have hfl : evalOpF regs₂ argv lop = some vl :=
          evalOpF_of (evalOp_mono hle₂ hval₁)
        have hfr : evalOpF regs₂ argv rop = some vr := evalOpF_of hval₂
        have hokB : StOK (({str with nextReg := str.nextReg + 1}).emit
            (.fcmpult str.nextReg lop rop)) := StOK_emit_reg _ hok2
        have hstep : instrStep sem argv prev₂ regs₂ mem (.fcmpult str.nextReg lop rop)
            = some (rset regs₂ str.nextReg (.bv (sem.ult vl vr)), mem) := by
          rw [instrStep, hfl, hfr]
        have hob : evalOpB (rset regs₂ str.nextReg (.bv (sem.ult vl vr))) argv
            (.reg str.nextReg) = some (sem.ult vl vr) := by
          rw [evalOpB, show evalOp (rset regs₂ str.nextReg (.bv (sem.ult vl vr))) argv
            (.reg str.nextReg) = some (.bv (sem.ult vl vr)) from rset_self _ _ _]
        have hstep2 : instrStep sem argv prev₂
            (rset regs₂ str.nextReg (.bv (sem.ult vl vr))) mem
            (.uitofp (str.nextReg + 1) (.reg str.nextReg))
            = some (rset (rset regs₂ str.nextReg (.bv (sem.ult vl vr)))
                (str.nextReg + 1) (.fv v), mem) := by
          rw [← hvv, instrStep, hob]
        refine ⟨rset (rset regs₂ str.nextReg (.bv (sem.ult vl vr))) (str.nextReg + 1) (.fv v),
          k₁ + k₂, prev₂,
          RegsLe_trans (RegsLe_trans hle₁ hle₂) (RegsLe_trans (RegsLe_rset_fresh _ hrb₂)
            (RegsLe_rset_fresh _ (RegsBound_rset _ hrb₂))),
          RegsBound_rset _ (RegsBound_rset _ hrb₂), rset_self _ _ _, ?_⟩
        intro f
        rw [show f + (k₁ + k₂) = (f + k₂) + k₁ by omega, heq₁ (f + k₂), heq₂ f]
        rw [exec_emit_step sem argv hok2 hextB rfl rfl hstep f]
        exact exec_emit_step sem argv hokB hext rfl rfl hstep2 f
    | ifE cnd thn els =>
      simp only [PureE, Bool.and_eq_true] at hp
      obtain ⟨⟨hpc, hpt⟩, hpe⟩ := hp
      obtain ⟨hbc, hbt, hbe⟩ := hb
      simp only [esize] at hsz
      obtain ⟨vc, hcri⟩ := refInterp_total sem (esize cnd) cnd env (le_refl _) hpc hbc
      obtain ⟨vt, htri⟩ := refInterp_total sem (esize thn) thn env (le_refl _) hpt hbt
      obtain ⟨ve, heri⟩ := refInterp_total sem (esize els) els env (le_refl _) hpe hbe
      simp only [refInterp] at hri
      rw [hcri] at hri
      simp only [] at hri
      rw [htri, heri] at hri
      rw [cgExprF_ifE_eq] at heq
      rcases hcg : cgExprF sem fuel cnd st with ⟨rc, st1⟩
      rw [hcg] at heq
      obtain ⟨cOp, hrc, hev1, hok1, hx1⟩ :=
        ih cnd env vc st rc st1 hpc hbc (by omega) hcri hnv hok hcg
      subst hrc
      simp only [] at heq
      have hnvE1 : (ifThenEntry sem cOp st1).namedValues = st.namedValues := by
        rw [show (ifThenEntry sem cOp st1).namedValues = st1.namedValues from rfl, hev1.nvEq]
      have hokE1 : StOK (ifThenEntry sem cOp st1) := ifThenEntry_ok hok1
      rcases hthn : cgExprF sem fuel thn (ifThenEntry sem cOp st1) with ⟨rt, st7⟩
      rw [hthn] at heq
      obtain ⟨tOp, hrt, hev2, hok7, hx2⟩ :=
        ih thn env vt _ rt st7 hpt hbt (by omega) htri (NvBound_nv hnv hnvE1) hokE1 hthn
      subst hrt
      simp only [] at heq
      have hcur1lt : st1.cur < st1.nextBlock := by
        obtain ⟨cb, hcb, _⟩ := hok1.curOpen
        exact hok1.idsLt st1.cur cb hcb
      have helse7 : alGet (st1.nextBlock + 1) st7.blocks = none := by
        refine hev2.freshNone _ ?_ (ifThenEntry_get_none hok1 (by omega)
          (alGet_none_of_ge hok1 (by omega)))
        rw [show (ifThenEntry sem cOp st1).nextBlock = st1.nextBlock + 3 from rfl]
        omega
      have hnb7 : st1.nextBlock + 3 ≤ st7.nextBlock := by
        have := hev2.nextBlockLe
        rw [show (ifThenEntry sem cOp st1).nextBlock = st1.nextBlock + 3 from rfl] at this
        exact this
      have hokE2 : StOK (ifElseEntry st1 st7) := ifElseEntry_ok hok7 helse7 hnb7
      have hnvE2 : (ifElseEntry st1 st7).namedValues = st.namedValues := by
        rw [show (ifElseEntry st1 st7).namedValues = st7.namedValues from rfl, hev2.nvEq, hnvE1]
      rcases hels : cgExprF sem fuel els (ifElseEntry st1 st7) with ⟨re, st11⟩
      rw [hels] at heq
      obtain ⟨eOp, hre, hev3, hok11, hx3⟩ :=
        ih els env ve _ re st11 hpe hbe (by omega) heri (NvBound_nv hnv hnvE2) hokE2 hels
      subst hre
      simp only [] at heq
      injection heq with h1 h2
      subst h2
      have hmerge7 : alGet (st1.nextBlock + 2) st7.blocks = none := by
        refine hev2.freshNone _ ?_ (ifThenEntry_get_none hok1 (by omega)
          (alGet_none_of_ge hok1 (by omega)))
        rw [show (ifThenEntry sem cOp st1).nextBlock = st1.nextBlock + 3 from rfl]
        omega
      have hmerge11 : alGet (st1.nextBlock + 2) st11.blocks = none := by
        refine hev3.freshNone _ ?_ (ifElseEntry_get_none hok7 (by omega) hmerge7)
        rw [show (ifElseEntry st1 st7).nextBlock = st7.nextBlock from rfl]
        omega
      have hnb11x : st7.nextBlock ≤ st11.nextBlock := hev3.nextBlockLe
      have hnb11 : st1.nextBlock + 3 ≤ st11.nextBlock := le_trans hnb7 hnb11x
      have hokM : StOK (ifMergeSt st1 tOp eOp st7.cur st11) :=
        ifMergeSt_ok hok11 hmerge11 hnb11
      have hcurlt : st.cur < st.nextBlock := by
        obtain ⟨cb, hcb, _⟩ := hok.curOpen
        exact hok.idsLt st.cur cb hcb
      have hnb01 : st.nextBlock ≤ st1.nextBlock := hev1.nextBlockLe
      have h7cur : st1.nextBlock ≤ st7.cur := by
        rcases hev2.curOr with hh | hh
        · rw [hh, show (ifThenEntry sem cOp st1).cur = st1.nextBlock from rfl]
        · rw [show (ifThenEntry sem cOp st1).nextBlock = st1.nextBlock + 3 from rfl] at hh
          omega
      have h7curne : st7.cur ≠ st1.nextBlock + 1 := by
        rcases hev2.curOr with hh | hh
        · rw [hh, show (ifThenEntry sem cOp st1).cur = st1.nextBlock from rfl]
          omega
        · rw [show (ifThenEntry sem cOp st1).nextBlock = st1.nextBlock + 3 from rfl] at hh
          omega
      have h11cur : st1.nextBlock + 1 ≤ st11.cur := by
        rcases hev3.curOr with hh | hh
        · rw [hh, show (ifElseEntry st1 st7).cur = st1.nextBlock + 1 from rfl]
        · rw [show (ifElseEntry st1 st7).nextBlock = st7.nextBlock from rfl] at hh
          omega
      have hT1ne11 : st7.cur ≠ st11.cur := by
        intro hh
        obtain ⟨blk7, hb7, _⟩ := hok7.curOpen
        have hT := @ifElseEntry_get_T1 F st1 st7 blk7 hb7
        have hne2 : st7.cur ≠ (ifElseEntry st1 st7).cur := by
          rw [show (ifElseEntry st1 st7).cur = st1.nextBlock + 1 from rfl]
          exact h7curne
        have h11 := hev3.closedPres st7.cur _ hne2 hT
        obtain ⟨cb, hcb, hcbnone⟩ := hok11.curOpen
        rw [hh, hcb] at h11
        have := Option.some.inj h11
        rw [this] at hcbnone
        exact Option.noConfusion hcbnone
      have hr2 : st1.nextReg + 1 ≤ st7.nextReg := hev2.nextRegLe
      have hr3 : st7.nextReg ≤ st11.nextReg := hev3.nextRegLe
      have hevA : CgEvol st st7 :=
        CgEvol_trans hok hev1 (CgEvol_trans hok1 (ifThenEntry_evol hok1) hev2)
      have hevol : CgEvol st (ifMergeSt st1 tOp eOp st7.cur st11) := by
        refine ⟨?_, ?_, ?_, ?_, ?_, ?_, ?_, ?_⟩
        · intro b blk hne h
          have hlt : b < st.nextBlock := hok.idsLt b blk h
          have h7 : alGet b st7.blocks = some blk := hevA.closedPres b blk hne h
          have hne7 : b ≠ st7.cur := by omega
          have hE2 : alGet b (ifElseEntry st1 st7).blocks = some blk :=
            ifElseEntry_get_old hne7 h7
          have hne2 : b ≠ (ifElseEntry st1 st7).cur := by
            rw [show (ifElseEntry st1 st7).cur = st1.nextBlock + 1 from rfl]
            omega
          have h11 : alGet b st11.blocks = some blk := hev3.closedPres b blk hne2 hE2
          have hne11 : b ≠ st11.cur := by omega
          exact ifMergeSt_get_old hmerge11 hne11 h11
        · intro blk h
          obtain ⟨blk7, hb7, suf, hsuf⟩ := hevA.curPres blk h
          have hne7 : st.cur ≠ st7.cur := by omega
          have hE2 := @ifElseEntry_get_old F st1 st7 st.cur blk7 hne7 hb7
          have hne2 : st.cur ≠ (ifElseEntry st1 st7).cur := by
            rw [show (ifElseEntry st1 st7).cur = st1.nextBlock + 1 from rfl]
            omega
          have h11 := hev3.closedPres _ _ hne2 hE2
          have hne11 : st.cur ≠ st11.cur := by omega
          exact ⟨blk7, ifMergeSt_get_old hmerge11 hne11 h11, suf, hsuf⟩
        · show st.nextBlock ≤ st11.nextBlock
          omega
        · show st.nextReg ≤ st11.nextReg + 1
          have r1 : st.nextReg ≤ st1.nextReg := hev1.nextRegLe
          omega
        · show st11.namedValues = st.namedValues
          rw [hev3.nvEq]
          exact hnvE2
        · right
          show st.nextBlock ≤ st1.nextBlock + 2
          omega
        · intro b hb h
          have h7 : alGet b st7.blocks = none := hevA.freshNone b hb h
          have hE2 : alGet b (ifElseEntry st1 st7).blocks = none :=
            ifElseEntry_get_none hok7 (by omega) h7
          have h11 : alGet b st11.blocks = none := by
            refine hev3.freshNone b ?_ hE2
            rw [show (ifElseEntry st1 st7).nextBlock = st7.nextBlock from rfl]
            omega
          exact ifMergeSt_get_none hok11 (by omega) h11
        · intro bid blk rest h
          obtain ⟨b7, r7, h7⟩ := hevA.headKeep bid blk rest h
          obtain ⟨bE, rE, hE⟩ := ifElseEntry_head h7
          obtain ⟨b11, r11, h11⟩ := hev3.headKeep _ _ _ hE
          exact ifMergeSt_head h11
      refine ⟨.reg st11.nextReg, h1.symm, hevol, hokM, ?_⟩
      intro cfg argv regs mem prev hext hrb hagree
      have hext11 : CfgExt st11 cfg := by
        refine ⟨?_, ?_⟩
        · intro b blk hne h
          have hbm : b ≠ st1.nextBlock + 2 := by
            intro hh
            rw [hh, hmerge11] at h
            exact Option.noConfusion h
          exact hext.closedPres b blk hbm (ifMergeSt_get_old hmerge11 hne h)
        · intro blk h
          have hbm : st11.cur ≠ st1.nextBlock + 2 := by
            intro hh
            rw [hh, hmerge11] at h
            exact Option.noConfusion h
          exact ⟨_, hext.closedPres _ _ hbm (ifMergeSt_get_E1v hmerge11 h), [], by simp⟩
      have hextE2 : CfgExt (ifElseEntry st1 st7) cfg := CfgExt_evol hokE2 hev3 hext11
      have hext7 : CfgExt st7 cfg := by
        refine ⟨?_, ?_⟩
        · intro b blk hne h
          have hbe : b ≠ st1.nextBlock + 1 := by
            intro hh
            rw [hh, helse7] at h
            exact Option.noConfusion h
          exact hextE2.closedPres b blk hbe (ifElseEntry_get_old hne h)
        · intro blk h
          exact ⟨_, hextE2.closedPres _ _ h7curne (ifElseEntry_get_T1 h), [], by simp⟩
      have hextE1 : CfgExt (ifThenEntry sem cOp st1) cfg := CfgExt_evol hokE1 hev2 hext7
      have hext1 : CfgExt st1 cfg := by
        refine ⟨?_, ?_⟩
        · intro b blk hne h
          have hlt : b < st1.nextBlock := hok1.idsLt b blk h
          have hbt : b ≠ (ifThenEntry sem cOp st1).cur := by
            rw [show (ifThenEntry sem cOp st1).cur = st1.nextBlock from rfl]
            omega
          exact hextE1.closedPres b blk hbt (ifThenEntry_get_old hne h)
        · intro blk h
          have hne : st1.cur ≠ (ifThenEntry sem cOp st1).cur := by
            rw [show (ifThenEntry sem cOp st1).cur = st1.nextBlock from rfl]
            omega
          exact ⟨_, hextE1.closedPres _ _ hne (ifThenEntry_get_cur h),
            [.fcmpone st1.nextReg cOp (.cst sem.zero)], rfl⟩
      obtain ⟨regs1, k1, prev1, hle1, hrb1, hval1, heq1⟩ :=
        hx1 cfg argv regs mem prev hext1 hrb hagree
      obtain ⟨blk1, hb1, _⟩ := hok1.curOpen
      have hcfgC : alGet st1.cur cfg
          = some ⟨blk1.instrs ++ [.fcmpone st1.nextReg cOp (.cst sem.zero)],
              some (.condbr (.reg st1.nextReg) st1.nextBlock (st1.nextBlock + 1))⟩ := by
        have hne : st1.cur ≠ (ifThenEntry sem cOp st1).cur := by
          rw [show (ifThenEntry sem cOp st1).cur = st1.nextBlock from rfl]
          omega
        exact hextE1.closedPres _ _ hne (ifThenEntry_get_cur hb1)
      have hlen1 : lenAt st1 = blk1.instrs.length := by rw [lenAt, hb1]
      obtain ⟨cfgM, hcM, sufM, hsM⟩ :=
        hext.curPres _ (ifMergeSt_get_merge hok11 hmerge11)
      have hcM2 : alGet (st1.nextBlock + 2) cfg = some cfgM := hcM
      have hdropM : cfgM.instrs.drop 0
          = (.phi st11.nextReg [(tOp, st7.cur), (eOp, st11.cur)]) :: sufM := by
        rw [List.drop_zero, hsM]
        rfl
      cases hbit : sem.cmpone vc sem.zero with
      | true =>
        rw [hbit] at hri
        simp only [if_true] at hri
        have hv : vt = v := Option.some.inj hri
        subst hv
        have hstepC : instrStep sem argv prev1 regs1 mem
            (.fcmpone st1.nextReg cOp (.cst sem.zero))
            = some (rset regs1 st1.nextReg (.bv true), mem) := by
          rw [instrStep, evalOpF_of hval1,
            show evalOpF regs1 argv (.cst sem.zero) = some sem.zero from rfl]
          simp only []
          rw [hbit]
        have hcB : evalOpB (rset regs1 st1.nextReg (.bv true)) argv (.reg st1.nextReg)
            = some true := by
          rw [evalOpB, show evalOp (rset regs1 st1.nextReg (.bv true)) argv
            (.reg st1.nextReg) = some (.bv true) from rset_self _ _ _]
        obtain ⟨regsT, k2, prevT, hle2, hrb2, hval2, heq2⟩ :=
          hx2 cfg argv (rset regs1 st1.nextReg (.bv true)) mem st1.cur hext7
            (RegsBound_rset _ hrb1) (EnvAgree_nv hagree hnvE1)
        have heq2b : ∀ f, execAt sem argv cfg (f + k2) st1.cur st1.nextBlock 0
              (rset regs1 st1.nextReg (.bv true)) mem
            = execAt sem argv cfg f prevT st7.cur (lenAt st7) regsT mem := by
          intro f
          have hh := heq2 f
          rw [ifThenEntry_len hok1] at hh
          exact hh
        obtain ⟨blk7, hb7, _⟩ := hok7.curOpen
        have hcfgT : alGet st7.cur cfg
            = some ⟨blk7.instrs, some (.br (st1.nextBlock + 2))⟩ :=
          hextE2.closedPres _ _ h7curne (ifElseEntry_get_T1 hb7)
        have hlen7 : lenAt st7 = blk7.instrs.length := by rw [lenAt, hb7]
        have hstepM : instrStep sem argv st7.cur regsT mem
            (.phi st11.nextReg [(tOp, st7.cur), (eOp, st11.cur)])
            = some (rset regsT st11.nextReg (.fv vt), mem) := by
          rw [instrStep,
            show ([(tOp, st7.cur), (eOp, st11.cur)].find? (fun p => p.2 = st7.cur))
              = some (tOp, st7.cur) from by simp]
          simp only []
          rw [hval2]
        refine ⟨rset regsT st11.nextReg (.fv vt), k1 + k2 + 2, st7.cur,
          RegsLe_trans (RegsLe_trans (RegsLe_trans hle1 (RegsLe_rset_fresh _ hrb1)) hle2)
            (RegsLe_rset_fresh _ (RegsBound_mono hrb2 hr3)),
          RegsBound_rset _ (RegsBound_mono hrb2 hr3), rset_self _ _ _, ?_⟩
        intro f
        show execAt sem argv cfg (f + (k1 + k2 + 2)) prev st.cur (lenAt st) regs mem
          = execAt sem argv cfg f st7.cur (st1.nextBlock + 2)
              (lenAt (ifMergeSt st1 tOp eOp st7.cur st11))
              (rset regsT st11.nextReg (.fv vt)) mem
        rw [ifMergeSt_len hok11 hmerge11]
        rw [show f + (k1 + k2 + 2) = (((f + 1) + k2) + 1) + k1 by omega,
          heq1 (((f + 1) + k2) + 1)]
        rw [execAt_instr (((f + 1) + k2) + 1) hcfgC
          (by rw [hlen1]; exact List.drop_left blk1.instrs _) hstepC]
        rw [show execAt sem argv cfg (((f + 1) + k2) + 1) prev1 st1.cur (lenAt st1 + 1)
              (rset regs1 st1.nextReg (.bv true)) mem
            = execAt sem argv cfg ((f + 1) + k2) st1.cur
              (if true then st1.nextBlock else st1.nextBlock + 1) 0
              (rset regs1 st1.nextReg (.bv true)) mem from
          execAt_condbr ((f + 1) + k2) hcfgC
            (by rw [hlen1, show blk1.instrs.length + 1
                = (blk1.instrs ++ [Instr.fcmpone st1.nextReg cOp (.cst sem.zero)]).length
                from by simp]; exact List.drop_length _) rfl hcB]
        rw [if_pos rfl, heq2b (f + 1)]
        rw [execAt_br f hcfgT (by rw [hlen7]; exact List.drop_length _) rfl]
        rw [execAt_instr f hcM2 hdropM hstepM]
      | false =>
        rw [hbit] at hri
        simp only [Bool.false_eq_true, if_false] at hri
        have hv : ve = v := Option.some.inj hri
        subst hv
        have hstepC : instrStep sem argv prev1 regs1 mem
            (.fcmpone st1.nextReg cOp (.cst sem.zero))
            = some (rset regs1 st1.nextReg (.bv false), mem) := by
          rw [instrStep, evalOpF_of hval1,
            show evalOpF regs1 argv (.cst sem.zero) = some sem.zero from rfl]
          simp only []
          rw [hbit]
        have hcB : evalOpB (rset regs1 st1.nextReg (.bv false)) argv (.reg st1.nextReg)
            = some false := by
          rw [evalOpB, show evalOp (rset regs1 st1.nextReg (.bv false)) argv
            (.reg st1.nextReg) = some (.bv false) from rset_self _ _ _]
        obtain ⟨regsE, k3, prevE, hle3, hrb3, hval3, heq3⟩ :=
          hx3 cfg argv (rset regs1 st1.nextReg (.bv false)) mem st1.cur hext11
            (RegsBound_mono (RegsBound_rset _ hrb1) hr2) (EnvAgree_nv hagree hnvE2)
        have heq3b : ∀ f, execAt sem argv cfg (f + k3) st1.cur (st1.nextBlock + 1) 0
              (rset regs1 st1.nextReg (.bv false)) mem
            = execAt sem argv cfg f prevE st11.cur (lenAt st11) regsE mem := by
          intro f
          have hh := heq3 f
          rw [ifElseEntry_len hok7 helse7] at hh
          exact hh
        obtain ⟨blk11, hb11, _⟩ := hok11.curOpen
        have hbm : st11.cur ≠ st1.nextBlock + 2 := by
          intro hh
          rw [hh, hmerge11] at hb11
          exact Option.noConfusion hb11
        have hcfgE : alGet st11.cur cfg
            = some ⟨blk11.instrs, some (.br (st1.nextBlock + 2))⟩ :=
          hext.closedPres _ _ hbm (ifMergeSt_get_E1v hmerge11 hb11)
        have hlen11 : lenAt st11 = blk11.instrs.length := by rw [lenAt, hb11]
        have hstepM : instrStep sem argv st11.cur regsE mem
            (.phi st11.nextReg [(tOp, st7.cur), (eOp, st11.cur)])
            = some (rset regsE st11.nextReg (.fv ve), mem) := by
          rw [instrStep,
            show ([(tOp, st7.cur), (eOp, st11.cur)].find? (fun p => p.2 = st11.cur))
              = some (eOp, st11.cur) from by simp [hT1ne11]]
          simp only []
          rw [hval3]
        refine ⟨rset regsE st11.nextReg (.fv ve), k1 + k3 + 2, st11.cur,
          RegsLe_trans (RegsLe_trans (RegsLe_trans hle1 (RegsLe_rset_fresh _ hrb1)) hle3)
            (RegsLe_rset_fresh _ hrb3),
          RegsBound_rset _ hrb3, rset_self _ _ _, ?_⟩
        intro f
        show execAt sem argv cfg (f + (k1 + k3 + 2)) prev st.cur (lenAt st) regs mem
          = execAt sem argv cfg f st11.cur (st1.nextBlock + 2)
              (lenAt (ifMergeSt st1 tOp eOp st7.cur st11))
              (rset regsE st11.nextReg (.fv ve)) mem
        rw [ifMergeSt_len hok11 hmerge11]
        rw [show f + (k1 + k3 + 2) = (((f + 1) + k3) + 1) + k1 by omega,
          heq1 (((f + 1) + k3) + 1)]
        rw [execAt_instr (((f + 1) + k3) + 1) hcfgC
          (by rw [hlen1]; exact List.drop_left blk1.instrs _) hstepC]
        rw [show execAt sem argv cfg (((f + 1) + k3) + 1) prev1 st1.cur (lenAt st1 + 1)
              (rset regs1 st1.nextReg (.bv false)) mem
            = execAt sem argv cfg ((f + 1) + k3) st1.cur
              (if false then st1.nextBlock else st1.nextBlock + 1) 0
              (rset regs1 st1.nextReg (.bv false)) mem from
          execAt_condbr ((f + 1) + k3) hcfgC
            (by rw [hlen1, show blk1.instrs.length + 1
                = (blk1.instrs ++ [Instr.fcmpone st1.nextReg cOp (.cst sem.zero)]).length
                from by simp]; exact List.drop_length _) rfl hcB]
        rw [if_neg (by simp), heq3b (f + 1)]
        rw [execAt_br f hcfgE (by rw [hlen11]; exact List.drop_length _) rfl]
        rw [execAt_instr f hcM2 hdropM hstepM]
    | unaryE a b => simp [PureE] at hp
    | callE a b => simp [PureE] at hp
    | forE a b c d e => simp [PureE] at hp
    | varInE a b => simp [PureE] at hp

/-- `FunctionAST::codegen` on an anonymous nullary definition, rephrased
through `anonEntry`. -/
theorem functionCodegen_anon {F : Type} (sem : FloatSem F) (fuel : ℕ) (T : PrecTable)
    (e : Expr F) :
    functionCodegen sem fuel ⟨⟨"__anon_expr", [], false, 0⟩, e⟩ (initCG F T)
      = (match cgExprF sem fuel e (anonEntry F T) with
         | (.ok retV, stB) =>
           (.ok "__anon_expr",
            { stB.setTerm (.ret retV) with
              module := alSet "__anon_expr" ⟨[], (stB.setTerm (.ret retV)).blocks⟩
                (stB.setTerm (.ret retV)).module })
         | (.error .nullV, stB) =>
           (.error .nullV,
            { stB.logMsg ("DEBUG---Error generating function body, removing function: "
                ++ "__anon_expr") with
              module := alErase "__anon_expr"
                (stB.logMsg ("DEBUG---Error generating function body, removing function: "
                  ++ "__anon_expr")).module })
         | (.error e', stB) => (.error e', stB)) := rfl

theorem anonEntry_ok (F : Type) (T : PrecTable) : StOK (anonEntry F T) where
  curOpen := ⟨⟨[], none⟩, rfl, rfl⟩
  closedTerm := by
    intro b blk h hne
    rw [show alGet b (anonEntry F T).blocks
      = if 0 = b then some ⟨[], none⟩ else none from rfl] at h
    by_cases hb : 0 = b
    · exact absurd hb.symm hne
    · rw [if_neg hb] at h
      exact Option.noConfusion h
  idsLt := by
    intro b blk h
    rw [show alGet b (anonEntry F T).blocks
      = if 0 = b then some ⟨[], none⟩ else none from rfl] at h
    by_cases hb : 0 = b
    · show b < 1
      omega
    · rw [if_neg hb] at h
      exact Option.noConfusion h

/-- Round trip for an anonymous nullary top-level expression: lowering the
pure expression and running the produced IR yields the reference
interpreter's value. -/
theorem anonRoundTrip {F : Type} (sem : FloatSem F) (T : PrecTable) (e : Expr F) (v : F)
    (fuel : ℕ) (hp : PureE e = true)
    (hb : VarsBound (fun _ => none : String → Option F) e)
    (hsz : esize e ≤ fuel) (hri : refInterp sem (fun _ => none) e = some v) :
    ∃ (st : CGState F) (fnIR : FnIR F),
      functionCodegen sem fuel ⟨⟨"__anon_expr", [], false, 0⟩, e⟩ (initCG F T)
        = (.ok "__anon_expr", st) ∧
      alGet "__anon_expr" st.module = some fnIR ∧
      ∃ k, ∀ f, execFn sem fnIR [] (f + k) = some v := by
  rcases hcg : cgExprF sem fuel e (anonEntry F T) with ⟨rb, stB⟩
  obtain ⟨op, hrb, hev, hokB, hx⟩ :=
    cgSim sem fuel e (fun _ => none) v (anonEntry F T) rb stB hp hb hsz hri
      (fun x w hw => Option.noConfusion hw) (anonEntry_ok F T) hcg
  subst hrb
  obtain ⟨blkB, hbB, _⟩ := hokB.curOpen
  have hlenB : lenAt stB = blkB.instrs.length := by rw [lenAt, hbB]
  refine ⟨{ stB.setTerm (.ret op) with
      module := alSet "__anon_expr" ⟨[], (stB.setTerm (.ret op)).blocks⟩
        (stB.setTerm (.ret op)).module },
    ⟨[], (stB.setTerm (.ret op)).blocks⟩, ?_, ?_, ?_⟩
  · rw [functionCodegen_anon, hcg]
  · exact alGet_alSet_self _ _ _
  · obtain ⟨regsF, k, prevF, hle, hrbF, hval, heqx⟩ :=
      hx (stB.setTerm (.ret op)).blocks [] (fun _ => none) (fun _ => none) 0
        (CfgExt_setTerm (CfgExt_refl (stB.setTerm (.ret op)))) (fun m _ => rfl)
        (fun x w hw => Option.noConfusion hw)
    refine ⟨k + 1, ?_⟩
    intro f
    obtain ⟨blkh, resth, hhead⟩ := hev.headKeep 0 ⟨[], none⟩ [] rfl
    have hcfg0 : ∃ blkh2 resth2,
        (stB.setTerm (.ret op)).blocks = (0, blkh2) :: resth2 := by
      show ∃ blkh2 resth2, stB.blocks.map _ = _
      rw [hhead]
      simp only [List.map_cons]
      by_cases hb0 : (0 : ℕ) = stB.cur
      · exact ⟨_, _, by rw [if_pos hb0]⟩
      · exact ⟨_, _, by rw [if_neg hb0]⟩
    obtain ⟨blkh2, resth2, hc0⟩ := hcfg0
    have hfn : execFn sem ⟨[], (stB.setTerm (.ret op)).blocks⟩ [] (f + (k + 1))
        = execB sem [] (stB.setTerm (.ret op)).blocks (f + (k + 1)) 0 0
            (fun _ => none) (fun _ => none) := by
      rw [execFn, hc0]
    rw [hfn, show f + (k + 1) = (f + k) + 1 from rfl,
      execB_succ sem [] (stB.setTerm (.ret op)).blocks (f + k) 0 0 _ _]
    have heqf : execAt sem [] (stB.setTerm (.ret op)).blocks (f + k) 0 0 0
          (fun _ => none) (fun _ => none)
        = execAt sem [] (stB.setTerm (.ret op)).blocks f prevF stB.cur (lenAt stB)
            regsF (fun _ => none) := heqx f
    rw [heqf,
      execAt_ret f (alGet_setTerm_self (.ret op) hbB)
        (by rw [hlenB]; exact List.drop_length _) rfl]
    exact evalOpF_of hval

/-- C1: round trip at the AST level.  First conjunct: for every
side-effect-free expression (the `PureE` fragment: numbers, bound variables,
the built-in non-assignment binary operators, and `if`) with no free
variables, over any semantics of the 64-bit floats, lowering it as the body
of the anonymous nullary function `__anon_expr` from a fresh lowering state
succeeds, and executing the emitted IR function returns exactly the value of
the reference interpreter over the AST.  Second conjunct: the top-level
expression `4+5;`, run through the embedded pipeline (lex, parse, lower,
execute, format), evaluates to 9 and prints `Evaluated to 9.000000`. -/
theorem c1_lowering_roundtrip :
    (∀ (F : Type) (sem : FloatSem F) (T : PrecTable) (e : Expr F) (v : F) (fuel : ℕ),
      PureE e = true →
      VarsBound (fun _ => none : String → Option F) e →
      esize e ≤ fuel →
      refInterp sem (fun _ => none) e = some v →
      ∃ (st : CGState F) (fnIR : FnIR F),
        functionCodegen sem fuel ⟨⟨"__anon_expr", [], false, 0⟩, e⟩ (initCG F T)
          = (.ok "__anon_expr", st) ∧
        alGet "__anon_expr" st.module = some fnIR ∧
        ∃ k, ∀ f, execFn sem fnIR [] (f + k) = some v) ∧
    runAnonPipeline "4+5;" 20 = some (9, "Evaluated to 9.000000") := by
  constructor
  · intro F sem T e v fuel hp hb hsz hri
    exact anonRoundTrip sem T e v fuel hp hb hsz hri
  · have h1 : runAnonPipeline "4+5;" 20
        = some (ratSem.add 4 5, "Evaluated to " ++ percentF (ratSem.add 4 5)) := rfl
    have h2 : ratSem.add 4 5 = 9 := by
      show (4 : ℚ) + 5 = 9
      norm_num
    have h3 : percentF 9 = "9.000000" := by
      have hf : ((9 : ℚ)).floor = 9 := rfl
      have h9 : ((9 : ℚ) - ((9 : ℤ) : ℚ)) * 1000000 = 0 := by norm_num
      rw [percentF, hf, h9]
      rfl
    rw [h1, h2, h3]
    rfl

/-- Witness for C1: the general round-trip conjunct applied at the concrete
pure expression `4+5` over the executable rational semantics. -/
theorem c1_lowering_roundtrip_witness :
    PureE (Expr.binE '+' (Expr.num (4 : ℚ)) (Expr.num 5)) = true ∧
    VarsBound (fun _ => none : String → Option ℚ) (.binE '+' (.num 4) (.num 5)) ∧
    esize (Expr.binE '+' (Expr.num (4 : ℚ)) (Expr.num 5)) ≤ 3 ∧
    refInterp ratSem (fun _ => none) (.binE '+' (.num 4) (.num 5)) = some 9 ∧
    (∃ (st : CGState ℚ) (fnIR : FnIR ℚ),
      functionCodegen ratSem 3
          ⟨⟨"__anon_expr", [], false, 0⟩, .binE '+' (.num 4) (.num 5)⟩
          (initCG ℚ seededTable)
        = (.ok "__anon_expr", st) ∧
      alGet "__anon_expr" st.module = some fnIR ∧
      ∃ k, ∀ f, execFn ratSem fnIR [] (f + k) = some 9) := by
  have hri : refInterp ratSem (fun _ => none) (.binE '+' (.num 4) (.num 5)) = some 9 := by
    rw [show refInterp ratSem (fun _ => none) (.binE '+' (.num 4) (.num 5))
      = some ((4 : ℚ) + 5) from rfl]
    norm_num
  refine ⟨rfl, ⟨trivial, trivial⟩, by decide, hri, ?_⟩
  exact c1_lowering_roundtrip.1 ℚ ratSem seededTable (.binE '+' (.num 4) (.num 5)) 9 3
    rfl ⟨trivial, trivial⟩ (by decide) hri
end Kal
